import Mathlib

/-!
Verification of the stoichiometry-calculator chemical-equation balancing
engine.

The JavaScript sources are shallowly embedded.  The `Fraction` classes
(`num`/`den` in the main application, `n`/`d` in the fractions module; the
two implement the same constructor and operations) become the structure
`Frac`; JS numbers that hold integer values become `Int` (the source only
ever stores exact integers in them on the solve path); JS arrays become
`List`; JS objects used as string-keyed maps become association lists in
insertion order.  The only places the source touches floating point on the
solve path are `Math.round` applied to an integer-valued scaled fraction,
exact integer divisions, and magnitude comparisons used to select pivots;
these are modelled by the corresponding exact operations.
-/

set_option maxHeartbeats 1000000

/-! ### The Fraction class -/

/-- Exact fraction, mirroring the fields of the `Fraction` class
(`constructor(num, den)` in app.js, `constructor(numerator, denominator)`
in fractions.js). -/
structure Frac where
  num : Int
  den : Int
deriving DecidableEq, Repr

/-- JS `gcd(a, b) { return b === 0 ? a : this.gcd(b, a % b); }`, always
called on non-negative arguments: Euclid's algorithm with the argument
roles of `Nat.gcd` swapped.  `gcdTwo_recurrence` below checks that this
definition satisfies exactly the recurrence of the source. -/
def gcdTwo (a b : Nat) : Nat := Nat.gcd b a

theorem gcdTwo_eq_gcd (b a : Nat) : gcdTwo a b = Nat.gcd b a := rfl

theorem gcdTwo_recurrence (a b : Nat) :
    gcdTwo a b = if b = 0 then a else gcdTwo b (a % b) := by
  by_cases hb : b = 0
  · simp [gcdTwo, hb]
  · rw [if_neg hb, gcdTwo, gcdTwo, Nat.gcd_rec b a]

/-- JS `lcmTwo(a, b) { return Math.abs(a * b) / gcdTwo(a, b); }` on
non-negative arguments (the division is exact). -/
def lcmTwo (a b : Nat) : Nat := a * b / gcdTwo a b

theorem lcmTwo_eq_lcm (a b : Nat) : lcmTwo a b = Nat.lcm a b := by
  rw [lcmTwo, gcdTwo_eq_gcd, Nat.gcd_comm, Nat.lcm]

/-- The `Fraction` constructor: flip signs so the denominator is
non-negative, then divide both components by `gcd(|num|, |den|)`.  The
source throws on a zero denominator; here a zero denominator is passed
through (the guard `g = 0` can only trigger when both arguments are zero),
and it never arises on the executed paths because every division performed
by the solver is guarded by a nonzero test. -/
def mkFrac (num den : Int) : Frac :=
  let num' := if den < 0 then -num else num
  let den' := if den < 0 then -den else den
  let g : Int := Int.gcd num' den'
  if g = 0 then { num := num', den := den' } else { num := num' / g, den := den' / g }

/-- The rational value of a fraction. -/
def Frac.val (f : Frac) : ℚ := (f.num : ℚ) / (f.den : ℚ)

/-- Well-formedness produced by the constructor: positive denominator and
reduced components.  Every `Fraction` object in the source is built by the
constructor, so every reachable value satisfies this. -/
def Frac.Reduced (f : Frac) : Prop := 0 < f.den ∧ Int.gcd f.num f.den = 1

instance (f : Frac) : Decidable f.Reduced := by
  unfold Frac.Reduced
  infer_instance

theorem mkFrac_pos_def (num den : Int) (hd : 0 < den) :
    mkFrac num den = { num := num / Int.gcd num den, den := den / Int.gcd num den } := by
  have hlt : ¬ den < 0 := not_lt.mpr (le_of_lt hd)
  have hg : ¬ ((Int.gcd num den : Int) = 0) := by
    rw [Int.natCast_eq_zero, Int.gcd_eq_zero_iff]
    rintro ⟨-, h2⟩
    omega
  simp only [mkFrac, if_neg hlt, if_neg hg]

theorem mkFrac_neg_def (num den : Int) (hd : den < 0) :
    mkFrac num den = mkFrac (-num) (-den) := by
  have h2 : ¬ (-den) < 0 := by omega
  simp only [mkFrac, if_pos hd, if_neg h2]

theorem mkFrac_reduced_of_pos (num den : Int) (hd : 0 < den) :
    (mkFrac num den).Reduced := by
  rw [mkFrac_pos_def num den hd]
  have hdvd_num : (Int.gcd num den : Int) ∣ num := Int.gcd_dvd_left
  have hdvd_den : (Int.gcd num den : Int) ∣ den := Int.gcd_dvd_right
  have hgpos : 0 < (Int.gcd num den : Int) := by
    rcases Nat.eq_zero_or_pos (Int.gcd num den) with h | h
    · rw [Int.gcd_eq_zero_iff] at h
      omega
    · exact_mod_cast h
  constructor
  · by_contra hle
    push_neg at hle
    have := mul_nonpos_of_nonpos_of_nonneg hle (le_of_lt hgpos)
    rw [Int.ediv_mul_cancel hdvd_den] at this
    omega
  · show Int.gcd (num / Int.gcd num den) (den / Int.gcd num den) = 1
    have hnum : (num / (Int.gcd num den : Int)).natAbs = num.natAbs / Int.gcd num den := by
      simpa using Int.natAbs_ediv num (Int.gcd num den) hdvd_num
    have hden : (den / (Int.gcd num den : Int)).natAbs = den.natAbs / Int.gcd num den := by
      simpa using Int.natAbs_ediv den (Int.gcd num den) hdvd_den
    have hgnat : 0 < Nat.gcd num.natAbs den.natAbs := by
      exact_mod_cast hgpos
    rw [Int.gcd, hnum, hden]
    exact Nat.coprime_div_gcd_div_gcd hgnat

theorem val_mkFrac_of_pos (num den : Int) (hd : 0 < den) :
    (mkFrac num den).val = (num : ℚ) / (den : ℚ) := by
  rw [mkFrac_pos_def num den hd]
  have hdvd_num : (Int.gcd num den : Int) ∣ num := Int.gcd_dvd_left
  have hdvd_den : (Int.gcd num den : Int) ∣ den := Int.gcd_dvd_right
  have hgpos : 0 < (Int.gcd num den : Int) := by
    rcases Nat.eq_zero_or_pos (Int.gcd num den) with h | h
    · rw [Int.gcd_eq_zero_iff] at h
      omega
    · exact_mod_cast h
  show ((num / (Int.gcd num den : Int) : Int) : ℚ) / ((den / (Int.gcd num den : Int) : Int) : ℚ)
      = (num : ℚ) / (den : ℚ)
  rw [Int.cast_div_charZero hdvd_num, Int.cast_div_charZero hdvd_den]
  have hgq : ((Int.gcd num den : Int) : ℚ) ≠ 0 := by
    exact_mod_cast ne_of_gt hgpos
  have hdq : ((den : Int) : ℚ) ≠ 0 := by
    exact_mod_cast ne_of_gt hd
  field_simp
  rw [mul_assoc, mul_div_assoc,
    div_self (mul_ne_zero (by exact_mod_cast ne_of_gt hgpos) hdq), mul_one]

theorem mkFrac_reduced (num den : Int) (hd : den ≠ 0) : (mkFrac num den).Reduced := by
  rcases lt_or_gt_of_ne hd with h | h
  · rw [mkFrac_neg_def num den h]
    exact mkFrac_reduced_of_pos _ _ (by omega)
  · exact mkFrac_reduced_of_pos _ _ h

theorem val_mkFrac (num den : Int) (hd : den ≠ 0) :
    (mkFrac num den).val = (num : ℚ) / (den : ℚ) := by
  rcases lt_or_gt_of_ne hd with h | h
  · rw [mkFrac_neg_def num den h, val_mkFrac_of_pos _ _ (by omega : (0:Int) < -den)]
    push_cast
    rw [neg_div_neg_eq]
  · exact val_mkFrac_of_pos _ _ h

theorem mkFrac_int_def (n : Int) : mkFrac n 1 = { num := n, den := 1 } := by
  rw [mkFrac_pos_def n 1 one_pos]
  simp [Int.gcd]

theorem frac_reduced_den_pos {f : Frac} (h : f.Reduced) : 0 < f.den := h.1

theorem frac_num_eq_zero_iff_val {f : Frac} (h : f.Reduced) : f.num = 0 ↔ f.val = 0 := by
  rw [Frac.val, div_eq_zero_iff]
  have : ((f.den : Int) : ℚ) ≠ 0 := by
    exact_mod_cast ne_of_gt h.1
  constructor
  · intro hn
    left
    exact_mod_cast hn
  · rintro (hn | hn)
    · exact_mod_cast hn
    · exact absurd hn this

/-! ### Fraction operations (methods of the `Fraction` classes) -/

def Frac.add (a b : Frac) : Frac :=
  mkFrac (a.num * b.den + b.num * a.den) (a.den * b.den)

def Frac.subtract (a b : Frac) : Frac :=
  mkFrac (a.num * b.den - b.num * a.den) (a.den * b.den)

def Frac.multiply (a b : Frac) : Frac :=
  mkFrac (a.num * b.num) (a.den * b.den)

def Frac.divide (a b : Frac) : Frac :=
  mkFrac (a.num * b.den) (a.den * b.num)

/-- `neg()` of fractions.js; app.js writes `multiply(new Fraction(-1))`,
which constructs the same value (see `frac_multiply_neg_one`). -/
def Frac.neg (a : Frac) : Frac := mkFrac (-a.num) a.den

/-- `abs()`: `new Fraction(Math.abs(this.num), this.den)`. -/
def Frac.absF (a : Frac) : Frac := mkFrac (a.num.natAbs : Int) a.den

def Frac.isZero (a : Frac) : Bool := a.num = 0

def Frac.isNegative (a : Frac) : Bool := a.num < 0

/-- `cmp(other)` of fractions.js: the sign of `n₁d₂ - n₂d₁`. -/
def Frac.cmpDiff (a b : Frac) : Int := a.num * b.den - b.num * a.den

/-- `gt(other)` with an integer argument (the argument is converted through
the constructor, giving denominator 1). -/
def Frac.gtInt (a : Frac) (k : Int) : Bool := 0 < a.cmpDiff (mkFrac k 1)

/-- `lt(other)` with an integer argument. -/
def Frac.ltInt (a : Frac) (k : Int) : Bool := a.cmpDiff (mkFrac k 1) < 0

theorem frac_multiply_neg_one (a : Frac) : a.multiply (mkFrac (-1) 1) = a.neg := by
  rw [Frac.multiply, Frac.neg, mkFrac_int_def]
  norm_num

theorem frac_add_reduced {a b : Frac} (ha : a.Reduced) (hb : b.Reduced) :
    (a.add b).Reduced :=
  mkFrac_reduced _ _ (ne_of_gt (mul_pos ha.1 hb.1))

theorem frac_subtract_reduced {a b : Frac} (ha : a.Reduced) (hb : b.Reduced) :
    (a.subtract b).Reduced :=
  mkFrac_reduced _ _ (ne_of_gt (mul_pos ha.1 hb.1))

theorem frac_multiply_reduced {a b : Frac} (ha : a.Reduced) (hb : b.Reduced) :
    (a.multiply b).Reduced :=
  mkFrac_reduced _ _ (ne_of_gt (mul_pos ha.1 hb.1))

theorem frac_divide_reduced {a b : Frac} (ha : a.Reduced) (hb : b.Reduced)
    (hnz : b.num ≠ 0) : (a.divide b).Reduced :=
  mkFrac_reduced _ _ (mul_ne_zero (ne_of_gt ha.1) hnz)

theorem frac_neg_reduced {a : Frac} (ha : a.Reduced) : a.neg.Reduced :=
  mkFrac_reduced _ _ (ne_of_gt ha.1)

theorem frac_val_add {a b : Frac} (ha : a.Reduced) (hb : b.Reduced) :
    (a.add b).val = a.val + b.val := by
  rw [Frac.add, val_mkFrac _ _ (ne_of_gt (mul_pos ha.1 hb.1)), Frac.val, Frac.val]
  have h1 : ((a.den : Int) : ℚ) ≠ 0 := by exact_mod_cast ne_of_gt ha.1
  have h2 : ((b.den : Int) : ℚ) ≠ 0 := by exact_mod_cast ne_of_gt hb.1
  push_cast
  field_simp

theorem frac_val_subtract {a b : Frac} (ha : a.Reduced) (hb : b.Reduced) :
    (a.subtract b).val = a.val - b.val := by
  rw [Frac.subtract, val_mkFrac _ _ (ne_of_gt (mul_pos ha.1 hb.1)), Frac.val, Frac.val]
  have h1 : ((a.den : Int) : ℚ) ≠ 0 := by exact_mod_cast ne_of_gt ha.1
  have h2 : ((b.den : Int) : ℚ) ≠ 0 := by exact_mod_cast ne_of_gt hb.1
  push_cast
  field_simp
  ring

theorem frac_val_multiply {a b : Frac} (ha : a.Reduced) (hb : b.Reduced) :
    (a.multiply b).val = a.val * b.val := by
  rw [Frac.multiply, val_mkFrac _ _ (ne_of_gt (mul_pos ha.1 hb.1)), Frac.val, Frac.val]
  have h1 : ((a.den : Int) : ℚ) ≠ 0 := by exact_mod_cast ne_of_gt ha.1
  have h2 : ((b.den : Int) : ℚ) ≠ 0 := by exact_mod_cast ne_of_gt hb.1
  push_cast
  field_simp

theorem frac_val_divide {a b : Frac} (ha : a.Reduced) (hb : b.Reduced)
    (hnz : b.num ≠ 0) : (a.divide b).val = a.val / b.val := by
  rw [Frac.divide, val_mkFrac _ _ (mul_ne_zero (ne_of_gt ha.1) hnz), Frac.val, Frac.val]
  have h1 : ((a.den : Int) : ℚ) ≠ 0 := by exact_mod_cast ne_of_gt ha.1
  have h2 : ((b.den : Int) : ℚ) ≠ 0 := by exact_mod_cast ne_of_gt hb.1
  have h3 : ((b.num : Int) : ℚ) ≠ 0 := by exact_mod_cast hnz
  push_cast
  field_simp

theorem frac_val_neg {a : Frac} (ha : a.Reduced) : a.neg.val = -a.val := by
  rw [Frac.neg, val_mkFrac _ _ (ne_of_gt ha.1), Frac.val]
  push_cast
  ring

theorem frac_isZero_iff {a : Frac} (ha : a.Reduced) : a.isZero = true ↔ a.val = 0 := by
  rw [Frac.isZero, decide_eq_true_iff]
  exact frac_num_eq_zero_iff_val ha

theorem frac_val_int (n : Int) : (mkFrac n 1).val = (n : ℚ) := by
  rw [val_mkFrac n 1 one_ne_zero]
  norm_num

/-- A reduced fraction with value zero is the canonical zero `0/1`. -/
theorem frac_reduced_zero_eq {a : Frac} (ha : a.Reduced) (h0 : a.num = 0) :
    a = { num := 0, den := 1 } := by
  obtain ⟨hpos, hg⟩ := ha
  rw [h0] at hg
  have hd1 : a.den.natAbs = 1 := by
    simpa [Int.gcd] using hg
  have hden : a.den = 1 := by omega
  calc a = { num := a.num, den := a.den } := rfl
  _ = { num := 0, den := 1 } := by rw [h0, hden]

/-! ### Matrices of fractions

Matrices are JS arrays of row arrays.  Out-of-range reads (which would be
`undefined` in JS and would throw on the first method call) are given
defaults; all reads on the executed paths are in range. -/

abbrev Mat := List (List Frac)

def entryD (row : List Frac) (j : Nat) : Frac := row.getD j (mkFrac 0 1)

def entry (A : Mat) (i j : Nat) : Frac := entryD (A.getD i []) j

/-- `[augmented[pivot], augmented[maxRow]] = [augmented[maxRow], augmented[pivot]]` -/
def swapRows (A : Mat) (i j : Nat) : Mat :=
  let ri := A.getD i []
  let rj := A.getD j []
  (A.set i rj).set j ri

/-- Divide every entry of row `i` by the pivot value. -/
def scaleRowByPivot (A : Mat) (i : Nat) (pv : Frac) : Mat :=
  A.set i ((A.getD i []).map (fun x => x.divide pv))

/-- Subtract `factor` times the pivot row from every other row whose entry
in the pivot column is nonzero (`factor` being that entry).  The pivot row
itself is never modified, so reading it from the incoming matrix matches
the sequential JS loop. -/
def eliminateColumn (A : Mat) (piv col : Nat) : Mat :=
  let pivotRow := A.getD piv []
  A.mapIdx (fun r rowr =>
    if r ≠ piv ∧ ¬ (entryD rowr col).isZero then
      let factor := entryD rowr col
      List.zipWith (fun x p => x.subtract (p.multiply factor)) rowr pivotRow
    else rowr)

/-- Pivot choice of `LinearAlgebra.rref` (linear.js): the first row at or
below the current rank whose entry in the column is nonzero. -/
def pickFirstNonzero (A : Mat) (rank col : Nat) : Option Nat :=
  (List.range' rank (A.length - rank)).find? (fun r => ¬ (entry A r col).isZero)

/-- Magnitude comparison `a.abs().toNumber() > b.abs().toNumber()` used by
`computeNullspace` to select pivots; the float comparison is modelled
exactly (cross-multiplication with the positive denominators). -/
def absGtB (a b : Frac) : Bool :=
  (b.num.natAbs : Int) * a.den < (a.num.natAbs : Int) * b.den

/-- Pivot choice of `computeNullspace` (app.js): scan rows below the pivot
for the entry of largest absolute value, then skip the column if the
selected entry is zero. -/
def pickMaxAbs (A : Mat) (pivot col : Nat) : Option Nat :=
  let maxRow := (List.range' (pivot + 1) (A.length - (pivot + 1))).foldl
    (fun m r => if absGtB (entry A r col) (entry A m col) then r else m) pivot
  if (entry A maxRow col).isZero then none else some maxRow

/-- The Gaussian elimination loop shared by `LinearAlgebra.rref`
(linear.js) and `computeNullspace` (app.js).  The two differ only in the
pivot-row choice (`pick`) and in that linear.js skips the scaling division
when the pivot already equals 1 (`skipUnitScale`; the division would be the
identity).  The loop runs over columns while `col < cols && rank < rows`,
exactly as in both sources; the structural `fuel` argument (always called
with `fuel = cols`, and irrelevant as soon as `fuel ≥ cols - col`) only
bounds the recursion. -/
def elimLoop (pick : Mat → Nat → Nat → Option Nat) (skipUnitScale : Bool)
    (rows cols : Nat) : Nat → Nat → Nat → Mat → List Nat → Mat × List Nat
  | 0, _, _, A, pcs => (A, pcs)
  | fuel + 1, col, rank, A, pcs =>
    if col < cols ∧ rank < rows then
      match pick A rank col with
      | none => elimLoop pick skipUnitScale rows cols fuel (col + 1) rank A pcs
      | some r =>
        let A1 := swapRows A rank r
        let pv := entry A1 rank col
        let A2 := if skipUnitScale ∧ pv.num = pv.den then A1 else scaleRowByPivot A1 rank pv
        let A3 := eliminateColumn A2 rank col
        elimLoop pick skipUnitScale rows cols fuel (col + 1) (rank + 1) A3 (pcs ++ [col])
    else (A, pcs)

/-- One step of back-substitution (`solution[pivotCol] = -sum` with
`sum = Σ_{j > pivotCol} R[i][j] * solution[j]`).  linear.js writes
`sum.neg()` and app.js `sum.multiply(new Fraction(-1))`; the two construct
the same value (`frac_multiply_neg_one`). -/
def backSubRow (R : Mat) (pcs : List Nat) (cols i : Nat) (sol : List Frac) : List Frac :=
  let pivotCol := pcs.getD i 0
  let sum := (List.range' (pivotCol + 1) (cols - (pivotCol + 1))).foldl
    (fun s j => s.add ((entry R i j).multiply (entryD sol j))) (mkFrac 0 1)
  sol.set pivotCol sum.neg

/-- `for (let i = pivotCols.length - 1; i >= 0; i--)` -/
def backSubGo (R : Mat) (pcs : List Nat) (cols : Nat) : Nat → List Frac → List Frac
  | 0, sol => sol
  | i + 1, sol => backSubGo R pcs cols i (backSubRow R pcs cols i sol)

/-- Build the nullspace vector for one free column: start from the zero
vector with a 1 in the free column, then back-substitute the pivot
columns from last to first. -/
def backSubstitute (R : Mat) (pcs : List Nat) (cols freeCol : Nat) : List Frac :=
  let sol := (List.replicate cols (mkFrac 0 1)).set freeCol (mkFrac 1 1)
  backSubGo R pcs cols pcs.length sol

structure RrefResult where
  rref : Mat
  rank : Nat
  pivotCols : List Nat

namespace LinearAlgebra

/-- `LinearAlgebra.rref` (linear.js).  The deep copy of the input is the
identity here; the running `rank` counter always equals
`pivotCols.length`. -/
def rref (matrix : Mat) : RrefResult :=
  match matrix with
  | [] => { rref := [], rank := 0, pivotCols := [] }
  | row0 :: _ =>
    let rows := matrix.length
    let cols := row0.length
    let res := elimLoop pickFirstNonzero true rows cols cols 0 0 matrix []
    { rref := res.1, rank := res.2.length, pivotCols := res.2 }

/-- `LinearAlgebra.nullspace` (linear.js). -/
def nullspace (matrix : Mat) : List (List Frac) :=
  match matrix with
  | [] => []
  | row0 :: _ =>
    let cols := row0.length
    let res := rref matrix
    let freeVars := (List.range cols).filter (fun j => ¬ j ∈ res.pivotCols)
    freeVars.map (fun freeVar => backSubstitute res.rref res.pivotCols cols freeVar)

end LinearAlgebra

/-- `computeNullspace` (app.js).  On an empty matrix the source
dereferences `matrix[0].length` and throws; the caller catches the throw
and produces a failure result, just as it does for the `null` return, so
both are modelled as `none`. -/
def computeNullspace (matrix : Mat) : Option (List (List Frac)) :=
  match matrix with
  | [] => none
  | row0 :: _ =>
    let rows := matrix.length
    let cols := row0.length
    let res := elimLoop pickMaxAbs false rows cols cols 0 0 matrix []
    let freeVars := (List.range cols).filter (fun j => ¬ j ∈ res.2)
    if freeVars.isEmpty then none
    else some (freeVars.map (fun freeCol => backSubstitute res.1 res.2 cols freeCol))

/-! ### Value-level facts about the elimination steps -/

theorem getD_of_lt {α : Type} (l : List α) (i : Nat) (d : α) (h : i < l.length) :
    l.getD i d = l[i] := by
  rw [List.getD_eq_getElem?_getD, List.getElem?_eq_getElem h]
  rfl

theorem getD_mem_of_lt {α : Type} {l : List α} {i : Nat} {d : α} (h : i < l.length) :
    l.getD i d ∈ l := by
  rw [getD_of_lt l i d h]
  exact List.getElem_mem h

theorem getD_set_eq {α : Type} (l : List α) (i : Nat) (a d : α) (h : i < l.length) :
    (l.set i a).getD i d = a := by
  rw [List.getD_eq_getElem?_getD, List.getElem?_set_self h]
  rfl

theorem getD_set_ne {α : Type} (l : List α) {i j : Nat} (a d : α) (h : i ≠ j) :
    (l.set i a).getD j d = l.getD j d := by
  rw [List.getD_eq_getElem?_getD, List.getElem?_set_ne h, List.getD_eq_getElem?_getD]

/-- Every entry of every row is constructor-reduced. -/
def MatReduced (A : Mat) : Prop := ∀ row ∈ A, ∀ x ∈ row, x.Reduced

/-- Every row has length `cols`. -/
def MatRect (A : Mat) (cols : Nat) : Prop := ∀ row ∈ A, row.length = cols

theorem entry_reduced {A : Mat} {cols : Nat} (hred : MatReduced A) (hrect : MatRect A cols)
    {i j : Nat} (hi : i < A.length) (hj : j < cols) : (entry A i j).Reduced := by
  have hrow : A.getD i [] ∈ A := getD_mem_of_lt hi
  have hlen : (A.getD i []).length = cols := hrect _ hrow
  exact hred _ hrow _ (getD_mem_of_lt (by omega))

theorem swapRows_length (A : Mat) (i j : Nat) : (swapRows A i j).length = A.length := by
  simp [swapRows]

theorem swapRows_getD (A : Mat) {i j : Nat} (r : Nat) (hi : i < A.length) (hj : j < A.length) :
    (swapRows A i j).getD r [] =
      A.getD (if r = j then i else if r = i then j else r) [] := by
  unfold swapRows
  by_cases h1 : r = j
  · subst h1
    rw [if_pos rfl, getD_set_eq _ _ _ _ (by simpa using hj)]
  · rw [if_neg h1, getD_set_ne _ _ _ (fun hh => h1 hh.symm)]
    by_cases h2 : r = i
    · subst h2
      rw [if_pos rfl, getD_set_eq _ _ _ _ hi]
    · rw [if_neg h2, getD_set_ne _ _ _ (fun hh => h2 hh.symm)]

theorem swapRows_rect {A : Mat} {cols : Nat} (h : MatRect A cols) {i j : Nat}
    (hi : i < A.length) (hj : j < A.length) : MatRect (swapRows A i j) cols := by
  intro row hrow
  unfold swapRows at hrow
  rcases List.mem_or_eq_of_mem_set hrow with h1 | h1
  · rcases List.mem_or_eq_of_mem_set h1 with h2 | h2
    · exact h _ h2
    · subst h2
      exact h _ (getD_mem_of_lt hj)
  · subst h1
    exact h _ (getD_mem_of_lt hi)

theorem swapRows_reduced {A : Mat} (h : MatReduced A) {i j : Nat}
    (hi : i < A.length) (hj : j < A.length) : MatReduced (swapRows A i j) := by
  intro row hrow
  unfold swapRows at hrow
  rcases List.mem_or_eq_of_mem_set hrow with h1 | h1
  · rcases List.mem_or_eq_of_mem_set h1 with h2 | h2
    · exact h _ h2
    · subst h2
      exact h _ (getD_mem_of_lt hj)
  · subst h1
    exact h _ (getD_mem_of_lt hi)

theorem entry_swapRows (A : Mat) {i j : Nat} (r c : Nat) (hi : i < A.length)
    (hj : j < A.length) :
    entry (swapRows A i j) r c =
      entry A (if r = j then i else if r = i then j else r) c := by
  rw [entry, swapRows_getD A r hi hj, entry]

theorem scaleRow_length (A : Mat) (i : Nat) (pv : Frac) :
    (scaleRowByPivot A i pv).length = A.length := by
  simp [scaleRowByPivot]

theorem scaleRow_getD_ne (A : Mat) {i r : Nat} (pv : Frac) (h : r ≠ i) :
    (scaleRowByPivot A i pv).getD r [] = A.getD r [] := by
  unfold scaleRowByPivot
  exact getD_set_ne _ _ _ (fun hh => h hh.symm)

theorem scaleRow_getD_eq (A : Mat) {i : Nat} (pv : Frac) (hi : i < A.length) :
    (scaleRowByPivot A i pv).getD i [] = (A.getD i []).map (fun x => x.divide pv) := by
  unfold scaleRowByPivot
  exact getD_set_eq _ _ _ _ hi

theorem scaleRow_rect {A : Mat} {cols : Nat} (h : MatRect A cols) {i : Nat}
    (hi : i < A.length) (pv : Frac) : MatRect (scaleRowByPivot A i pv) cols := by
  intro row hrow
  unfold scaleRowByPivot at hrow
  rcases List.mem_or_eq_of_mem_set hrow with h1 | h1
  · exact h _ h1
  · subst h1
    rw [List.length_map]
    exact h _ (getD_mem_of_lt hi)

theorem scaleRow_reduced {A : Mat} (h : MatReduced A) {i : Nat} (hi : i < A.length)
    {pv : Frac} (hpv : pv.Reduced) (hnz : pv.num ≠ 0) :
    MatReduced (scaleRowByPivot A i pv) := by
  intro row hrow
  unfold scaleRowByPivot at hrow
  rcases List.mem_or_eq_of_mem_set hrow with h1 | h1
  · exact h _ h1
  · subst h1
    intro x hx
    rw [List.mem_map] at hx
    obtain ⟨y, hy, rfl⟩ := hx
    exact frac_divide_reduced (h _ (getD_mem_of_lt hi) _ hy) hpv hnz

theorem entry_scaleRow_eq {A : Mat} {cols : Nat} (hrect : MatRect A cols) {i c : Nat}
    (pv : Frac) (hi : i < A.length) (hc : c < cols) :
    entry (scaleRowByPivot A i pv) i c = (entry A i c).divide pv := by
  rw [entry, scaleRow_getD_eq A pv hi]
  have hlen : (A.getD i []).length = cols := hrect _ (getD_mem_of_lt hi)
  rw [entryD, getD_of_lt _ _ _ (by rw [List.length_map]; omega), List.getElem_map]
  rw [entry, entryD, getD_of_lt _ _ _ (by omega : c < (List.getD A i []).length)]

theorem eliminateColumn_length (A : Mat) (piv col : Nat) :
    (eliminateColumn A piv col).length = A.length := by
  simp [eliminateColumn]

theorem eliminateColumn_getD (A : Mat) (piv col r : Nat) (hr : r < A.length) :
    (eliminateColumn A piv col).getD r [] =
      (fun rowr => if r ≠ piv ∧ ¬ (entryD rowr col).isZero then
        List.zipWith (fun x p => x.subtract (p.multiply (entryD rowr col))) rowr (A.getD piv [])
      else rowr) (A.getD r []) := by
  unfold eliminateColumn
  rw [List.getD_eq_getElem?_getD, List.getElem?_mapIdx, List.getElem?_eq_getElem hr]
  rw [getD_of_lt _ _ _ hr]
  rfl

theorem eliminateColumn_rect {A : Mat} {cols : Nat} (hrect : MatRect A cols) {piv : Nat}
    (hpiv : piv < A.length) (col : Nat) : MatRect (eliminateColumn A piv col) cols := by
  intro row hrow
  unfold eliminateColumn at hrow
  rw [List.mem_mapIdx] at hrow
  obtain ⟨r, hr, hrow⟩ := hrow
  by_cases hguard : r ≠ piv ∧ ¬ (entryD A[r] col).isZero
  · rw [if_pos hguard] at hrow
    subst hrow
    rw [List.length_zipWith]
    have h1 : (A[r]).length = cols := hrect _ (List.getElem_mem hr)
    have h2 : (A.getD piv []).length = cols := hrect _ (getD_mem_of_lt hpiv)
    omega
  · rw [if_neg hguard] at hrow
    subst hrow
    exact hrect _ (List.getElem_mem hr)

theorem eliminateColumn_reduced {A : Mat} (hred : MatReduced A) {piv : Nat}
    (hpiv : piv < A.length) (col : Nat) : MatReduced (eliminateColumn A piv col) := by
  intro row hrow
  unfold eliminateColumn at hrow
  rw [List.mem_mapIdx] at hrow
  obtain ⟨r, hr, hrow⟩ := hrow
  by_cases hguard : r ≠ piv ∧ ¬ (entryD A[r] col).isZero
  · rw [if_pos hguard] at hrow
    subst hrow
    intro x hx
    rw [List.mem_iff_getElem] at hx
    obtain ⟨k, hk, hx⟩ := hx
    rw [List.getElem_zipWith] at hx
    subst hx
    rw [List.length_zipWith] at hk
    have hxa := hred _ (List.getElem_mem hr) _ (List.getElem_mem (by omega : k < (A[r]).length))
    have hxp := hred _ (getD_mem_of_lt hpiv) _
      (List.getElem_mem (by omega : k < (A.getD piv []).length))
    have hfac : (entryD A[r] col).Reduced := by
      rw [entryD, List.getD_eq_getElem?_getD]
      rcases Nat.lt_or_ge col (A[r]).length with hcl | hcl
      · rw [List.getElem?_eq_getElem hcl]
        exact hred _ (List.getElem_mem hr) _ (List.getElem_mem hcl)
      · rw [List.getElem?_eq_none (by omega)]
        exact mkFrac_reduced 0 1 one_ne_zero
    exact frac_subtract_reduced hxa (frac_multiply_reduced hxp hfac)
  · rw [if_neg hguard] at hrow
    subst hrow
    exact hred _ (List.getElem_mem hr)

/-- Value of a matrix entry. -/
def vE (A : Mat) (i j : Nat) : ℚ := (entry A i j).val

theorem entry_eliminateColumn_piv {A : Mat} {piv col : Nat} (hpiv : piv < A.length) (c : Nat) :
    entry (eliminateColumn A piv col) piv c = entry A piv c := by
  rw [entry, eliminateColumn_getD A piv col piv hpiv]
  simp [entry]

theorem vE_eliminateColumn {A : Mat} {cols : Nat} (hrect : MatRect A cols)
    (hred : MatReduced A) {piv col r c : Nat} (hpiv : piv < A.length) (hr : r < A.length)
    (hc : c < cols) (hcol : col < cols) :
    vE (eliminateColumn A piv col) r c =
      if r = piv then vE A piv c
      else vE A r c - (entry A piv c).val * (entry A r col).val := by
  by_cases hrp : r = piv
  · subst hrp
    rw [if_pos rfl, vE, entry_eliminateColumn_piv hpiv]
    rfl
  · rw [if_neg hrp, vE, entry, eliminateColumn_getD A piv col r hr]
    simp only []
    have hlenr : (A.getD r []).length = cols := hrect _ (getD_mem_of_lt hr)
    have hlenp : (A.getD piv []).length = cols := hrect _ (getD_mem_of_lt hpiv)
    have hfac : entryD (A.getD r []) col = entry A r col := rfl
    by_cases hz : (entryD (A.getD r []) col).isZero
    · rw [if_neg (fun hcond => hcond.2 hz)]
      have h0 : (entry A r col).val = 0 := by
        rw [← hfac] at *
        have hf := entry_reduced hred hrect hr hcol
        rw [entry] at hf
        exact (frac_isZero_iff hf).mp hz
      rw [entry, h0, mul_zero, sub_zero]
      rfl
    · rw [if_pos (by exact ⟨hrp, hz⟩)]
      rw [entryD, List.getD_eq_getElem?_getD, List.getElem?_zipWith,
        List.getElem?_eq_getElem (by omega : c < (A.getD r []).length),
        List.getElem?_eq_getElem (by omega : c < (A.getD piv []).length)]
      show (((A.getD r [])[c]).subtract (((A.getD piv [])[c]).multiply
        (entryD (A.getD r []) col))).val = _
      have h1 : ((A.getD r [])[c]).Reduced :=
        hred _ (getD_mem_of_lt hr) _ (List.getElem_mem _)
      have h2 : ((A.getD piv [])[c]).Reduced :=
        hred _ (getD_mem_of_lt hpiv) _ (List.getElem_mem _)
      have h3 : (entryD (A.getD r []) col).Reduced := by
        rw [hfac]
        exact entry_reduced hred hrect hr hcol
      rw [frac_val_subtract h1 (frac_multiply_reduced h2 h3),
        frac_val_multiply h2 h3]
      have e1 : entry A r c = (A.getD r [])[c] := by
        rw [entry, entryD, getD_of_lt _ _ _ (by omega)]
      have e2 : entry A piv c = (A.getD piv [])[c] := by
        rw [entry, entryD, getD_of_lt _ _ _ (by omega)]
      rw [Frac.val, Frac.val, ← e1, ← e2, hfac]
      rfl

/-- Value-level dot product of row `i` with an assignment `v` of the first
`cols` columns. -/
def dotRow (A : Mat) (i : Nat) (v : Nat → ℚ) (cols : Nat) : ℚ :=
  ∑ j ∈ Finset.range cols, vE A i j * v j

theorem dotRow_swap (A : Mat) {i j : Nat} (r : Nat) (v : Nat → ℚ) (cols : Nat)
    (hi : i < A.length) (hj : j < A.length) :
    dotRow (swapRows A i j) r v cols =
      dotRow A (if r = j then i else if r = i then j else r) v cols := by
  unfold dotRow
  refine Finset.sum_congr rfl (fun c _ => ?_)
  rw [vE, entry_swapRows A r c hi hj, vE]

theorem dotRow_scale_eq {A : Mat} {cols : Nat} (hrect : MatRect A cols) {i : Nat}
    (pv : Frac) (hi : i < A.length) (hpv : pv.Reduced) (hnz : pv.num ≠ 0)
    (hred : MatReduced A) (v : Nat → ℚ) :
    dotRow (scaleRowByPivot A i pv) i v cols = dotRow A i v cols / pv.val := by
  unfold dotRow
  rw [Finset.sum_div]
  refine Finset.sum_congr rfl (fun c hc => ?_)
  rw [Finset.mem_range] at hc
  rw [vE, entry_scaleRow_eq hrect pv hi hc,
    frac_val_divide (entry_reduced hred hrect hi hc) hpv hnz, vE, div_mul_eq_mul_div]

theorem dotRow_scale_ne (A : Mat) {i r : Nat} (pv : Frac) (h : r ≠ i) (v : Nat → ℚ)
    (cols : Nat) :
    dotRow (scaleRowByPivot A i pv) r v cols = dotRow A r v cols := by
  unfold dotRow
  refine Finset.sum_congr rfl (fun c _ => ?_)
  rw [vE, entry, scaleRow_getD_ne A pv h, ← entry, vE]

theorem dotRow_eliminate {A : Mat} {cols : Nat} (hrect : MatRect A cols)
    (hred : MatReduced A) {piv col r : Nat} (hpiv : piv < A.length) (hr : r < A.length)
    (hcol : col < cols) (v : Nat → ℚ) :
    dotRow (eliminateColumn A piv col) r v cols =
      if r = piv then dotRow A piv v cols
      else dotRow A r v cols - (entry A r col).val * dotRow A piv v cols := by
  by_cases hrp : r = piv
  · subst hrp
    rw [if_pos rfl]
    unfold dotRow
    refine Finset.sum_congr rfl (fun c hc => ?_)
    rw [Finset.mem_range] at hc
    rw [vE, entry_eliminateColumn_piv hpiv]
    rfl
  · rw [if_neg hrp]
    unfold dotRow
    rw [Finset.mul_sum, ← Finset.sum_sub_distrib]
    refine Finset.sum_congr rfl (fun c hc => ?_)
    rw [Finset.mem_range] at hc
    rw [vE_eliminateColumn hrect hred hpiv hr hc hcol, if_neg hrp]
    unfold vE
    ring

/-- The absolute-value comparison agrees with comparison of the rational
absolute values on reduced fractions. -/
theorem absGtB_iff {a b : Frac} (ha : a.Reduced) (hb : b.Reduced) :
    absGtB a b = true ↔ |b.val| < |a.val| := by
  rw [absGtB, decide_eq_true_iff]
  have hda : (0:ℚ) < (a.den : ℚ) := by exact_mod_cast ha.1
  have hdb : (0:ℚ) < (b.den : ℚ) := by exact_mod_cast hb.1
  have key : ∀ n : Int, ((n.natAbs : Int) : ℚ) = |(n : ℚ)| := by
    intro n
    push_cast
    simp [Int.cast_natAbs]
  rw [Frac.val, Frac.val, abs_div, abs_div, abs_of_pos hda, abs_of_pos hdb,
    div_lt_div_iff hdb hda]
  constructor
  · intro h
    have h2 : ((b.num.natAbs : Int) : ℚ) * (a.den : ℚ) < ((a.num.natAbs : Int) : ℚ) * (b.den : ℚ) := by
      exact_mod_cast h
    rw [key, key] at h2
    exact h2
  · intro h
    have h2 : ((b.num.natAbs : Int) : ℚ) * (a.den : ℚ) < ((a.num.natAbs : Int) : ℚ) * (b.den : ℚ) := by
      rw [key, key]
      exact h
    exact_mod_cast h2

/-- Specification of a pivot-choice function: when it returns a row, that
row is at or below the current rank and has a nonzero entry in the column;
when it returns nothing, every such row has a zero entry. -/
structure PickOk (pick : Mat → Nat → Nat → Option Nat) : Prop where
  some_spec : ∀ (A : Mat) (cols rank col r : Nat), MatReduced A → MatRect A cols →
    col < cols → rank < A.length → pick A rank col = some r →
    rank ≤ r ∧ r < A.length ∧ (entry A r col).isZero = false
  none_spec : ∀ (A : Mat) (cols rank col : Nat), MatReduced A → MatRect A cols →
    col < cols → rank < A.length → pick A rank col = none →
    ∀ r, rank ≤ r → r < A.length → (entry A r col).isZero = true

theorem pickFirstNonzero_ok : PickOk pickFirstNonzero := by
  constructor
  · intro A cols rank col r _ _ _ hrank hpick
    unfold pickFirstNonzero at hpick
    have hmem := List.mem_of_find?_eq_some hpick
    have hpred := List.find?_some hpick
    rw [List.mem_range'] at hmem
    obtain ⟨i, hi, rfl⟩ := hmem
    refine ⟨by omega, by omega, ?_⟩
    simpa using hpred
  · intro A cols rank col _ _ _ hrank hpick r hr1 hr2
    unfold pickFirstNonzero at hpick
    rw [List.find?_eq_none] at hpick
    have := hpick r (by rw [List.mem_range']; exact ⟨r - rank, by omega, by omega⟩)
    simpa using this

theorem foldMax_mem (A : Mat) (col : Nat) (l : List Nat) (m0 : Nat) :
    (l.foldl (fun m r => if absGtB (entry A r col) (entry A m col) then r else m) m0) = m0 ∨
    (l.foldl (fun m r => if absGtB (entry A r col) (entry A m col) then r else m) m0) ∈ l := by
  induction l generalizing m0 with
  | nil => exact Or.inl rfl
  | cons r t ih =>
    rw [List.foldl_cons]
    rcases ih (if absGtB (entry A r col) (entry A m0 col) then r else m0) with h | h
    · rw [h]
      by_cases hgt : absGtB (entry A r col) (entry A m0 col)
      · rw [if_pos hgt]
        exact Or.inr (List.mem_cons_self r t)
      · rw [if_neg hgt]
        exact Or.inl rfl
    · exact Or.inr (List.mem_cons_of_mem r h)

theorem foldMax_ge {A : Mat} {cols : Nat} (hred : MatReduced A) (hrect : MatRect A cols)
    {col : Nat} (hcol : col < cols) (l : List Nat) (hl : ∀ r ∈ l, r < A.length)
    (m0 : Nat) (hm0 : m0 < A.length) :
    |(entry A m0 col).val| ≤
      |(entry A (l.foldl (fun m r => if absGtB (entry A r col) (entry A m col) then r else m) m0) col).val| ∧
    ∀ r ∈ l, |(entry A r col).val| ≤
      |(entry A (l.foldl (fun m r => if absGtB (entry A r col) (entry A m col) then r else m) m0) col).val| := by
  induction l generalizing m0 with
  | nil => exact ⟨le_refl _, fun r hr => absurd hr (List.not_mem_nil r)⟩
  | cons r t ih =>
    have hr : r < A.length := hl r (List.mem_cons_self r t)
    have ht : ∀ x ∈ t, x < A.length := fun x hx => hl x (List.mem_cons_of_mem r hx)
    rw [List.foldl_cons]
    by_cases hgt : absGtB (entry A r col) (entry A m0 col)
    · rw [if_pos hgt]
      obtain ⟨h1, h2⟩ := ih ht r hr
      have hlt : |(entry A m0 col).val| < |(entry A r col).val| :=
        (absGtB_iff (entry_reduced hred hrect hr hcol) (entry_reduced hred hrect hm0 hcol)).mp hgt
      refine ⟨le_trans (le_of_lt hlt) h1, fun x hx => ?_⟩
      rcases List.mem_cons.mp hx with hxr | hxt
      · subst hxr
        exact h1
      · exact h2 x hxt
    · rw [if_neg hgt]
      obtain ⟨h1, h2⟩ := ih ht m0 hm0
      have hle : |(entry A r col).val| ≤ |(entry A m0 col).val| := by
        by_contra hcon
        push_neg at hcon
        exact hgt ((absGtB_iff (entry_reduced hred hrect hr hcol)
          (entry_reduced hred hrect hm0 hcol)).mpr hcon)
      refine ⟨h1, fun x hx => ?_⟩
      rcases List.mem_cons.mp hx with hxr | hxt
      · subst hxr
        exact le_trans hle h1
      · exact h2 x hxt

theorem pickMaxAbs_ok : PickOk pickMaxAbs := by
  constructor
  · intro A cols rank col r hred hrect hcol hrank hpick
    unfold pickMaxAbs at hpick
    by_cases hz : (entry A ((List.range' (rank + 1) (A.length - (rank + 1))).foldl
        (fun m rr => if absGtB (entry A rr col) (entry A m col) then rr else m) rank) col).isZero
    · rw [if_pos hz] at hpick
      exact absurd hpick (by simp)
    · rw [if_neg hz] at hpick
      have hr : r = (List.range' (rank + 1) (A.length - (rank + 1))).foldl
          (fun m rr => if absGtB (entry A rr col) (entry A m col) then rr else m) rank := by
        injection hpick with h
        exact h.symm
      subst hr
      rcases foldMax_mem A col (List.range' (rank + 1) (A.length - (rank + 1))) rank with h | h
      · rw [h] at hz ⊢
        exact ⟨le_refl _, hrank, by simpa using hz⟩
      · rw [List.mem_range'] at h
        obtain ⟨i, hi, heq⟩ := h
        exact ⟨by omega, by omega, by simpa using hz⟩
  · intro A cols rank col hred hrect hcol hrank hpick r hr1 hr2
    unfold pickMaxAbs at hpick
    by_cases hz : (entry A ((List.range' (rank + 1) (A.length - (rank + 1))).foldl
        (fun m rr => if absGtB (entry A rr col) (entry A m col) then rr else m) rank) col).isZero
    swap
    · rw [if_neg hz] at hpick
      exact absurd hpick (by simp)
    · have hlist : ∀ x ∈ List.range' (rank + 1) (A.length - (rank + 1)), x < A.length := by
        intro x hx
        rw [List.mem_range'] at hx
        obtain ⟨i, hi, rfl⟩ := hx
        omega
      obtain ⟨h1, h2⟩ := foldMax_ge hred hrect hcol
        (List.range' (rank + 1) (A.length - (rank + 1))) hlist rank hrank
      have hm : (List.range' (rank + 1) (A.length - (rank + 1))).foldl
          (fun m rr => if absGtB (entry A rr col) (entry A m col) then rr else m) rank < A.length := by
        rcases foldMax_mem A col (List.range' (rank + 1) (A.length - (rank + 1))) rank with h | h
        · omega
        · have := hlist _ h
          omega
      have hmz : |(entry A ((List.range' (rank + 1) (A.length - (rank + 1))).foldl
          (fun m rr => if absGtB (entry A rr col) (entry A m col) then rr else m) rank) col).val| = 0 := by
        rw [(frac_isZero_iff (entry_reduced hred hrect hm hcol)).mp hz]
        exact abs_zero
      have hrle : |(entry A r col).val| ≤ 0 := by
        rcases Nat.eq_or_lt_of_le hr1 with he | hlt
        · rw [← he]
          rw [hmz] at h1
          exact h1
        · have hmem : r ∈ List.range' (rank + 1) (A.length - (rank + 1)) := by
            rw [List.mem_range']
            exact ⟨r - (rank + 1), by omega, by omega⟩
          have := h2 r hmem
          rw [hmz] at this
          exact this
      have : (entry A r col).val = 0 := abs_eq_zero.mp (le_antisymm hrle (abs_nonneg _))
      exact (frac_isZero_iff (entry_reduced hred hrect hr2 hcol)).mpr this

/-- Loop invariant of the shared Gaussian elimination, after the columns
`[0, col)` have been processed: `A0` is the original matrix, `A` the
working matrix, `pcs` the pivot columns found so far (one per pivot row,
in increasing order).  `pivOne`/`pivZero` say each pivot column is a unit
column, `skipZero` says a processed non-pivot column is zero on and below
the row that was the elimination front when it was skipped, and `nullPres`
says the row operations so far preserve the nullspace. -/
structure ElimInv (A0 A : Mat) (cols col rank : Nat) (pcs : List Nat) : Prop where
  len : A.length = A0.length
  rect : MatRect A cols
  red : MatReduced A
  pcsLen : pcs.length = rank
  colLe : col ≤ cols
  pcsLt : ∀ p ∈ pcs, p < col
  pcsMono : pcs.Pairwise (· < ·)
  rankLe : rank ≤ A0.length
  pivOne : ∀ i, i < pcs.length → vE A i (pcs.getD i 0) = 1
  pivZero : ∀ i, i < pcs.length → ∀ r, r < A0.length → r ≠ i → vE A r (pcs.getD i 0) = 0
  skipZero : ∀ j, j < col → j ∉ pcs →
    ∀ r, (pcs.filter (fun p => p < j)).length ≤ r → r < A0.length → vE A r j = 0
  nullPres : ∀ v : Nat → ℚ, (∀ r, r < A0.length → dotRow A r v cols = 0) →
    ∀ r, r < A0.length → dotRow A0 r v cols = 0

theorem elimInv_init {A0 : Mat} {cols : Nat} (hrect : MatRect A0 cols)
    (hred : MatReduced A0) : ElimInv A0 A0 cols 0 0 [] := by
  refine ⟨rfl, hrect, hred, rfl, Nat.zero_le _, ?_, List.Pairwise.nil, Nat.zero_le _,
    ?_, ?_, ?_, ?_⟩
  · intro p hp
    exact absurd hp (List.not_mem_nil p)
  · intro i hi
    exact absurd hi (by simp)
  · intro i hi
    exact absurd hi (by simp)
  · intro j hj
    omega
  · intro v h r hr
    exact h r hr

/-- Value-level description of the scaling step, covering both the
`rref` variant (which skips the division when the pivot is already 1) and
the `computeNullspace` variant (which always divides). -/
theorem scaleStep_spec {A1 : Mat} {cols : Nat} (hrect : MatRect A1 cols)
    (hred : MatReduced A1) {rank col : Nat} (hrank : rank < A1.length) (hcol : col < cols)
    (sus : Bool) (hpv : (entry A1 rank col).Reduced) (hnz : (entry A1 rank col).num ≠ 0) :
    (∀ rr c, rr < A1.length → c < cols →
      vE (if sus = true ∧ (entry A1 rank col).num = (entry A1 rank col).den then A1
          else scaleRowByPivot A1 rank (entry A1 rank col)) rr c =
        if rr = rank then vE A1 rr c / (entry A1 rank col).val else vE A1 rr c) ∧
    (if sus = true ∧ (entry A1 rank col).num = (entry A1 rank col).den then A1
     else scaleRowByPivot A1 rank (entry A1 rank col)).length = A1.length ∧
    MatRect (if sus = true ∧ (entry A1 rank col).num = (entry A1 rank col).den then A1
     else scaleRowByPivot A1 rank (entry A1 rank col)) cols ∧
    MatReduced (if sus = true ∧ (entry A1 rank col).num = (entry A1 rank col).den then A1
     else scaleRowByPivot A1 rank (entry A1 rank col)) ∧
    (∀ v, dotRow (if sus = true ∧ (entry A1 rank col).num = (entry A1 rank col).den then A1
      else scaleRowByPivot A1 rank (entry A1 rank col)) rank v cols =
        dotRow A1 rank v cols / (entry A1 rank col).val) ∧
    (∀ rr v, rr ≠ rank → dotRow (if sus = true ∧ (entry A1 rank col).num = (entry A1 rank col).den
      then A1 else scaleRowByPivot A1 rank (entry A1 rank col)) rr v cols = dotRow A1 rr v cols) := by
  by_cases hcond : sus = true ∧ (entry A1 rank col).num = (entry A1 rank col).den
  · rw [if_pos hcond]
    have hval1 : (entry A1 rank col).val = 1 := by
      rw [Frac.val, hcond.2, div_self]
      exact_mod_cast ne_of_gt hpv.1
    constructor
    · intro rr c _ _
      rw [hval1]
      by_cases h : rr = rank
      · rw [if_pos h, div_one]
      · rw [if_neg h]
    refine ⟨rfl, hrect, hred, ?_, ?_⟩
    · intro v
      rw [hval1, div_one]
    · intro rr v _
      rfl
  · rw [if_neg hcond]
    constructor
    · intro rr c hrr hc
      by_cases h : rr = rank
      · subst h
        rw [if_pos rfl, vE, entry_scaleRow_eq hrect _ hrank hc,
          frac_val_divide (entry_reduced hred hrect hrank hc) hpv hnz, vE]
      · rw [if_neg h, vE, entry, scaleRow_getD_ne A1 _ h, ← entry, vE]
    refine ⟨scaleRow_length A1 rank _, scaleRow_rect hrect hrank _,
      scaleRow_reduced hred hrank hpv hnz, ?_, ?_⟩
    · intro v
      exact dotRow_scale_eq hrect _ hrank hpv hnz hred v
    · intro rr v h
      exact dotRow_scale_ne A1 _ h v cols

theorem getD_append_last {α : Type} (l : List α) (a d : α) :
    (l ++ [a]).getD l.length d = a := by
  rw [List.getD_eq_getElem?_getD, List.getElem?_append_right (le_refl _)]
  simp


/-- The pivot step of the elimination loop preserves the invariant:
swap the chosen row up, scale it to a unit pivot, eliminate the column
from the other rows, and record the pivot column. -/
theorem elimStep_some {A0 A : Mat} {cols col rank : Nat} {pcs : List Nat} {r : Nat}
    (sus : Bool) (inv : ElimInv A0 A cols col rank pcs) (hcol : col < cols)
    (hrankN : rank < A0.length) (hr1 : rank ≤ r) (hr2 : r < A.length)
    (hnz : (entry A r col).isZero = false) :
    ElimInv A0
      (eliminateColumn
        (if sus = true ∧ (entry (swapRows A rank r) rank col).num =
            (entry (swapRows A rank r) rank col).den
         then swapRows A rank r
         else scaleRowByPivot (swapRows A rank r) rank (entry (swapRows A rank r) rank col))
        rank col)
      cols (col + 1) (rank + 1) (pcs ++ [col]) := by
  have hlen0 : A.length = A0.length := inv.len
  have hpl : pcs.length = rank := inv.pcsLen
  have hrank : rank < A.length := by omega
  have hA1len : (swapRows A rank r).length = A.length := swapRows_length A rank r
  have hA1rect : MatRect (swapRows A rank r) cols := swapRows_rect inv.rect hrank hr2
  have hA1red : MatReduced (swapRows A rank r) := swapRows_reduced inv.red hrank hr2
  have hvE1 : ∀ rr c, vE (swapRows A rank r) rr c =
      vE A (if rr = r then rank else if rr = rank then r else rr) c := by
    intro rr c
    rw [vE, entry_swapRows A rr c hrank hr2, vE]
  have hvE1rank : ∀ c, vE (swapRows A rank r) rank c = vE A r c := by
    intro c
    rw [hvE1]
    by_cases h : rank = r
    · rw [if_pos h, h]
    · rw [if_neg h, if_pos rfl]
  have hdot1 : ∀ rr v, dotRow (swapRows A rank r) rr v cols =
      dotRow A (if rr = r then rank else if rr = rank then r else rr) v cols :=
    fun rr v => dotRow_swap A rr v cols hrank hr2
  have hpveq : entry (swapRows A rank r) rank col = entry A r col := by
    rw [entry_swapRows A rank col hrank hr2]
    by_cases h : rank = r
    · rw [if_pos h, h]
    · rw [if_neg h, if_pos rfl]
  have hpvred : (entry (swapRows A rank r) rank col).Reduced := by
    rw [hpveq]
    exact entry_reduced inv.red inv.rect hr2 hcol
  have hpvnz : (entry (swapRows A rank r) rank col).num ≠ 0 := by
    rw [hpveq]
    intro h
    rw [Frac.isZero] at hnz
    simp [h] at hnz
  have hpvval : (entry (swapRows A rank r) rank col).val ≠ 0 := by
    intro h
    exact hpvnz ((frac_num_eq_zero_iff_val hpvred).mpr h)
  obtain ⟨hvE2, hA2len, hA2rect, hA2red, hdot2rank, hdot2ne⟩ :=
    scaleStep_spec hA1rect hA1red (by omega : rank < (swapRows A rank r).length) hcol
      sus hpvred hpvnz
  set A2 := (if sus = true ∧ (entry (swapRows A rank r) rank col).num =
      (entry (swapRows A rank r) rank col).den
    then swapRows A rank r
    else scaleRowByPivot (swapRows A rank r) rank (entry (swapRows A rank r) rank col))
    with hA2def
  have hA2len0 : A2.length = A0.length := by omega
  have hpv2 : vE A2 rank col = 1 := by
    rw [hvE2 rank col (by omega) hcol, if_pos rfl, hvE1rank]
    show (entry A r col).val / (entry (swapRows A rank r) rank col).val = 1
    rw [hpveq]
    exact div_self (hpveq ▸ hpvval)
  have hA2other : ∀ rr, rr ≠ rank → ∀ c, rr < A0.length → c < cols →
      vE A2 rr c = vE A (if rr = r then rank else rr) c := by
    intro rr hne c hrr hc
    rw [hvE2 rr c (by omega) hc, if_neg hne, hvE1]
    by_cases h : rr = r
    · rw [if_pos h, if_pos h]
    · rw [if_neg h, if_neg hne, if_neg h]
  have hA2rank : ∀ c, c < cols → vE A r c = 0 → vE A2 rank c = 0 := by
    intro c hc h0
    rw [hvE2 rank c (by omega) hc, if_pos rfl, hvE1rank, h0, zero_div]
  have hvE3 : ∀ rr c, rr < A0.length → c < cols →
      vE (eliminateColumn A2 rank col) rr c =
        if rr = rank then vE A2 rank c
        else vE A2 rr c - (entry A2 rank c).val * (entry A2 rr col).val :=
    fun rr c hrr hc =>
      vE_eliminateColumn hA2rect hA2red (by omega) (by omega) hc hcol
  -- bookkeeping facts about the new pivot-column list
  have hgetD_old : ∀ i, i < pcs.length → (pcs ++ [col]).getD i 0 = pcs.getD i 0 :=
    fun i hi => List.getD_append pcs [col] 0 i hi
  have hgetD_new : (pcs ++ [col]).getD pcs.length 0 = col := getD_append_last pcs col 0
  have hmemOld : ∀ i, i < pcs.length → pcs.getD i 0 ∈ pcs := fun i hi => getD_mem_of_lt hi
  have holdLt : ∀ i, i < pcs.length → pcs.getD i 0 < cols := by
    intro i hi
    have := inv.pcsLt _ (hmemOld i hi)
    omega
  -- the pivot row of A2 vanishes on all old pivot columns
  have hA2rankOldPiv : ∀ i, i < pcs.length → vE A2 rank (pcs.getD i 0) = 0 := by
    intro i hi
    refine hA2rank _ (holdLt i hi) (inv.pivZero i hi r (by omega) (by omega))
  constructor
  case len =>
    rw [eliminateColumn_length]
    omega
  case rect => exact eliminateColumn_rect hA2rect (by omega) col
  case red => exact eliminateColumn_reduced hA2red (by omega) col
  case pcsLen =>
    rw [List.length_append, inv.pcsLen]
    rfl
  case colLe => omega
  case pcsLt =>
    intro p hp
    rcases List.mem_append.mp hp with h | h
    · have := inv.pcsLt p h
      omega
    · rw [List.mem_singleton] at h
      omega
  case pcsMono =>
    rw [List.pairwise_append]
    refine ⟨inv.pcsMono, List.pairwise_singleton _ _, ?_⟩
    intro a ha b hb
    rw [List.mem_singleton] at hb
    subst hb
    exact inv.pcsLt a ha
  case rankLe => omega
  case pivOne =>
    intro i hi
    rw [List.length_append, List.length_singleton, inv.pcsLen] at hi
    rcases Nat.lt_or_ge i rank with hilt | hige
    · have hi' : i < pcs.length := by omega
      rw [hgetD_old i hi']
      rw [hvE3 i _ (by omega) (holdLt i hi')]
      rw [if_neg (by omega : ¬ i = rank)]
      have h1 : vE A2 i (pcs.getD i 0) = 1 := by
        rw [hA2other i (by omega) _ (by omega) (holdLt i hi')]
        rw [if_neg (by omega : ¬ i = r)]
        exact inv.pivOne i hi'
      have h2 : (entry A2 rank (pcs.getD i 0)).val = 0 := hA2rankOldPiv i hi'
      rw [h1, h2, zero_mul, sub_zero]
    · have hieq : i = rank := by omega
      have hg : (pcs ++ [col]).getD i 0 = col := by
        rw [hieq, ← inv.pcsLen]
        exact hgetD_new
      rw [hg, hvE3 i col (by omega) hcol, if_pos hieq]
      exact hpv2
  case pivZero =>
    intro i hi rr hrr hne
    rw [List.length_append, List.length_singleton, inv.pcsLen] at hi
    rcases Nat.lt_or_ge i rank with hilt | hige
    · have hi' : i < pcs.length := by omega
      rw [hgetD_old i hi']
      rw [hvE3 rr _ (by omega) (holdLt i hi')]
      by_cases hrk : rr = rank
      · rw [if_pos hrk]
        exact hA2rankOldPiv i hi'
      · rw [if_neg hrk]
        have h2 : (entry A2 rank (pcs.getD i 0)).val = 0 := hA2rankOldPiv i hi'
        have h1 : vE A2 rr (pcs.getD i 0) = 0 := by
          rw [hA2other rr hrk _ (by omega) (holdLt i hi')]
          by_cases hrr' : rr = r
          · rw [if_pos hrr']
            exact inv.pivZero i hi' rank (by omega) (by omega)
          · rw [if_neg hrr']
            exact inv.pivZero i hi' rr (by omega) (by omega)
        rw [h1, h2, zero_mul, sub_zero]
    · have hieq : i = rank := by omega
      have hg : (pcs ++ [col]).getD i 0 = col := by
        rw [hieq, ← inv.pcsLen]
        exact hgetD_new
      rw [hg, hvE3 rr col (by omega) hcol]
      rw [if_neg (by omega : ¬ rr = rank)]
      have hfac : (entry A2 rank col).val = 1 := hpv2
      rw [hfac, one_mul]
      show vE A2 rr col - vE A2 rr col = 0
      exact sub_self _
  case skipZero =>
    intro j hj hjn rr hrrL hrr
    have hjcol : j ≠ col := by
      intro h
      exact hjn (by rw [h]; exact List.mem_append_right _ (List.mem_singleton_self col))
    have hjlt : j < col := by omega
    have hjpcs : j ∉ pcs := fun h => hjn (List.mem_append_left _ h)
    have hfilter : ((pcs ++ [col]).filter (fun p => p < j)).length =
        (pcs.filter (fun p => p < j)).length := by
      rw [List.filter_append]
      have hnil : [col].filter (fun p => p < j) = [] := by
        simp [show ¬ col < j by omega]
      rw [hnil, List.append_nil]
    rw [hfilter] at hrrL
    have hL : (pcs.filter (fun p => p < j)).length ≤ rank := by
      have := List.length_filter_le (fun p => decide (p < j)) pcs
      have h2 := inv.pcsLen
      omega
    have hbase : ∀ x, (pcs.filter (fun p => p < j)).length ≤ x → x < A0.length →
        vE A x j = 0 := inv.skipZero j hjlt hjpcs
    rw [hvE3 rr j hrr (by omega : j < cols)]
    have hArj : vE A r j = 0 := hbase r (by omega) (by omega)
    have h2 : vE A2 rank j = 0 := hA2rank j (by omega) hArj
    by_cases hrk : rr = rank
    · rw [if_pos hrk]
      exact h2
    · rw [if_neg hrk]
      have h1 : vE A2 rr j = 0 := by
        rw [hA2other rr hrk j hrr (by omega)]
        by_cases hr' : rr = r
        · rw [if_pos hr']
          exact hbase rank (by omega) (by omega)
        · rw [if_neg hr']
          exact hbase rr hrrL hrr
      rw [h1]
      show (0:ℚ) - vE A2 rank j * vE A2 rr col = 0
      rw [h2, zero_mul, zero_sub, neg_zero]
  case nullPres =>
    intro v hv rr0 hrr0
    have hA2zero : ∀ rr, rr < A0.length → dotRow A2 rr v cols = 0 := by
      have hrkz : dotRow A2 rank v cols = 0 := by
        have h := hv rank (by omega)
        rw [dotRow_eliminate hA2rect hA2red (by omega) (by omega) hcol v, if_pos rfl] at h
        exact h
      intro rr hrr
      by_cases hrk : rr = rank
      · rw [hrk]
        exact hrkz
      · have h := hv rr (by omega)
        rw [dotRow_eliminate hA2rect hA2red (by omega) (by omega) hcol v, if_neg hrk,
          hrkz, mul_zero, sub_zero] at h
        exact h
    have hA1zero : ∀ rr, rr < A0.length → dotRow (swapRows A rank r) rr v cols = 0 := by
      intro rr hrr
      by_cases hrk : rr = rank
      · subst hrk
        have h := hA2zero rr (by omega)
        rw [hdot2rank v] at h
        rcases div_eq_zero_iff.mp h with h1 | h1
        · exact h1
        · exact absurd h1 hpvval
      · have h := hA2zero rr hrr
        rw [hdot2ne rr v hrk] at h
        exact h
    have hAzero : ∀ rr, rr < A0.length → dotRow A rr v cols = 0 := by
      intro rr hrr
      have hslen : (if rr = r then rank else if rr = rank then r else rr) < A0.length := by
        split_ifs <;> omega
      have h := hA1zero _ hslen
      rw [hdot1 _ v] at h
      have hss : (if (if rr = r then rank else if rr = rank then r else rr) = r then rank
          else if (if rr = r then rank else if rr = rank then r else rr) = rank then r
          else (if rr = r then rank else if rr = rank then r else rr)) = rr := by
        split_ifs <;> omega
      rw [hss] at h
      exact h
    exact inv.nullPres v hAzero rr0 hrr0

/-- Skipping a column whose entries at and below the elimination front are
all zero preserves the invariant. -/
theorem elimStep_none {A0 A : Mat} {cols col rank : Nat} {pcs : List Nat}
    (inv : ElimInv A0 A cols col rank pcs) (hcol : col < cols)
    (hskip : ∀ r, rank ≤ r → r < A.length → (entry A r col).isZero = true) :
    ElimInv A0 A cols (col + 1) rank pcs := by
  have hpl : pcs.length = rank := inv.pcsLen
  have hlen0 : A.length = A0.length := inv.len
  refine ⟨inv.len, inv.rect, inv.red, inv.pcsLen, by omega, ?_, inv.pcsMono, inv.rankLe,
    inv.pivOne, inv.pivZero, ?_, inv.nullPres⟩
  · intro p hp
    have := inv.pcsLt p hp
    omega
  · intro j hj hjn rr hrrL hrr
    rcases Nat.lt_or_ge j col with hjlt | hjge
    · exact inv.skipZero j hjlt hjn rr hrrL hrr
    · have hjeq : j = col := by omega
      subst hjeq
      have hfull : pcs.filter (fun p => p < j) = pcs := by
        rw [List.filter_eq_self]
        intro p hp
        simp only [decide_eq_true_eq]
        exact inv.pcsLt p hp
      rw [hfull] at hrrL
      have hz := hskip rr (by omega) (by omega)
      exact (frac_isZero_iff (entry_reduced inv.red inv.rect (by omega) hcol)).mp hz

/-- Running the elimination loop from an invariant state yields an
invariant state in which either every column has been processed or the
rank has reached the row count. -/
theorem elimLoop_inv {pick : Mat → Nat → Nat → Option Nat} (hp : PickOk pick) (sus : Bool)
    {A0 : Mat} {cols : Nat} :
    ∀ (fuel col rank : Nat) (A : Mat) (pcs : List Nat),
      ElimInv A0 A cols col rank pcs → cols ≤ fuel + col →
      ∃ colF,
        ElimInv A0 (elimLoop pick sus A0.length cols fuel col rank A pcs).1 cols colF
          (elimLoop pick sus A0.length cols fuel col rank A pcs).2.length
          (elimLoop pick sus A0.length cols fuel col rank A pcs).2 ∧
        (colF = cols ∨
          (elimLoop pick sus A0.length cols fuel col rank A pcs).2.length = A0.length) := by
  intro fuel
  induction fuel with
  | zero =>
    intro col rank A pcs inv hfuel
    have hcole : col = cols := by
      have := inv.colLe
      omega
    refine ⟨col, ?_, Or.inl hcole⟩
    show ElimInv A0 (A, pcs).1 cols col (A, pcs).2.length (A, pcs).2
    rw [show (A, pcs).2.length = rank from inv.pcsLen]
    exact inv
  | succ fuel ih =>
    intro col rank A pcs inv hfuel
    by_cases hguard : col < cols ∧ rank < A0.length
    · have hrankA : rank < A.length := by
        have := inv.len
        omega
      rcases hpick : pick A rank col with _ | r
      · have hskip := hp.none_spec A cols rank col inv.red inv.rect hguard.1 hrankA hpick
        have inv2 := elimStep_none inv hguard.1 hskip
        have := ih (col + 1) rank A pcs inv2 (by omega)
        simpa [elimLoop, if_pos hguard, hpick] using this
      · obtain ⟨hr1, hr2, hnz⟩ :=
          hp.some_spec A cols rank col r inv.red inv.rect hguard.1 hrankA hpick
        have inv2 := elimStep_some sus inv hguard.1 hguard.2 hr1 hr2 hnz
        have := ih (col + 1) (rank + 1)
          (eliminateColumn
            (if sus = true ∧ (entry (swapRows A rank r) rank col).num =
                (entry (swapRows A rank r) rank col).den
             then swapRows A rank r
             else scaleRowByPivot (swapRows A rank r) rank (entry (swapRows A rank r) rank col))
            rank col)
          (pcs ++ [col]) inv2 (by omega)
        simpa [elimLoop, if_pos hguard, hpick] using this
    · have hresult : elimLoop pick sus A0.length cols (fuel + 1) col rank A pcs = (A, pcs) := by
        rw [elimLoop, if_neg hguard]
      rw [hresult]
      rcases Nat.lt_or_ge col cols with hlt | hge
      · have hrge : rank = A0.length := by
          have := inv.rankLe
          omega
        refine ⟨col, ?_, Or.inr (by rw [inv.pcsLen, hrge])⟩
        show ElimInv A0 A cols col pcs.length pcs
        rw [inv.pcsLen]
        exact inv
      · have hcole : col = cols := by
          have := inv.colLe
          omega
        refine ⟨col, ?_, Or.inl hcole⟩
        show ElimInv A0 A cols col pcs.length pcs
        rw [inv.pcsLen]
        exact inv

/-- In a strictly increasing list, the elements smaller than a bound that
is at most element `i` all sit strictly before index `i`. -/
theorem sorted_filter_lt_le {pcs : List Nat} (hmono : pcs.Pairwise (· < ·)) {i j : Nat}
    (hi : i < pcs.length) (hj : j ≤ pcs.getD i 0) :
    (pcs.filter (fun p => p < j)).length ≤ i := by
  have hsplit : pcs.filter (fun p => p < j) =
      (pcs.take i).filter (fun p => p < j) ++ (pcs.drop i).filter (fun p => p < j) := by
    rw [← List.filter_append, List.take_append_drop]
  have hdrop : (pcs.drop i).filter (fun p => p < j) = [] := by
    rw [List.filter_eq_nil_iff]
    intro a ha
    simp only [decide_eq_true_eq]
    rw [List.mem_iff_getElem] at ha
    obtain ⟨m, hm, rfl⟩ := ha
    rw [List.getElem_drop]
    have hgi : pcs.getD i 0 = pcs[i] := getD_of_lt pcs i 0 hi
    have hmlen : i + m < pcs.length := by
      rw [List.length_drop] at hm
      omega
    rcases Nat.eq_zero_or_pos m with hm0 | hm0
    · subst hm0
      show ¬ pcs[i] < j
      omega
    · have hlt : pcs[i] < pcs[i + m] := by
        rw [List.pairwise_iff_getElem] at hmono
        exact hmono i (i + m) hi hmlen (by omega)
      omega
  rw [hsplit, hdrop, List.append_nil]
  calc ((pcs.take i).filter (fun p => p < j)).length ≤ (pcs.take i).length :=
        List.length_filter_le _ _
    _ ≤ i := by rw [List.length_take]; omega

/-- After the loop finishes, every row at or below the final rank is zero
in every column. -/
theorem elimFinal_low_rows {A0 R : Mat} {cols colF : Nat} {pcs : List Nat}
    (inv : ElimInv A0 R cols colF pcs.length pcs)
    (hdone : colF = cols ∨ pcs.length = A0.length) :
    ∀ r, pcs.length ≤ r → r < A0.length → ∀ j, j < cols → vE R r j = 0 := by
  intro r hr1 hr2 j hj
  rcases hdone with hcols | hrows
  · by_cases hjp : j ∈ pcs
    · rw [List.mem_iff_getElem] at hjp
      obtain ⟨i, hilen, hieq⟩ := hjp
      have hgetd : pcs.getD i 0 = j := by
        rw [getD_of_lt pcs i 0 hilen, hieq]
      rw [← hgetd]
      exact inv.pivZero i hilen r hr2 (by omega)
    · refine inv.skipZero j (by omega) hjp r ?_ hr2
      have := List.length_filter_le (fun p => decide (p < j)) pcs
      omega
  · omega

/-- After the loop finishes, each pivot row is zero strictly left of its
pivot column. -/
theorem elimFinal_left_zero {A0 R : Mat} {cols colF : Nat} {pcs : List Nat}
    (inv : ElimInv A0 R cols colF pcs.length pcs) :
    ∀ i, i < pcs.length → ∀ j, j < pcs.getD i 0 → vE R i j = 0 := by
  intro i hi j hj
  have hiA0 : i < A0.length := by
    have := inv.rankLe
    omega
  by_cases hjp : j ∈ pcs
  · rw [List.mem_iff_getElem] at hjp
    obtain ⟨i2, hi2len, hi2eq⟩ := hjp
    have hgetd : pcs.getD i2 0 = j := by
      rw [getD_of_lt pcs i2 0 hi2len, hi2eq]
    have hne : i ≠ i2 := by
      intro h
      rw [h, hgetd] at hj
      omega
    rw [← hgetd]
    exact inv.pivZero i2 hi2len i hiA0 hne
  · refine inv.skipZero j ?_ hjp i (sorted_filter_lt_le inv.pcsMono hi (by omega)) hiA0
    have := inv.pcsLt (pcs.getD i 0) (getD_mem_of_lt hi)
    omega

theorem frac_fold_sum (js : List Nat) (term : Nat → Frac) :
    ∀ init : Frac, (∀ j ∈ js, (term j).Reduced) → init.Reduced →
      (js.foldl (fun s j => s.add (term j)) init).Reduced ∧
      (js.foldl (fun s j => s.add (term j)) init).val =
        init.val + (js.map (fun j => (term j).val)).sum := by
  induction js with
  | nil =>
    intro init _ hinit
    exact ⟨hinit, by simp⟩
  | cons j t ih =>
    intro init hterm hinit
    have hj : (term j).Reduced := hterm j (List.mem_cons_self j t)
    have ht : ∀ x ∈ t, (term x).Reduced := fun x hx => hterm x (List.mem_cons_of_mem j hx)
    have hadd : (init.add (term j)).Reduced := frac_add_reduced hinit hj
    obtain ⟨h1, h2⟩ := ih (init.add (term j)) ht hadd
    rw [List.foldl_cons]
    refine ⟨h1, ?_⟩
    rw [h2, frac_val_add hinit hj, List.map_cons, List.sum_cons]
    ring

theorem range'_map_sum (f : Nat → ℚ) :
    ∀ (n a : Nat), ((List.range' a n).map f).sum = ∑ j ∈ Finset.Ico a (a + n), f j := by
  intro n
  induction n with
  | zero =>
    intro a
    simp
  | succ n ih =>
    intro a
    rw [List.range'_succ, List.map_cons, List.sum_cons, ih (a + 1),
      Finset.sum_eq_sum_Ico_succ_bot (by omega : a < a + (n + 1)) f]
    have he : a + 1 + n = a + (n + 1) := by omega
    rw [he]

/-- A default entry read is reduced whenever all stored entries are. -/
theorem entryD_reduced {sol : List Frac} (h : ∀ x ∈ sol, x.Reduced) (j : Nat) :
    (entryD sol j).Reduced := by
  rw [entryD]
  rcases Nat.lt_or_ge j sol.length with hj | hj
  · exact h _ (getD_mem_of_lt hj)
  · rw [List.getD_eq_getElem?_getD, List.getElem?_eq_none (by omega)]
    exact mkFrac_reduced 0 1 one_ne_zero

/-- Effect of one back-substitution assignment. -/
theorem backSubRow_spec {R : Mat} {pcs : List Nat} {cols : Nat} {i : Nat} {sol : List Frac}
    (hsollen : sol.length = cols) (hsolred : ∀ x ∈ sol, x.Reduced)
    (hRred : MatReduced R) (hRrect : MatRect R cols) (hiR : i < R.length)
    (hp : pcs.getD i 0 < cols) :
    (backSubRow R pcs cols i sol).length = cols ∧
    (∀ x ∈ backSubRow R pcs cols i sol, x.Reduced) ∧
    (∀ pos, pos ≠ pcs.getD i 0 →
      entryD (backSubRow R pcs cols i sol) pos = entryD sol pos) ∧
    (entryD (backSubRow R pcs cols i sol) (pcs.getD i 0)).val =
      -∑ j ∈ Finset.Ico (pcs.getD i 0 + 1) cols, vE R i j * (entryD sol j).val := by
  have hterm : ∀ j ∈ List.range' (pcs.getD i 0 + 1) (cols - (pcs.getD i 0 + 1)),
      ((entry R i j).multiply (entryD sol j)).Reduced := by
    intro j hj
    rw [List.mem_range'] at hj
    obtain ⟨k, hk, rfl⟩ := hj
    exact frac_multiply_reduced (entry_reduced hRred hRrect hiR (by omega))
      (entryD_reduced hsolred _)
  obtain ⟨hsumred, hsumval⟩ :=
    frac_fold_sum (List.range' (pcs.getD i 0 + 1) (cols - (pcs.getD i 0 + 1)))
      (fun j => (entry R i j).multiply (entryD sol j)) (mkFrac 0 1) hterm
      (mkFrac_reduced 0 1 one_ne_zero)
  refine ⟨?_, ?_, ?_, ?_⟩
  · rw [backSubRow, List.length_set, hsollen]
  · intro x hx
    rw [backSubRow] at hx
    rcases List.mem_or_eq_of_mem_set hx with h | h
    · exact hsolred _ h
    · subst h
      exact frac_neg_reduced hsumred
  · intro pos hpos
    rw [backSubRow, entryD, getD_set_ne _ _ _ (fun hh => hpos hh.symm), entryD]
  · rw [backSubRow, entryD, getD_set_eq _ _ _ _ (by omega)]
    rw [frac_val_neg hsumred, hsumval]
    have hz : (mkFrac 0 1).val = 0 := by
      rw [frac_val_int]
      norm_num
    rw [hz]
    have hmapeq : ((List.range' (pcs.getD i 0 + 1) (cols - (pcs.getD i 0 + 1))).map
        (fun j => ((entry R i j).multiply (entryD sol j)).val)).sum =
        ((List.range' (pcs.getD i 0 + 1) (cols - (pcs.getD i 0 + 1))).map
        (fun j => vE R i j * (entryD sol j).val)).sum := by
      congr 1
      refine List.map_congr_left ?_
      intro j hj
      rw [List.mem_range'] at hj
      obtain ⟨k, hk, rfl⟩ := hj
      rw [frac_val_multiply (entry_reduced hRred hRrect hiR (by omega))
        (entryD_reduced hsolred _), vE]
    have harith : pcs.getD i 0 + 1 + (cols - (pcs.getD i 0 + 1)) = cols := by omega
    rw [hmapeq, range'_map_sum, zero_add, harith]

/-- Behaviour of the descending back-substitution loop on the first `m`
pivot rows: positions other than those pivots are untouched, and each
processed pivot position satisfies its defining equation with respect to
the final vector. -/
theorem backSubGo_spec {R : Mat} {pcs : List Nat} {cols : Nat}
    (hRred : MatReduced R) (hRrect : MatRect R cols) (hrows : pcs.length ≤ R.length)
    (hmono : pcs.Pairwise (· < ·)) (hpcols : ∀ p ∈ pcs, p < cols) :
    ∀ (m : Nat) (sol : List Frac), m ≤ pcs.length → sol.length = cols →
      (∀ x ∈ sol, x.Reduced) →
      (backSubGo R pcs cols m sol).length = cols ∧
      (∀ x ∈ backSubGo R pcs cols m sol, x.Reduced) ∧
      (∀ pos, (∀ i2, i2 < m → pcs.getD i2 0 ≠ pos) →
        entryD (backSubGo R pcs cols m sol) pos = entryD sol pos) ∧
      (∀ i2, i2 < m → (entryD (backSubGo R pcs cols m sol) (pcs.getD i2 0)).val =
        -∑ j ∈ Finset.Ico (pcs.getD i2 0 + 1) cols,
          vE R i2 j * (entryD (backSubGo R pcs cols m sol) j).val) := by
  intro m
  induction m with
  | zero =>
    intro sol _ hlen hred
    refine ⟨hlen, hred, fun pos _ => rfl, fun i2 h => absurd h (by omega)⟩
  | succ m ih =>
    intro sol hm hlen hred
    have hpm : pcs.getD m 0 < cols := by
      have hmem : pcs.getD m 0 ∈ pcs := getD_mem_of_lt (by omega : m < pcs.length)
      have := hpcols (pcs.getD m 0) hmem
      omega
    obtain ⟨h1len, h1red, h1other, h1val⟩ :=
      backSubRow_spec hlen hred hRred hRrect (by omega : m < R.length) hpm
    obtain ⟨hglen, hgred, hgother, hgval⟩ :=
      ih (backSubRow R pcs cols m sol) (by omega) h1len h1red
    have hmono2 : ∀ i2, i2 < m → pcs.getD i2 0 < pcs.getD m 0 := by
      intro i2 h
      have ha : i2 < pcs.length := by omega
      have hb : m < pcs.length := by omega
      rw [getD_of_lt pcs i2 0 ha, getD_of_lt pcs m 0 hb]
      rw [List.pairwise_iff_getElem] at hmono
      exact hmono i2 m ha hb h
    have huntouched : ∀ j, pcs.getD m 0 ≤ j →
        entryD (backSubGo R pcs cols (m + 1) sol) j = entryD (backSubRow R pcs cols m sol) j := by
      intro j hjge
      show entryD (backSubGo R pcs cols m (backSubRow R pcs cols m sol)) j = _
      refine hgother j ?_
      intro i2 h2
      have := hmono2 i2 h2
      omega
    refine ⟨hglen, hgred, ?_, ?_⟩
    · intro pos hpos
      show entryD (backSubGo R pcs cols m (backSubRow R pcs cols m sol)) pos = entryD sol pos
      rw [hgother pos (fun i2 h2 => hpos i2 (by omega)),
        h1other pos (fun hh => hpos m (by omega) hh.symm)]
    · intro i2 h2
      rcases Nat.lt_or_ge i2 m with hi2m | hi2m
      · exact hgval i2 hi2m
      · have hi2eq : i2 = m := by omega
        subst hi2eq
        have hv : entryD (backSubGo R pcs cols (i2 + 1) sol) (pcs.getD i2 0) =
            entryD (backSubRow R pcs cols i2 sol) (pcs.getD i2 0) :=
          huntouched _ (le_refl _)
        rw [hv, h1val]
        congr 1
        refine Finset.sum_congr rfl ?_
        intro j hj
        rw [Finset.mem_Ico] at hj
        have hju : entryD (backSubGo R pcs cols (i2 + 1) sol) j =
            entryD (backSubRow R pcs cols i2 sol) j := huntouched j (by omega)
        have hjs : entryD (backSubRow R pcs cols i2 sol) j = entryD sol j :=
          h1other j (by omega)
        rw [hju, hjs]

/-- The back-substituted vector for a free column annihilates every row of
the final matrix, hence (through the preserved nullspace) every row of the
original matrix.  It carries a 1 in its free column and 0 in every other
free column. -/
theorem backSubstitute_inNull {A0 R : Mat} {cols colF : Nat} {pcs : List Nat}
    (inv : ElimInv A0 R cols colF pcs.length pcs)
    (hdone : colF = cols ∨ pcs.length = A0.length)
    {fc : Nat} (hfc : fc < cols) (hfcp : fc ∉ pcs) :
    (backSubstitute R pcs cols fc).length = cols ∧
    (∀ x ∈ backSubstitute R pcs cols fc, x.Reduced) ∧
    (∀ r, r < A0.length →
      dotRow A0 r (fun j => (entryD (backSubstitute R pcs cols fc) j).val) cols = 0) ∧
    entryD (backSubstitute R pcs cols fc) fc = mkFrac 1 1 ∧
    (∀ j, j ∉ pcs → j ≠ fc → entryD (backSubstitute R pcs cols fc) j = mkFrac 0 1) := by
  have hRlen : R.length = A0.length := inv.len
  have hrows : pcs.length ≤ R.length := by
    have := inv.rankLe
    omega
  have hpcols : ∀ p ∈ pcs, p < cols := by
    intro p hp
    have h1 := inv.pcsLt p hp
    have h2 := inv.colLe
    omega
  have hsol0len : ((List.replicate cols (mkFrac 0 1)).set fc (mkFrac 1 1)).length = cols := by
    rw [List.length_set, List.length_replicate]
  have hsol0red : ∀ x ∈ (List.replicate cols (mkFrac 0 1)).set fc (mkFrac 1 1), x.Reduced := by
    intro x hx
    rcases List.mem_or_eq_of_mem_set hx with h | h
    · rw [List.eq_of_mem_replicate h]
      exact mkFrac_reduced 0 1 one_ne_zero
    · rw [h]
      exact mkFrac_reduced 1 1 one_ne_zero
  obtain ⟨hlen, hred, hother, hval⟩ :=
    backSubGo_spec inv.red inv.rect hrows inv.pcsMono hpcols pcs.length
      ((List.replicate cols (mkFrac 0 1)).set fc (mkFrac 1 1)) (le_refl _) hsol0len hsol0red
  have hunfold : backSubGo R pcs cols pcs.length
      ((List.replicate cols (mkFrac 0 1)).set fc (mkFrac 1 1)) = backSubstitute R pcs cols fc :=
    rfl
  rw [hunfold] at hlen hred hother hval
  have hsol0at : ∀ pos, pos ∉ pcs →
      entryD (backSubstitute R pcs cols fc) pos =
        entryD ((List.replicate cols (mkFrac 0 1)).set fc (mkFrac 1 1)) pos := by
    intro pos hpos
    refine hother pos ?_
    intro i2 h2 heq
    exact hpos (heq ▸ getD_mem_of_lt (by omega : i2 < pcs.length))
  have hfree1 : entryD (backSubstitute R pcs cols fc) fc = mkFrac 1 1 := by
    rw [hsol0at fc hfcp, entryD, getD_set_eq _ _ _ _ (by rw [List.length_replicate]; omega)]
  have hfree0 : ∀ j, j ∉ pcs → j ≠ fc →
      entryD (backSubstitute R pcs cols fc) j = mkFrac 0 1 := by
    intro j hj hjfc
    rw [hsol0at j hj, entryD, getD_set_ne _ _ _ (fun hh => hjfc hh.symm)]
    rcases Nat.lt_or_ge j cols with hlt | hge
    · rw [getD_of_lt _ _ _ (by rw [List.length_replicate]; omega), List.getElem_replicate]
    · rw [List.getD_eq_getElem?_getD, List.getElem?_eq_none (by rw [List.length_replicate]; omega)]
      rfl
  refine ⟨hlen, hred, ?_, hfree1, hfree0⟩
  intro r0 hr0
  have hRzero : ∀ r, r < A0.length →
      dotRow R r (fun j => (entryD (backSubstitute R pcs cols fc) j).val) cols = 0 := by
    intro r hr
    rcases Nat.lt_or_ge r pcs.length with hrk | hrk
    · -- pivot row: split the sum at the pivot column
      have hp : pcs.getD r 0 < cols := by
        have hmem : pcs.getD r 0 ∈ pcs := getD_mem_of_lt hrk
        exact hpcols _ hmem
      rw [dotRow]
      rw [show Finset.range cols = Finset.Ico 0 cols from by rw [Finset.range_eq_Ico]]
      rw [← Finset.sum_Ico_consecutive _ (by omega : 0 ≤ pcs.getD r 0)
        (by omega : pcs.getD r 0 ≤ cols)]
      rw [← Finset.sum_Ico_consecutive _ (by omega : pcs.getD r 0 ≤ pcs.getD r 0 + 1)
        (by omega : pcs.getD r 0 + 1 ≤ cols)]
      have hleft : ∑ j ∈ Finset.Ico 0 (pcs.getD r 0),
          vE R r j * (entryD (backSubstitute R pcs cols fc) j).val = 0 := by
        refine Finset.sum_eq_zero ?_
        intro j hj
        rw [Finset.mem_Ico] at hj
        rw [elimFinal_left_zero inv r hrk j (by omega), zero_mul]
      have hmid : ∑ j ∈ Finset.Ico (pcs.getD r 0) (pcs.getD r 0 + 1),
          vE R r j * (entryD (backSubstitute R pcs cols fc) j).val =
          (entryD (backSubstitute R pcs cols fc) (pcs.getD r 0)).val := by
        rw [Nat.Ico_succ_singleton, Finset.sum_singleton, inv.pivOne r hrk, one_mul]
      rw [hleft, hmid, hval r hrk, zero_add]
      ring
    · -- zero row below the rank
      rw [dotRow]
      refine Finset.sum_eq_zero ?_
      intro j hj
      rw [Finset.mem_range] at hj
      rw [elimFinal_low_rows inv hdone r hrk hr j hj, zero_mul]
  exact inv.nullPres (fun j => (entryD (backSubstitute R pcs cols fc) j).val) hRzero r0 hr0

/-- Every basis vector returned by `computeNullspace` has full column
length, reduced entries, and annihilates every row of the input matrix. -/
theorem computeNullspace_inNull {row0 : List Frac} {rest : Mat} {basis : List (List Frac)}
    (hrect : MatRect (row0 :: rest) row0.length)
    (hred : MatReduced (row0 :: rest))
    (hsome : computeNullspace (row0 :: rest) = some basis) :
    ∀ w ∈ basis, w.length = row0.length ∧ (∀ x ∈ w, x.Reduced) ∧
      ∀ r, r < (row0 :: rest).length →
        dotRow (row0 :: rest) r (fun j => (entryD w j).val) row0.length = 0 := by
  intro w hw
  rw [computeNullspace] at hsome
  set res := elimLoop pickMaxAbs false (row0 :: rest).length row0.length row0.length 0 0
    (row0 :: rest) [] with hres
  by_cases hempty : ((List.range row0.length).filter (fun j => ¬ j ∈ res.2)).isEmpty
  · rw [if_pos hempty] at hsome
    exact absurd hsome (by simp)
  · rw [if_neg hempty] at hsome
    have hbasis : basis = ((List.range row0.length).filter (fun j => ¬ j ∈ res.2)).map
        (fun freeCol => backSubstitute res.1 res.2 row0.length freeCol) := by
      injection hsome with h
      exact h.symm
    subst hbasis
    rw [List.mem_map] at hw
    obtain ⟨fc, hfc, rfl⟩ := hw
    rw [List.mem_filter, List.mem_range] at hfc
    obtain ⟨hfclt, hfcp⟩ := hfc
    have hfcp2 : fc ∉ res.2 := by simpa using hfcp
    obtain ⟨colF, inv, hdone⟩ := elimLoop_inv pickMaxAbs_ok false row0.length 0 0
      (row0 :: rest) [] (elimInv_init hrect hred) (by omega)
    obtain ⟨h1, h2, h3, _, _⟩ := backSubstitute_inNull inv hdone hfclt hfcp2
    exact ⟨h1, h2, h3⟩

/-- The pivot columns of the final invariant are distinct and below the
column count. -/
theorem elimFinal_pcs_facts {A0 R : Mat} {cols colF : Nat} {pcs : List Nat}
    (inv : ElimInv A0 R cols colF pcs.length pcs) :
    pcs.Nodup ∧ (∀ p ∈ pcs, p < cols) ∧ pcs.length ≤ A0.length := by
  refine ⟨inv.pcsMono.imp (fun hab => Nat.ne_of_lt hab), ?_, ?_⟩
  · intro p hp
    have h1 := inv.pcsLt p hp
    have h2 := inv.colLe
    omega
  · have := inv.rankLe
    omega

/-- With distinct in-range pivot columns, having no free column is the
same as the pivot count equalling the column count. -/
theorem no_free_iff_rank {pcs : List Nat} {cols : Nat} (hnd : pcs.Nodup)
    (hlt : ∀ p ∈ pcs, p < cols) :
    ((List.range cols).filter (fun j => ¬ j ∈ pcs)).isEmpty = true ↔ pcs.length = cols := by
  rw [List.isEmpty_iff, List.filter_eq_nil_iff]
  constructor
  · intro h
    have hsub : Finset.range cols ⊆ pcs.toFinset := by
      intro j hj
      rw [Finset.mem_range] at hj
      rw [List.mem_toFinset]
      have := h j (by rw [List.mem_range]; omega)
      simpa using this
    have hsub2 : pcs.toFinset ⊆ Finset.range cols := by
      intro j hj
      rw [List.mem_toFinset] at hj
      rw [Finset.mem_range]
      exact hlt j hj
    have hcard : pcs.toFinset = Finset.range cols :=
      Finset.Subset.antisymm hsub2 hsub
    have := List.toFinset_card_of_nodup hnd
    rw [hcard, Finset.card_range] at this
    omega
  · intro h j hj hp
    rw [List.mem_range] at hj
    simp only [decide_eq_true_eq] at hp ⊢
    have hsub2 : pcs.toFinset ⊆ Finset.range cols := by
      intro x hx
      rw [List.mem_toFinset] at hx
      rw [Finset.mem_range]
      exact hlt x hx
    have hcard : (Finset.range cols).card ≤ pcs.toFinset.card := by
      rw [Finset.card_range, List.toFinset_card_of_nodup hnd]
      omega
    have heq := Finset.eq_of_subset_of_card_le hsub2 hcard
    have : j ∈ pcs.toFinset := by
      rw [heq, Finset.mem_range]
      omega
    rw [List.mem_toFinset] at this
    exact hp this

/-- The `i`-th `LinearAlgebra.nullspace` basis vector: full column length,
reduced entries, in the nullspace of the input, one at the `i`-th free
column and zero at every other free column. -/
theorem nullspace_vec_spec {row0 : List Frac} {rest : Mat}
    (hrect : MatRect (row0 :: rest) row0.length)
    (hred : MatReduced (row0 :: rest)) {i : Nat}
    (hi : i < (LinearAlgebra.nullspace (row0 :: rest)).length) :
    ((LinearAlgebra.nullspace (row0 :: rest)).getD i []).length = row0.length ∧
    (∀ x ∈ (LinearAlgebra.nullspace (row0 :: rest)).getD i [], x.Reduced) ∧
    (∀ r, r < (row0 :: rest).length →
      dotRow (row0 :: rest) r
        (fun j => (entryD ((LinearAlgebra.nullspace (row0 :: rest)).getD i []) j).val)
        row0.length = 0) ∧
    entryD ((LinearAlgebra.nullspace (row0 :: rest)).getD i [])
      (((List.range row0.length).filter
        (fun j => ¬ j ∈ (LinearAlgebra.rref (row0 :: rest)).pivotCols)).getD i 0) =
      mkFrac 1 1 ∧
    (∀ j, j ∉ (LinearAlgebra.rref (row0 :: rest)).pivotCols →
      j ≠ ((List.range row0.length).filter
        (fun j => ¬ j ∈ (LinearAlgebra.rref (row0 :: rest)).pivotCols)).getD i 0 →
      entryD ((LinearAlgebra.nullspace (row0 :: rest)).getD i []) j = mkFrac 0 1) := by
  set cols := row0.length with hcols
  set res := elimLoop pickFirstNonzero true (row0 :: rest).length cols cols 0 0
    (row0 :: rest) [] with hresdef
  have hrrefeq : LinearAlgebra.rref (row0 :: rest) =
      { rref := res.1, rank := res.2.length, pivotCols := res.2 } := rfl
  have hnseq : LinearAlgebra.nullspace (row0 :: rest) =
      ((List.range cols).filter (fun j => ¬ j ∈ res.2)).map
        (fun freeVar => backSubstitute res.1 res.2 cols freeVar) := rfl
  set free := (List.range cols).filter (fun j => ¬ j ∈ res.2) with hfree
  have hlenB : (LinearAlgebra.nullspace (row0 :: rest)).length = free.length := by
    rw [hnseq, List.length_map]
  have hifree : i < free.length := by
    rw [hlenB] at hi
    exact hi
  set fc := free.getD i 0 with hfc
  have hfcmem : fc ∈ free := getD_mem_of_lt hifree
  have hfcfacts : fc < cols ∧ fc ∉ res.2 := by
    rw [hfree, List.mem_filter, List.mem_range] at hfcmem
    refine ⟨hfcmem.1, ?_⟩
    simpa using hfcmem.2
  have hgetD : (LinearAlgebra.nullspace (row0 :: rest)).getD i [] =
      backSubstitute res.1 res.2 cols fc := by
    have hmaplen : i <
        (free.map (fun freeVar => backSubstitute res.1 res.2 cols freeVar)).length := by
      rw [List.length_map]
      exact hifree
    rw [hnseq, getD_of_lt _ i [] hmaplen, List.getElem_map, hfc, getD_of_lt _ i 0 hifree]
  obtain ⟨colF, inv, hdone⟩ := elimLoop_inv pickFirstNonzero_ok true cols 0 0
    (row0 :: rest) [] (elimInv_init hrect hred) (by omega)
  have hres2 : res = elimLoop pickFirstNonzero true (row0 :: rest).length cols cols 0 0
      (row0 :: rest) [] := hresdef
  obtain ⟨h1, h2, h3, h4, h5⟩ := backSubstitute_inNull inv hdone hfcfacts.1 hfcfacts.2
  rw [hrrefeq]
  rw [hgetD]
  exact ⟨h1, h2, h3, h4, h5⟩

/-- The `LinearAlgebra.nullspace` basis is empty exactly when the rank of
the reduced form equals the column count. -/
theorem nullspace_empty_iff {row0 : List Frac} {rest : Mat}
    (hrect : MatRect (row0 :: rest) row0.length)
    (hred : MatReduced (row0 :: rest)) :
    (LinearAlgebra.nullspace (row0 :: rest) = [] ↔
      (LinearAlgebra.rref (row0 :: rest)).rank = row0.length) := by
  set cols := row0.length with hcols
  set res := elimLoop pickFirstNonzero true (row0 :: rest).length cols cols 0 0
    (row0 :: rest) [] with hresdef
  have hnseq : LinearAlgebra.nullspace (row0 :: rest) =
      ((List.range cols).filter (fun j => ¬ j ∈ res.2)).map
        (fun freeVar => backSubstitute res.1 res.2 cols freeVar) := rfl
  have hrank : (LinearAlgebra.rref (row0 :: rest)).rank = res.2.length := rfl
  obtain ⟨colF, inv, hdone⟩ := elimLoop_inv pickFirstNonzero_ok true cols 0 0
    (row0 :: rest) [] (elimInv_init hrect hred) (by omega)
  obtain ⟨hnd, hlt, _⟩ := elimFinal_pcs_facts inv
  rw [hnseq, hrank, List.map_eq_nil_iff, ← List.isEmpty_iff]
  exact no_free_iff_rank hnd hlt

/-- JavaScript `Math.round` applied to the exact rational `num/den` with a
positive denominator: round half toward positive infinity, i.e. the floor
of `x + 1/2`.  In every reachable call of the source the argument is
integer-valued, so the float detour through `toNumber()` is exact. -/
def jsRound (f : Frac) : Int := Int.fdiv (2 * f.num + f.den) (2 * f.den)

/-- `convertToIntegers` (app.js): take the lcm of the denominators of the
nonzero entries, scale every entry by it and round, flip every sign when
the minimum entry is negative (`Math.min` of an empty spread is `Infinity`,
so the empty list is never flipped), and divide by the gcd of the entries
when it exceeds one.  That division is exact — the gcd divides every
entry — so the source's float division is integer division. -/
def convertToIntegers (fractions : List Frac) : List Int :=
  let lcm : Nat :=
    fractions.foldl (fun l f => if f.isZero then l else lcmTwo l f.den.natAbs) 1
  let integers := fractions.map (fun f => jsRound (f.multiply (mkFrac (lcm : Int) 1)))
  let integers2 :=
    match integers with
    | [] => integers
    | h :: t => if t.foldl min h < 0 then integers.map (fun n => -n) else integers
  let gcdVal : Nat :=
    integers2.foldl (fun g val => if val = 0 then g else gcdTwo g val.natAbs) 0
  if 1 < gcdVal then integers2.map (fun n => n / (gcdVal : Int)) else integers2

namespace FractionUtils

/-- Loop of `FractionUtils.gcdArray` (fractions.js): fold `Fraction.gcd`
over the absolute values, breaking early once the accumulator reaches 1. -/
def gcdArrayGo : Nat → List Int → Nat
  | result, [] => result
  | result, n :: rest =>
    let r2 := Nat.gcd result n.natAbs
    if r2 = 1 then 1 else gcdArrayGo r2 rest

/-- `FractionUtils.gcdArray` (fractions.js). -/
def gcdArray : List Int → Nat
  | [] => 1
  | h :: t => gcdArrayGo h.natAbs t

/-- `FractionUtils.lcmArray` (fractions.js); `Fraction.lcm` on nonnegative
arguments is `lcmTwo`. -/
def lcmArray : List Int → Nat
  | [] => 1
  | h :: t => t.foldl (fun r n => lcmTwo r n.natAbs) h.natAbs

/-- `FractionUtils.toIntegers` (fractions.js).  `lcm / f.d` and `n / gcd`
are exact divisions whenever the input is constructor-built and not all
zero. -/
def toIntegers (fractions : List Frac) : List Int :=
  match fractions with
  | [] => []
  | _ :: _ =>
    let lcm := lcmArray (fractions.map (fun f => f.den))
    let integers := fractions.map (fun f => f.num * ((lcm : Int) / f.den))
    let g := gcdArray integers
    integers.map (fun n => n / (g : Int))

end FractionUtils

/-- Gcd of the absolute values of a list of integers (0 for the empty or
all-zero list). -/
def listGcd (l : List Int) : Nat := l.foldl (fun g n => Nat.gcd g n.natAbs) 0

/-- Lcm of the absolute values of a list of integers. -/
def listLcm (l : List Int) : Nat := l.foldl (fun m n => Nat.lcm m n.natAbs) 1

/-- Modelled from the spec: scale every entry by the LCM of all
denominators, then divide every entry by the GCD of the resulting
integers. -/
def toIntegersSpec (fractions : List Frac) : List Int :=
  let L := listLcm (fractions.map (fun f => f.den))
  let ints := fractions.map (fun f => f.num * ((L : Int) / f.den))
  ints.map (fun n => n / (listGcd ints : Int))

/-- The gcd fold divides its initial accumulator. -/
theorem foldGcd_dvd_init (l : List Int) (g : Nat) :
    l.foldl (fun a n => Nat.gcd a n.natAbs) g ∣ g := by
  induction l generalizing g with
  | nil => exact dvd_refl g
  | cons h t ih =>
    exact dvd_trans (ih (Nat.gcd g h.natAbs)) (Nat.gcd_dvd_left g h.natAbs)

/-- The gcd fold divides the absolute value of every list element. -/
theorem foldGcd_dvd_mem (l : List Int) (g : Nat) :
    ∀ n ∈ l, l.foldl (fun a n => Nat.gcd a n.natAbs) g ∣ n.natAbs := by
  induction l generalizing g with
  | nil => intro n hn; cases hn
  | cons h t ih =>
    intro n hn
    rcases List.mem_cons.mp hn with rfl | hmem
    · exact dvd_trans (foldGcd_dvd_init t (Nat.gcd g n.natAbs))
        (Nat.gcd_dvd_right g n.natAbs)
    · exact ih (Nat.gcd g h.natAbs) n hmem

/-- Any common divisor of the initial accumulator and all elements divides
the gcd fold. -/
theorem foldGcd_greatest (l : List Int) (g d : Nat) (hd : d ∣ g)
    (hmem : ∀ n ∈ l, d ∣ n.natAbs) :
    d ∣ l.foldl (fun a n => Nat.gcd a n.natAbs) g := by
  induction l generalizing g with
  | nil => exact hd
  | cons h t ih =>
    exact ih (Nat.gcd g h.natAbs)
      (Nat.dvd_gcd hd (hmem h (List.mem_cons_self h t)))
      (fun n hn => hmem n (List.mem_cons_of_mem h hn))

/-- A gcd fold started at 1 stays at 1. -/
theorem foldGcd_one (l : List Int) :
    l.foldl (fun a n => Nat.gcd a n.natAbs) 1 = 1 := by
  induction l with
  | nil => rfl
  | cons h t ih => simpa [Nat.gcd_one_left] using ih

/-- Unfolding `listGcd` on a cons cell. -/
theorem listGcd_cons (h : Int) (t : List Int) :
    listGcd (h :: t) = t.foldl (fun a n => Nat.gcd a n.natAbs) h.natAbs := by
  simp [listGcd, Nat.gcd_zero_left]

/-- `listGcd` divides every element. -/
theorem listGcd_dvd {l : List Int} {n : Int} (hn : n ∈ l) :
    ((listGcd l : Int)) ∣ n := by
  rw [Int.natCast_dvd]
  exact foldGcd_dvd_mem l 0 n hn

/-- Any natural dividing every element's absolute value divides
`listGcd`. -/
theorem listGcd_greatest {l : List Int} {d : Nat}
    (hmem : ∀ n ∈ l, d ∣ n.natAbs) : d ∣ listGcd l := by
  exact foldGcd_greatest l 0 d (dvd_zero d) hmem

/-- `listGcd` is nonzero as soon as some element is. -/
theorem listGcd_ne_zero {l : List Int} {n : Int} (hn : n ∈ l) (h : n ≠ 0) :
    listGcd l ≠ 0 := by
  intro h0
  have := listGcd_dvd hn
  rw [h0] at this
  exact h (zero_dvd_iff.mp (by exact_mod_cast this))

/-- Negating every element leaves `listGcd` unchanged. -/
theorem listGcd_map_neg (l : List Int) :
    listGcd (l.map (fun n => -n)) = listGcd l := by
  simp [listGcd, List.foldl_map, Int.natAbs_neg]

/-- Dividing every element by a common divisor divides `listGcd` by it. -/
theorem listGcd_map_div {l : List Int} {g : Nat} (hg0 : g ≠ 0)
    (hg : ∀ n ∈ l, ((g : Int)) ∣ n) :
    listGcd (l.map (fun n => n / (g : Int))) = listGcd l / g := by
  have hgd : g ∣ listGcd l :=
    listGcd_greatest (fun n hn => Int.natCast_dvd.mp (hg n hn))
  have habs : ∀ n ∈ l, (n / (g : Int)).natAbs = n.natAbs / g := by
    intro n hn
    rw [Int.natAbs_ediv n (g : Int) (hg n hn)]
    simp
  apply Nat.dvd_antisymm
  · rw [Nat.dvd_div_iff_mul_dvd hgd]
    apply listGcd_greatest
    intro n hn
    have he : listGcd (l.map (fun n => n / (g : Int))) ∣ (n / (g : Int)).natAbs :=
      foldGcd_dvd_mem _ 0 _ (List.mem_map_of_mem _ hn)
    rw [habs n hn] at he
    exact (Nat.dvd_div_iff_mul_dvd (Int.natCast_dvd.mp (hg n hn))).mp he
  · apply listGcd_greatest
    intro m hm
    rw [List.mem_map] at hm
    obtain ⟨n, hn, rfl⟩ := hm
    rw [habs n hn]
    rw [Nat.dvd_div_iff_mul_dvd (Int.natCast_dvd.mp (hg n hn))]
    rw [Nat.mul_div_cancel' hgd]
    exact foldGcd_dvd_mem l 0 n hn

/-- The lcm fold is positive when started positive on nonzero elements. -/
theorem foldLcm_pos (l : List Int) :
    ∀ m : Nat, (∀ n ∈ l, n ≠ 0) → 0 < m →
    0 < l.foldl (fun a n => Nat.lcm a n.natAbs) m := by
  induction l with
  | nil => intro m _ hm; exact hm
  | cons h t ih =>
    intro m hl hm
    refine ih _ (fun n hn => hl n (List.mem_cons_of_mem h hn)) ?_
    have hh : h ≠ 0 := hl h (List.mem_cons_self h t)
    have : h.natAbs ≠ 0 := by
      intro hc
      exact hh (Int.natAbs_eq_zero.mp hc)
    exact Nat.lcm_pos hm (Nat.pos_of_ne_zero this)

/-- The initial accumulator divides the lcm fold. -/
theorem foldLcm_dvd_init (l : List Int) (m : Nat) :
    m ∣ l.foldl (fun a n => Nat.lcm a n.natAbs) m := by
  induction l generalizing m with
  | nil => exact dvd_refl m
  | cons h t ih =>
    exact dvd_trans (Nat.dvd_lcm_left m h.natAbs) (ih (Nat.lcm m h.natAbs))

/-- Every element's absolute value divides the lcm fold. -/
theorem foldLcm_dvd_mem (l : List Int) (m : Nat) :
    ∀ n ∈ l, n.natAbs ∣ l.foldl (fun a n => Nat.lcm a n.natAbs) m := by
  induction l generalizing m with
  | nil => intro n hn; cases hn
  | cons h t ih =>
    intro n hn
    rcases List.mem_cons.mp hn with rfl | hmem
    · exact dvd_trans (Nat.dvd_lcm_right m n.natAbs)
        (foldLcm_dvd_init t (Nat.lcm m n.natAbs))
    · exact ih (Nat.lcm m h.natAbs) n hmem

/-- Every element's absolute value divides `listLcm`. -/
theorem listLcm_dvd_mem {l : List Int} {n : Int} (hn : n ∈ l) :
    n.natAbs ∣ listLcm l :=
  foldLcm_dvd_mem l 1 n hn

/-- `listLcm` of a list of nonzero integers is positive. -/
theorem listLcm_pos {l : List Int} (hl : ∀ n ∈ l, n ≠ 0) : 0 < listLcm l :=
  foldLcm_pos l 1 hl Nat.one_pos

/-- The `lcmTwo` fold of `lcmArray` is the plain `Nat.lcm` fold. -/
theorem foldLcmTwo_eq (t : List Int) (r : Nat) :
    t.foldl (fun a n => lcmTwo a n.natAbs) r =
      t.foldl (fun a n => Nat.lcm a n.natAbs) r := by
  induction t generalizing r with
  | nil => rfl
  | cons h t2 ih => simp only [List.foldl_cons, lcmTwo_eq_lcm, ih]

/-- `FractionUtils.lcmArray` computes `listLcm`. -/
theorem lcmArray_eq_listLcm (l : List Int) :
    FractionUtils.lcmArray l = listLcm l := by
  cases l with
  | nil => rfl
  | cons h t =>
    rw [FractionUtils.lcmArray, listLcm, List.foldl_cons, Nat.lcm_one_left,
      foldLcmTwo_eq]

/-- The loop of `gcdArray` is the plain gcd fold: breaking at 1 is sound
because a gcd fold started at 1 stays at 1. -/
theorem gcdArrayGo_eq (l : List Int) (r : Nat) :
    FractionUtils.gcdArrayGo r l = l.foldl (fun a n => Nat.gcd a n.natAbs) r := by
  induction l generalizing r with
  | nil => rfl
  | cons h t ih =>
    rw [FractionUtils.gcdArrayGo, List.foldl_cons]
    by_cases hone : Nat.gcd r h.natAbs = 1
    · rw [if_pos hone, hone, foldGcd_one]
    · rw [if_neg hone, ih]

/-- `FractionUtils.gcdArray` computes `listGcd` on non-empty lists. -/
theorem gcdArray_eq_listGcd (h : Int) (t : List Int) :
    FractionUtils.gcdArray (h :: t) = listGcd (h :: t) := by
  rw [FractionUtils.gcdArray, gcdArrayGo_eq, listGcd_cons]

/-- The skip-zero lcm fold of `convertToIntegers` equals the plain lcm of
all denominators when every entry is constructor-reduced: a zero entry has
denominator 1, which the lcm ignores. -/
theorem codeLcmFold_eq (fractions : List Frac) (init : Nat)
    (hred : ∀ f ∈ fractions, f.Reduced) :
    fractions.foldl (fun l f => if f.isZero then l else lcmTwo l f.den.natAbs) init =
      (fractions.map (fun f => f.den)).foldl (fun m n => Nat.lcm m n.natAbs) init := by
  induction fractions generalizing init with
  | nil => rfl
  | cons f t ih =>
    rw [List.foldl_cons, List.map_cons, List.foldl_cons]
    have hstep : (if f.isZero then init else lcmTwo init f.den.natAbs) =
        Nat.lcm init f.den.natAbs := by
      by_cases hz : f.isZero
      · have hnum : f.num = 0 := by
          simpa [Frac.isZero] using hz
        have := frac_reduced_zero_eq (hred f (List.mem_cons_self f t)) hnum
        rw [if_pos hz, this]
        simp [Nat.lcm_one_right]
      · rw [if_neg hz, lcmTwo_eq_lcm]
    rw [hstep]
    exact ih _ (fun g hg => hred g (List.mem_cons_of_mem f hg))

/-- The skip-zero gcd fold of `convertToIntegers` is the plain gcd fold:
a zero entry leaves a gcd unchanged anyway. -/
theorem codeGcdFold_eq (l : List Int) (init : Nat) :
    l.foldl (fun g val => if val = 0 then g else gcdTwo g val.natAbs) init =
      l.foldl (fun a n => Nat.gcd a n.natAbs) init := by
  induction l generalizing init with
  | nil => rfl
  | cons h t ih =>
    rw [List.foldl_cons, List.foldl_cons]
    have hstep : (if h = 0 then init else gcdTwo init h.natAbs) =
        Nat.gcd init h.natAbs := by
      by_cases hz : h = 0
      · rw [if_pos hz, hz]
        simp
      · rw [if_neg hz, gcdTwo, Nat.gcd_comm]
    rw [hstep, ih]

/-- A zero `listGcd` forces every element to zero. -/
theorem listGcd_eq_zero_all {l : List Int} (h : listGcd l = 0) :
    ∀ n ∈ l, n = 0 := by
  intro n hn
  have := listGcd_dvd hn
  rw [h] at this
  exact zero_dvd_iff.mp (by exact_mod_cast this)

/-- A min fold lands on a member of the extended list. -/
theorem foldMin_mem (t : List Int) (h : Int) : t.foldl min h ∈ h :: t := by
  induction t generalizing h with
  | nil => exact List.mem_singleton.mpr rfl
  | cons a t2 ih =>
    rw [List.foldl_cons]
    rcases List.mem_cons.mp (ih (min h a)) with heq | hmem
    · rw [heq]
      rcases min_choice h a with hc | hc
      · rw [hc]
        exact List.mem_cons_self h (a :: t2)
      · rw [hc]
        exact List.mem_cons_of_mem h (List.mem_cons_self a t2)
    · exact List.mem_cons_of_mem h (List.mem_cons_of_mem a hmem)

/-- `jsRound` is the identity on integer-valued fractions. -/
theorem jsRound_int (m : Int) : jsRound { num := m, den := 1 } = m := by
  rw [jsRound]
  simp only
  rw [Int.fdiv_eq_ediv _ (by omega)]
  omega

/-- `mkFrac` of a natural over 1. -/
theorem mkFrac_nat_one (L : Nat) : mkFrac (L : Int) 1 = { num := (L : Int), den := 1 } := by
  rw [mkFrac]
  simp only [if_neg (by omega : ¬ (1 : Int) < 0)]
  have hg : Int.gcd (L : Int) 1 = 1 := by simp [Int.gcd]
  rw [hg]
  simp

/-- Multiplying a reduced fraction by a common multiple of the
denominators clears the denominator exactly: the product is the integer
`num * (L / den)` over 1. -/
theorem frac_scale_exact {f : Frac} (hf : f.Reduced) {L : Nat}
    (hdvd : f.den.natAbs ∣ L) :
    f.multiply (mkFrac (L : Int) 1) =
      { num := f.num * ((L : Int) / f.den), den := 1 } := by
  obtain ⟨hpos, hg⟩ := hf
  rw [mkFrac_nat_one, Frac.multiply]
  simp only
  have hdvdI : f.den ∣ (L : Int) := by
    rw [← Int.natAbs_dvd]
    exact_mod_cast hdvd
  have hdvdNL : f.den ∣ f.num * (L : Int) := Dvd.dvd.mul_left hdvdI f.num
  have hgcd : Int.gcd (f.num * (L : Int)) (f.den * 1) = f.den.natAbs := by
    rw [mul_one, Int.gcd]
    exact Nat.gcd_eq_right (Int.natAbs_dvd_natAbs.mpr hdvdNL)
  rw [mkFrac]
  simp only [mul_one] at hgcd ⊢
  simp only [if_neg (show ¬ f.den < 0 by omega)]
  rw [hgcd]
  have hne : ¬ (f.den.natAbs : Int) = 0 := by
    intro hc
    omega
  rw [if_neg (by exact_mod_cast hne)]
  have hcast : (f.den.natAbs : Int) = f.den := Int.natAbs_of_nonneg (le_of_lt hpos)
  rw [hcast]
  congr 1
  · exact Int.mul_ediv_assoc f.num hdvdI
  · exact Int.ediv_self (by omega)

/-- The exactly scaled integer entries of `convertToIntegers` and
`toIntegersSpec`: every entry times the lcm of all denominators. -/
def scaledInts (fractions : List Frac) : List Int :=
  fractions.map
    (fun f => f.num * ((listLcm (fractions.map (fun f2 => f2.den)) : Int) / f.den))

/-- The value of a scaled entry is the lcm times the fraction's value. -/
theorem scaledInts_val {fractions : List Frac} (hred : ∀ f ∈ fractions, f.Reduced)
    {i : Nat} (hi : i < fractions.length) :
    (((scaledInts fractions).getD i 0 : Int) : ℚ) =
      (listLcm (fractions.map (fun f2 => f2.den)) : ℚ) *
        (fractions.getD i { num := 0, den := 1 }).val := by
  set L := listLcm (fractions.map (fun f2 => f2.den)) with hL
  have hlen : (scaledInts fractions).length = fractions.length := by
    simp [scaledInts]
  rw [getD_of_lt _ i 0 (by omega), getD_of_lt _ i _ hi]
  unfold scaledInts
  rw [List.getElem_map]
  set f := fractions[i] with hfdef
  have hfmem : f ∈ fractions := List.getElem_mem hi
  obtain ⟨hpos, hg⟩ := hred f hfmem
  have hdvdI : f.den ∣ (L : Int) := by
    rw [← Int.natAbs_dvd]
    exact_mod_cast listLcm_dvd_mem (l := fractions.map (fun f2 => f2.den))
      (List.mem_map_of_mem _ hfmem)
  push_cast [Int.cast_div_charZero hdvdI]
  rw [Frac.val]
  have hden : (f.den : ℚ) ≠ 0 := by
    exact_mod_cast ne_of_gt hpos
  field_simp
  ring

/-- Global sign applied by `convertToIntegers`: `-1` exactly when the
minimum scaled entry is negative. -/
def flipSign (ints : List Int) : Int :=
  match ints with
  | [] => 1
  | h :: t => if t.foldl min h < 0 then -1 else 1

/-- The flip sign is a unit. -/
theorem flipSign_unit (ints : List Int) : flipSign ints = 1 ∨ flipSign ints = -1 := by
  cases ints with
  | nil => exact Or.inl rfl
  | cons h t =>
    rw [flipSign]
    by_cases hc : t.foldl min h < 0
    · rw [if_pos hc]
      exact Or.inr rfl
    · rw [if_neg hc]
      exact Or.inl rfl

/-- The clamped gcd of a list divides every element. -/
theorem clampedGcd_dvd {l : List Int} {n : Int} (hn : n ∈ l) :
    ((max (listGcd l) 1 : Nat) : Int) ∣ n := by
  by_cases h0 : listGcd l = 0
  · have := listGcd_eq_zero_all h0 n hn
    rw [this, h0]
    simp
  · have hmax : max (listGcd l) 1 = listGcd l := by omega
    rw [hmax]
    exact listGcd_dvd hn

/-- Post-scaling phase of `convertToIntegers` (sign flip and gcd
reduction), restated as one map over the scaled entries. -/
theorem postProcess_master (ints : List Int) :
    (let integers2 := match ints with
      | [] => ints
      | h :: t => if t.foldl min h < 0 then ints.map (fun n => -n) else ints;
     let gcdVal : Nat :=
       integers2.foldl (fun g val => if val = 0 then g else gcdTwo g val.natAbs) 0;
     if 1 < gcdVal then integers2.map (fun n => n / (gcdVal : Int)) else integers2) =
      ints.map (fun n => (flipSign ints * n) / ((max (listGcd ints) 1 : Nat) : Int)) := by
  cases ints with
  | nil => rfl
  | cons h t =>
    simp only [flipSign]
    set l := h :: t with hldef
    have hgfold : ∀ l2 : List Int,
        l2.foldl (fun g val => if val = 0 then g else gcdTwo g val.natAbs) 0 = listGcd l2 := by
      intro l2
      rw [codeGcdFold_eq l2 0]
      rfl
    set g := listGcd l with hgdef
    by_cases hflip : t.foldl min h < 0
    · simp only [if_pos hflip]
      have hgneg : (l.map (fun n => -n)).foldl
          (fun g val => if val = 0 then g else gcdTwo g val.natAbs) 0 = g := by
        rw [hgfold, listGcd_map_neg, ← hgdef]
      rw [hgneg]
      have hn0 : t.foldl min h ∈ l := foldMin_mem t h
      have hgne : g ≠ 0 := listGcd_ne_zero hn0 (by omega)
      by_cases hg1 : 1 < g
      · rw [if_pos hg1]
        have hmax : max g 1 = g := by omega
        rw [hmax, List.map_map]
        apply List.map_congr_left
        intro n hn
        simp only [Function.comp]
        rw [neg_eq_neg_one_mul]
      · rw [if_neg hg1]
        have hmax : max g 1 = 1 := by omega
        rw [hmax]
        apply List.map_congr_left
        intro n hn
        push_cast
        rw [Int.ediv_one]
        ring
    · simp only [if_neg hflip]
      rw [hgfold, ← hgdef]
      by_cases hg1 : 1 < g
      · rw [if_pos hg1]
        have hmax : max g 1 = g := by omega
        rw [hmax]
        apply List.map_congr_left
        intro n hn
        rw [one_mul]
      · rw [if_neg hg1]
        have hmax : max g 1 = 1 := by omega
        rw [hmax]
        have : l.map (fun n => (1 * n) / ((1 : Nat) : Int)) = l.map (fun n => n) := by
          apply List.map_congr_left
          intro n hn
          push_cast
          rw [one_mul, Int.ediv_one]
        rw [this, List.map_id']

/-- Master structure theorem for `convertToIntegers` on constructor-built
fractions: the result is the exactly scaled integer vector, multiplied by
the global flip sign and divided entrywise by the (clamped) gcd of the
scaled vector.  All divisions are exact. -/
theorem convertToIntegers_master {fractions : List Frac}
    (hred : ∀ f ∈ fractions, f.Reduced) :
    convertToIntegers fractions = (scaledInts fractions).map
      (fun n => (flipSign (scaledInts fractions) * n) /
        ((max (listGcd (scaledInts fractions)) 1 : Nat) : Int)) := by
  have hlcm : fractions.foldl
      (fun l f => if f.isZero then l else lcmTwo l f.den.natAbs) 1 =
      listLcm (fractions.map (fun f2 => f2.den)) := by
    rw [codeLcmFold_eq fractions 1 hred]
    rfl
  have hints : fractions.map
      (fun f => jsRound (f.multiply
        (mkFrac ((listLcm (fractions.map (fun f2 => f2.den)) : Nat) : Int) 1))) =
      scaledInts fractions := by
    unfold scaledInts
    apply List.map_congr_left
    intro f hf
    rw [frac_scale_exact (hred f hf)
      (listLcm_dvd_mem (List.mem_map_of_mem _ hf)), jsRound_int]
  have hpost := postProcess_master (scaledInts fractions)
  simp only [] at hpost
  rw [convertToIntegers]
  simp only [hlcm, hints]
  exact hpost

/-- A flip to `-1` only happens when some scaled entry is negative. -/
theorem flipSign_neg_mem {ints : List Int} (h : flipSign ints = -1) :
    ∃ n ∈ ints, n < 0 := by
  cases ints with
  | nil => exact absurd h (by decide)
  | cons a t =>
    rw [flipSign] at h
    by_cases hc : t.foldl min a < 0
    · exact ⟨t.foldl min a, foldMin_mem t a, hc⟩
    · rw [if_neg hc] at h
      exact absurd h (by decide)

/-- `convertToIntegers` preserves the length of its input. -/
theorem convertToIntegers_length {fractions : List Frac}
    (hred : ∀ f ∈ fractions, f.Reduced) :
    (convertToIntegers fractions).length = fractions.length := by
  rw [convertToIntegers_master hred, List.length_map, scaledInts, List.length_map]

/-- `toIntegersSpec` written through `scaledInts`. -/
theorem toIntegersSpec_eq (fractions : List Frac) :
    toIntegersSpec fractions =
      (scaledInts fractions).map
        (fun n => n / ((listGcd (scaledInts fractions) : Nat) : Int)) := rfl

/-- `FractionUtils.toIntegers` agrees with the spec-modelled conversion:
its array gcd/lcm helpers compute the plain gcd and lcm. -/
theorem toIntegers_eq_spec (fractions : List Frac) :
    FractionUtils.toIntegers fractions = toIntegersSpec fractions := by
  cases fractions with
  | nil => rfl
  | cons f rest =>
    rw [FractionUtils.toIntegers, toIntegersSpec_eq]
    simp only [lcmArray_eq_listLcm]
    have hcons : (f :: rest).map
        (fun f2 => f2.num *
          ((listLcm ((f :: rest).map (fun f3 => f3.den)) : Int) / f2.den)) =
        scaledInts (f :: rest) := rfl
    rw [hcons]
    have hne : scaledInts (f :: rest) ≠ [] := by
      simp [scaledInts]
    obtain ⟨h0, t0, hht⟩ : ∃ h0 t0, scaledInts (f :: rest) = h0 :: t0 := by
      cases hsc : scaledInts (f :: rest) with
      | nil => exact absurd hsc hne
      | cons a b => exact ⟨a, b, rfl⟩
    rw [hht, gcdArray_eq_listGcd]

/-- The gcd of the output of `convertToIntegers` is 1 whenever some input
entry is nonzero. -/
theorem convertToIntegers_gcd_one {fractions : List Frac}
    (hred : ∀ f ∈ fractions, f.Reduced)
    (hnz : ∃ f ∈ fractions, f.num ≠ 0) :
    listGcd (convertToIntegers fractions) = 1 := by
  obtain ⟨f, hf, hfnz⟩ := hnz
  set ints := scaledInts fractions with hintsdef
  set L := listLcm (fractions.map (fun f2 => f2.den)) with hLdef
  have hLpos : 0 < L := by
    apply listLcm_pos
    intro n hn
    rw [List.mem_map] at hn
    obtain ⟨f2, hf2, rfl⟩ := hn
    have := (hred f2 hf2).1
    omega
  have hfmem : f.num * ((L : Int) / f.den) ∈ ints := by
    rw [hintsdef, scaledInts, ← hLdef]
    exact List.mem_map_of_mem _ hf
  have hfdvd : f.den.natAbs ∣ L := listLcm_dvd_mem (List.mem_map_of_mem _ hf)
  have hentry_ne : f.num * ((L : Int) / f.den) ≠ 0 := by
    have hdpos := (hred f hf).1
    have hdvdI : f.den ∣ (L : Int) := by
      rw [← Int.natAbs_dvd]
      exact_mod_cast hfdvd
    have hqpos : 0 < (L : Int) / f.den := by
      apply Int.ediv_pos_of_pos_of_dvd (by exact_mod_cast hLpos) (by omega) hdvdI
    intro hc
    rcases mul_eq_zero.mp hc with h1 | h2
    · exact hfnz h1
    · omega
  have hgne : listGcd ints ≠ 0 := listGcd_ne_zero hfmem hentry_ne
  have hmax : max (listGcd ints) 1 = listGcd ints := by omega
  rw [convertToIntegers_master hred, ← hintsdef, hmax]
  set s := flipSign ints with hsdef
  have hcomp : ints.map (fun n => (s * n) / ((listGcd ints : Nat) : Int)) =
      (ints.map (fun n => s * n)).map (fun n => n / ((listGcd ints : Nat) : Int)) := by
    rw [List.map_map]
    rfl
  rw [hcomp]
  have hgmul : listGcd (ints.map (fun n => s * n)) = listGcd ints := by
    rcases flipSign_unit ints with h1 | h1
    · rw [← hsdef] at h1
      rw [h1]
      have : ints.map (fun n => (1 : Int) * n) = ints.map (fun n => n) := by
        apply List.map_congr_left
        intro n hn
        rw [one_mul]
      rw [this, List.map_id']
    · rw [← hsdef] at h1
      rw [h1]
      have : ints.map (fun n => (-1 : Int) * n) = ints.map (fun n => -n) := by
        apply List.map_congr_left
        intro n hn
        rw [neg_one_mul]
      rw [this, listGcd_map_neg]
  rw [listGcd_map_div hgne ?hdvd, hgmul, Nat.div_self (by omega)]
  case hdvd =>
    intro n hn
    rw [List.mem_map] at hn
    obtain ⟨m, hm, rfl⟩ := hn
    exact Dvd.dvd.mul_left (listGcd_dvd hm) s

/-- Proportionality of `convertToIntegers`: the output is a fixed nonzero
rational multiple of the input values. -/
theorem convertToIntegers_prop {fractions : List Frac}
    (hred : ∀ f ∈ fractions, f.Reduced) :
    ∃ κ : ℚ, κ ≠ 0 ∧ ∀ i, i < fractions.length →
      (((convertToIntegers fractions).getD i 0 : Int) : ℚ) =
        κ * (fractions.getD i { num := 0, den := 1 }).val := by
  set ints := scaledInts fractions with hintsdef
  set L := listLcm (fractions.map (fun f2 => f2.den)) with hLdef
  set G : Nat := max (listGcd ints) 1 with hGdef
  set s := flipSign ints with hsdef
  have hLpos : 0 < L := by
    apply listLcm_pos
    intro n hn
    rw [List.mem_map] at hn
    obtain ⟨f2, hf2, rfl⟩ := hn
    have := (hred f2 hf2).1
    omega
  have hGpos : 0 < G := by omega
  have hsne : (s : ℚ) ≠ 0 := by
    rcases flipSign_unit ints with h1 | h1 <;> rw [← hsdef] at h1 <;> rw [h1] <;> norm_num
  refine ⟨(s : ℚ) * (L : ℚ) / (G : ℚ), ?_, ?_⟩
  · apply div_ne_zero
    · apply mul_ne_zero hsne
      have : (L : ℚ) > 0 := by exact_mod_cast hLpos
      exact ne_of_gt this
    · exact_mod_cast ne_of_gt hGpos
  · intro i hi
    have hlen : ints.length = fractions.length := by
      rw [hintsdef, scaledInts, List.length_map]
    rw [convertToIntegers_master hred, ← hintsdef, ← hGdef, ← hsdef]
    rw [getD_of_lt _ i 0 (by rw [List.length_map]; omega)]
    rw [List.getElem_map]
    have hilt : i < ints.length := by omega
    have hidx : ints[i] = ints.getD i 0 := (getD_of_lt _ i 0 hilt).symm
    rw [hidx]
    have hdvd : ((G : Nat) : Int) ∣ ints.getD i 0 :=
      clampedGcd_dvd (getD_mem_of_lt (by omega))
    have hdvd2 : ((G : Nat) : Int) ∣ s * ints.getD i 0 := Dvd.dvd.mul_left hdvd s
    rw [Int.cast_div_charZero hdvd2]
    have hval := scaledInts_val hred (i := i) (by omega)
    rw [← hintsdef, ← hLdef] at hval
    push_cast
    push_cast at hval
    rw [hval]
    field_simp
    ring

/-- `convertToIntegers` agrees with the spec-modelled conversion up to a
global sign flip. -/
theorem convertToIntegers_eq_spec {fractions : List Frac}
    (hred : ∀ f ∈ fractions, f.Reduced) :
    convertToIntegers fractions = toIntegersSpec fractions ∨
    convertToIntegers fractions = (toIntegersSpec fractions).map (fun n => -n) := by
  set ints := scaledInts fractions with hintsdef
  set g : Nat := listGcd ints with hgdef
  rw [convertToIntegers_master hred, toIntegersSpec_eq, ← hintsdef, ← hgdef]
  rcases flipSign_unit ints with h1 | h1 <;> rw [h1]
  · left
    apply List.map_congr_left
    intro n hn
    rw [one_mul]
    by_cases h0 : g = 0
    · have := listGcd_eq_zero_all (hgdef ▸ h0) n hn
      rw [this]
      simp
    · have hmax : max g 1 = g := by omega
      rw [hmax]
  · right
    rw [List.map_map]
    apply List.map_congr_left
    intro n hn
    simp only [Function.comp]
    by_cases h0 : g = 0
    · have := listGcd_eq_zero_all (hgdef ▸ h0) n hn
      rw [this]
      simp
    · have hmax : max g 1 = g := by omega
      rw [hmax, neg_one_mul, Int.neg_ediv_of_dvd (listGcd_dvd hn)]

/-- JavaScript comparison `integers[i] <= 0`: `undefined <= 0` is false
for an out-of-range index. -/
def jsIdxNonpos (l : List Int) (i : Nat) : Bool :=
  match l[i]? with
  | some x => decide (x ≤ 0)
  | none => false

/-- `evaluateNullspaceSolution` (app.js): convert the candidate to
integers and accept only when every reactant entry and every product
entry is strictly positive; the score is `max · 1000 + sum`.  `Math.max`
of an empty spread is `-Infinity`; candidate vectors have one entry per
species and are never empty in a reachable call, so the integer sentinel
used here for the empty list is never compared. -/
def evaluateNullspaceSolution (basis : List Frac) (numReactants : Nat) :
    Option (List Int × Int) :=
  let integers := convertToIntegers basis
  let allReactantsPositive :=
    (List.range numReactants).all (fun i => ! jsIdxNonpos integers i)
  let allProductsPositive :=
    (List.range' numReactants (integers.length - numReactants)).all
      (fun i => ! jsIdxNonpos integers i)
  if allReactantsPositive && allProductsPositive then
    let maxCoeff := match integers with
      | [] => 0
      | h :: t => t.foldl max h
    let sumCoeff := integers.foldl (fun a b => a + b) 0
    some (integers, maxCoeff * 1000 + sumCoeff)
  else none

/-- One step of the best-candidate tracking shared by
`findBestIntegerSolution` and `searchIntegerCombinations`: `none` plays
the initial `Infinity` score, and a candidate replaces the best only on a
strictly smaller score. -/
def considerCandidate (numReactants : Nat) (st : Option (List Int × Int))
    (cand : List Frac) : Option (List Int × Int) :=
  match evaluateNullspaceSolution cand numReactants, st with
  | none, st2 => st2
  | some p, none => some p
  | some p, some q => if p.2 < q.2 then some p else some q

/-- Weight tuples enumerated by `generateWeights` inside
`searchIntegerCombinations`, in DFS order (depth 0 varies slowest). -/
def weightTuples : Nat → List (List Int)
  | 0 => [[]]
  | n + 1 =>
    ([-3, -2, -1, 0, 1, 2, 3] : List Int).flatMap
      (fun w => (weightTuples n).map (fun ws => w :: ws))

/-- Linear combination `Σ weights[i] · basis[i]` computed by
`generateWeights`: start from a zero vector of the first basis row's
length and accumulate `combined[j].add(basis[i][j].multiply(weight))`. -/
def combineBasis (nb : List (List Frac)) (weights : List Int) : List Frac :=
  let init := (nb.headD []).map (fun _ => mkFrac 0 1)
  (nb.zip weights).foldl
    (fun acc bw =>
      acc.mapIdx (fun j c => c.add ((bw.1.getD j (mkFrac 0 1)).multiply (mkFrac bw.2 1))))
    init

/-- `searchIntegerCombinations` (app.js): try every weight tuple over the
first (at most) three basis vectors except all-zero, each in both
signs. -/
def searchIntegerCombinations (nb : List (List Frac)) (numReactants : Nat) :
    Option (List Int) :=
  let numBasis := min nb.length 3
  let tuples := (weightTuples numBasis).filter (fun ws => ! ws.all (fun w => w == 0))
  let best := tuples.foldl
    (fun st ws =>
      let combined := combineBasis nb ws
      [combined, combined.map (fun f => f.multiply (mkFrac (-1) 1))].foldl
        (considerCandidate numReactants) st)
    none
  match best with
  | some p => some p.1
  | none => none

/-- `findBestIntegerSolution` (app.js): single basis vectors and their
negations first, then small integer combinations. -/
def findBestIntegerSolution (nullspaceBasis : List (List Frac))
    (numReactants : Nat) : Option (List Int) :=
  match nullspaceBasis with
  | [] => none
  | _ =>
    let firstPass := nullspaceBasis.foldl
      (fun st basis =>
        [basis, basis.map (fun f => f.multiply (mkFrac (-1) 1))].foldl
          (considerCandidate numReactants) st)
      none
    match firstPass with
    | some p => some p.1
    | none =>
      if 1 < nullspaceBasis.length then
        searchIntegerCombinations nullspaceBasis numReactants
      else none

/-- An accepted candidate's coefficients are its integer conversion, and
every entry is strictly positive. -/
theorem evaluateNullspaceSolution_some {basis : List Frac} {nr : Nat}
    {p : List Int × Int} (h : evaluateNullspaceSolution basis nr = some p) :
    p.1 = convertToIntegers basis ∧ ∀ i, i < p.1.length → 0 < p.1.getD i 0 := by
  rw [evaluateNullspaceSolution] at h
  simp only [] at h
  set ints := convertToIntegers basis with hintsdef
  by_cases hcond : ((List.range nr).all (fun i => ! jsIdxNonpos ints i) &&
      (List.range' nr (ints.length - nr)).all (fun i => ! jsIdxNonpos ints i)) = true
  · rw [if_pos hcond] at h
    injection h with h2
    obtain ⟨hall1, hall2⟩ := Bool.and_eq_true_iff.mp hcond
    constructor
    · rw [← h2]
    · intro i hi
      rw [← h2] at hi ⊢
      simp only [] at hi ⊢
      have hkey : jsIdxNonpos ints i = false := by
        by_cases hir : i < nr
        · have := List.all_eq_true.mp hall1 i (List.mem_range.mpr hir)
          simpa using this
        · have hmem : i ∈ List.range' nr (ints.length - nr) := by
            rw [List.mem_range'_1]
            exact ⟨by omega, by omega⟩
          have := List.all_eq_true.mp hall2 i hmem
          simpa using this
      rw [jsIdxNonpos] at hkey
      rw [List.getElem?_eq_getElem hi] at hkey
      simp only [decide_eq_false_iff_not, not_le] at hkey
      rw [getD_of_lt _ i 0 hi]
      exact hkey
  · rw [if_neg hcond] at h
    cases h

/-- An optional-state fold preserves a property of the `some` payload when
every step does. -/
theorem foldl_opt_inv {α X : Type} (P : X → Prop)
    (f : Option X → α → Option X) (l : List α) :
    ∀ st : Option X,
    (∀ s a, a ∈ l → (∀ p, s = some p → P p) → ∀ p, f s a = some p → P p) →
    (∀ p, st = some p → P p) →
    ∀ p, l.foldl f st = some p → P p := by
  induction l with
  | nil => intro st _ hst p hp; exact hst p hp
  | cons a t ih =>
    intro st hstep hst p hp
    rw [List.foldl_cons] at hp
    refine ih (f st a) ?_ ?_ p hp
    · intro s b hb hs q hq
      exact hstep s b (List.mem_cons_of_mem a hb) hs q hq
    · intro q hq
      exact hstep st a (List.mem_cons_self a t) hst q hq

/-- `considerCandidate` preserves a property that holds of every accepted
evaluation. -/
theorem considerCandidate_inv {nr : Nat} (P : List Int × Int → Prop)
    {st : Option (List Int × Int)} (hst : ∀ p, st = some p → P p)
    {cand : List Frac}
    (hc : ∀ p, evaluateNullspaceSolution cand nr = some p → P p) :
    ∀ p, considerCandidate nr st cand = some p → P p := by
  intro p hp
  cases heval : evaluateNullspaceSolution cand nr with
  | none =>
    unfold considerCandidate at hp
    simp only [heval] at hp
    exact hst p hp
  | some q =>
    unfold considerCandidate at hp
    simp only [heval] at hp
    cases hstc : st with
    | none =>
      simp only [hstc] at hp
      exact hc p (hp ▸ heval)
    | some r =>
      simp only [hstc] at hp
      by_cases hlt : q.2 < r.2
      · rw [if_pos hlt] at hp
        injection hp with h2
        exact hc p (h2 ▸ heval)
      · rw [if_neg hlt] at hp
        injection hp with h2
        exact hst p (h2 ▸ hstc)

/-- Any result of `searchIntegerCombinations` is the accepted evaluation
of a weighted combination of the basis or its negation. -/
theorem searchIntegerCombinations_some {nb : List (List Frac)} {nr : Nat}
    {coeffs : List Int} (h : searchIntegerCombinations nb nr = some coeffs) :
    ∃ ws cand s,
      (cand = combineBasis nb ws ∨
        cand = (combineBasis nb ws).map (fun f => f.multiply (mkFrac (-1) 1))) ∧
      evaluateNullspaceSolution cand nr = some (coeffs, s) := by
  rw [searchIntegerCombinations] at h
  simp only [] at h
  set P : List Int × Int → Prop := fun p =>
    ∃ ws cand s,
      (cand = combineBasis nb ws ∨
        cand = (combineBasis nb ws).map (fun f => f.multiply (mkFrac (-1) 1))) ∧
      evaluateNullspaceSolution cand nr = some (p.1, s) with hPdef
  set best := ((weightTuples (min nb.length 3)).filter
    (fun ws => ! ws.all (fun w => w == 0))).foldl
    (fun st ws =>
      [combineBasis nb ws,
        (combineBasis nb ws).map (fun f => f.multiply (mkFrac (-1) 1))].foldl
        (considerCandidate nr) st)
    (none : Option (List Int × Int)) with hbestdef
  have hbest : ∀ p, best = some p → P p := by
    rw [hbestdef]
    apply foldl_opt_inv P
    · intro s ws hws hs p hp
      refine foldl_opt_inv P _ _ s ?_ hs p hp
      intro s2 cand hcand hs2 q hq
      refine considerCandidate_inv P hs2 ?_ q hq
      intro r hr
      rcases List.mem_cons.mp hcand with heq | hcand2
      · exact ⟨ws, cand, r.2, Or.inl heq, hr⟩
      · rw [List.mem_singleton] at hcand2
        exact ⟨ws, cand, r.2, Or.inr hcand2, hr⟩
    · intro p hp
      cases hp
  cases hb : best with
  | none =>
    rw [hb] at h
    cases h
  | some p =>
    rw [hb] at h
    simp only [] at h
    injection h with h2
    have := hbest p hb
    rw [hPdef] at this
    rw [h2] at this
    exact this

/-- Any result of `findBestIntegerSolution` is the accepted evaluation of
a basis vector, a negated basis vector, or (from the combination search) a
weighted combination or its negation. -/
theorem findBestIntegerSolution_some {nb : List (List Frac)} {nr : Nat}
    {coeffs : List Int} (h : findBestIntegerSolution nb nr = some coeffs) :
    ∃ cand s, evaluateNullspaceSolution cand nr = some (coeffs, s) ∧
      ((∃ b ∈ nb, cand = b ∨ cand = b.map (fun f => f.multiply (mkFrac (-1) 1))) ∨
       (∃ ws, cand = combineBasis nb ws ∨
          cand = (combineBasis nb ws).map (fun f => f.multiply (mkFrac (-1) 1)))) := by
  cases hnb : nb with
  | nil =>
    rw [hnb] at h
    cases h
  | cons b0 rest =>
    rw [hnb] at h
    rw [findBestIntegerSolution] at h
    set P : List Int × Int → Prop := fun p =>
      ∃ cand s, evaluateNullspaceSolution cand nr = some (p.1, s) ∧
        (∃ b ∈ b0 :: rest, cand = b ∨
          cand = b.map (fun f => f.multiply (mkFrac (-1) 1))) with hPdef
    set firstPass := (b0 :: rest).foldl
      (fun st basis =>
        [basis, basis.map (fun f => f.multiply (mkFrac (-1) 1))].foldl
          (considerCandidate nr) st)
      (none : Option (List Int × Int)) with hfpdef
    have hfp : ∀ p, firstPass = some p → P p := by
      rw [hfpdef]
      apply foldl_opt_inv P
      · intro s basis hbasis hs p hp
        refine foldl_opt_inv P _ _ s ?_ hs p hp
        intro s2 cand hcand hs2 q hq
        refine considerCandidate_inv P hs2 ?_ q hq
        intro r hr
        rcases List.mem_cons.mp hcand with heq | hcand2
        · exact ⟨cand, r.2, hr, ⟨basis, hbasis, Or.inl heq⟩⟩
        · rw [List.mem_singleton] at hcand2
          exact ⟨cand, r.2, hr, ⟨basis, hbasis, Or.inr hcand2⟩⟩
      · intro p hp
        cases hp
    cases hfpc : firstPass with
    | some p =>
      rw [hfpc] at h
      simp only [] at h
      injection h with h2
      obtain ⟨cand, s, heval, hprov⟩ := hfp p hfpc
      rw [h2] at heval
      exact ⟨cand, s, heval, Or.inl hprov⟩
    | none =>
      rw [hfpc] at h
      simp only [] at h
      by_cases hlen : 1 < (b0 :: rest).length
      · rw [if_pos hlen] at h
        obtain ⟨ws, cand, s, hprov, heval⟩ := searchIntegerCombinations_some h
        exact ⟨cand, s, heval, Or.inr ⟨ws, hprov⟩⟩
      · rw [if_neg hlen] at h
        cases h
    simp

/-- A candidate vector fit for the selector: full column length,
constructor-reduced entries, annihilated by every matrix row. -/
def VecGood (A : Mat) (cols : Nat) (v : List Frac) : Prop :=
  v.length = cols ∧ (∀ f ∈ v, f.Reduced) ∧
    ∀ r, r < A.length → dotRow A r (fun j => (entryD v j).val) cols = 0

/-- Pointwise-equal value functions give equal row products. -/
theorem dotRow_congr {A : Mat} {r cols : Nat} {u v : Nat → ℚ}
    (h : ∀ j, j < cols → u j = v j) : dotRow A r u cols = dotRow A r v cols := by
  apply Finset.sum_congr rfl
  intro j hj
  rw [h j (Finset.mem_range.mp hj)]

/-- Linearity of the row product. -/
theorem dotRow_add_mul (A : Mat) (r cols : Nat) (u v : Nat → ℚ) (c : ℚ) :
    dotRow A r (fun j => u j + v j * c) cols =
      dotRow A r u cols + c * dotRow A r v cols := by
  rw [dotRow, dotRow, dotRow, Finset.mul_sum, ← Finset.sum_add_distrib]
  apply Finset.sum_congr rfl
  intro j _
  ring

/-- Negating the value function negates the row product. -/
theorem dotRow_neg (A : Mat) (r cols : Nat) (u : Nat → ℚ) :
    dotRow A r (fun j => -(u j)) cols = -(dotRow A r u cols) := by
  rw [dotRow, dotRow, ← Finset.sum_neg_distrib]
  apply Finset.sum_congr rfl
  intro j _
  ring

/-- Negating a good candidate (the `multiply(new Fraction(-1))` map)
preserves goodness. -/
theorem vecGood_neg {A : Mat} {cols : Nat} {v : List Frac} (h : VecGood A cols v) :
    VecGood A cols (v.map (fun f => f.multiply (mkFrac (-1) 1))) := by
  obtain ⟨hlen, hred, hann⟩ := h
  refine ⟨by rw [List.length_map, hlen], ?_, ?_⟩
  · intro f hf
    rw [List.mem_map] at hf
    obtain ⟨g, hg, rfl⟩ := hf
    rw [frac_multiply_neg_one]
    exact frac_neg_reduced (hred g hg)
  · intro r hr
    have hpt : ∀ j, j < cols →
        (entryD (v.map (fun f => f.multiply (mkFrac (-1) 1))) j).val =
          -((entryD v j).val) := by
      intro j hj
      rw [entryD, entryD, getD_of_lt _ j _ (by rw [List.length_map]; omega),
        getD_of_lt _ j _ (by omega), List.getElem_map, frac_multiply_neg_one]
      exact frac_val_neg (hred _ (List.getElem_mem _))
    rw [dotRow_congr (fun j hj => by rw [hpt j hj]), dotRow_neg, hann r hr, neg_zero]

/-- The accumulation loop of `generateWeights` preserves goodness of the
running combination. -/
theorem combineFold_good {A : Mat} {cols : Nat} (pairs : List (List Frac × Int)) :
    ∀ acc : List Frac, acc.length = cols → (∀ f ∈ acc, f.Reduced) →
    (∀ r, r < A.length → dotRow A r (fun j => (entryD acc j).val) cols = 0) →
    (∀ p ∈ pairs, (∀ f ∈ p.1, f.Reduced) ∧
      (∀ r, r < A.length → dotRow A r (fun j => (entryD p.1 j).val) cols = 0)) →
    ((pairs.foldl (fun acc bw => acc.mapIdx
        (fun j c => c.add ((bw.1.getD j (mkFrac 0 1)).multiply (mkFrac bw.2 1))))
      acc).length = cols ∧
    (∀ f ∈ pairs.foldl (fun acc bw => acc.mapIdx
        (fun j c => c.add ((bw.1.getD j (mkFrac 0 1)).multiply (mkFrac bw.2 1))))
      acc, f.Reduced) ∧
    ∀ r, r < A.length → dotRow A r
      (fun j => (entryD (pairs.foldl (fun acc bw => acc.mapIdx
        (fun j c => c.add ((bw.1.getD j (mkFrac 0 1)).multiply (mkFrac bw.2 1))))
      acc) j).val) cols = 0) := by
  induction pairs with
  | nil =>
    intro acc hlen hred hann _
    exact ⟨hlen, hred, hann⟩
  | cons p t ih =>
    intro acc hlen hred hann hpairs
    obtain ⟨hpred, hpann⟩ := hpairs p (List.mem_cons_self p t)
    simp only [List.foldl_cons]
    set step := acc.mapIdx
      (fun j c => c.add ((p.1.getD j (mkFrac 0 1)).multiply (mkFrac p.2 1))) with hstepdef
    have hslen : step.length = cols := by
      rw [hstepdef, List.length_mapIdx, hlen]
    have hentry : ∀ j, j < cols →
        entryD step j = (entryD acc j).add ((entryD p.1 j).multiply (mkFrac p.2 1)) := by
      intro j hj
      rw [entryD, hstepdef, getD_of_lt _ j _ (by rw [List.length_mapIdx]; omega),
        List.getElem_mapIdx]
      rw [entryD, entryD, getD_of_lt acc j (mkFrac 0 1) (by omega)]
    have hsred : ∀ f ∈ step, f.Reduced := by
      intro f hf
      obtain ⟨j, hj, hjf⟩ := List.mem_iff_getElem.mp hf
      have hj2 : j < cols := by
        rw [hslen] at hj
        exact hj
      have := hentry j hj2
      rw [entryD, getD_of_lt _ j _ (by omega), hjf] at this
      rw [this]
      exact frac_add_reduced (entryD_reduced hred j)
        (frac_multiply_reduced (entryD_reduced hpred j) (mkFrac_reduced _ _ one_ne_zero))
    have hsann : ∀ r, r < A.length →
        dotRow A r (fun j => (entryD step j).val) cols = 0 := by
      intro r hr
      have hpt : ∀ j, j < cols → (entryD step j).val =
          (entryD acc j).val + (entryD p.1 j).val * ((p.2 : Int) : ℚ) := by
        intro j hj
        rw [hentry j hj,
          frac_val_add (entryD_reduced hred j)
            (frac_multiply_reduced (entryD_reduced hpred j)
              (mkFrac_reduced _ _ one_ne_zero)),
          frac_val_multiply (entryD_reduced hpred j) (mkFrac_reduced _ _ one_ne_zero),
          frac_val_int]
      rw [dotRow_congr hpt, dotRow_add_mul, hann r hr, hpann r hr]
      ring
    exact ih step hslen hsred hsann
      (fun q hq => hpairs q (List.mem_cons_of_mem p hq))

/-- A weighted combination of good basis vectors is good. -/
theorem combineBasis_good {A : Mat} {cols : Nat} {nb : List (List Frac)}
    (hnb : ∀ b ∈ nb, VecGood A cols b) (hne : nb ≠ []) (ws : List Int) :
    VecGood A cols (combineBasis nb ws) := by
  have hhead : (nb.headD []).length = cols := by
    cases nb with
    | nil => exact absurd rfl hne
    | cons b rest => exact (hnb b (List.mem_cons_self b rest)).1
  have hinit : ((nb.headD []).map (fun _ => mkFrac 0 1)).length = cols := by
    rw [List.length_map, hhead]
  have hinitred : ∀ f ∈ (nb.headD []).map (fun _ => mkFrac 0 1), f.Reduced := by
    intro f hf
    rw [List.mem_map] at hf
    obtain ⟨g, _, rfl⟩ := hf
    exact mkFrac_reduced _ _ one_ne_zero
  have hinitval : ∀ j, (entryD ((nb.headD []).map (fun _ => mkFrac 0 1)) j).val = 0 := by
    intro j
    by_cases hj : j < ((nb.headD []).map (fun _ => mkFrac 0 1)).length
    · rw [entryD, getD_of_lt _ j _ hj, List.getElem_map]
      rw [val_mkFrac 0 1 one_ne_zero]
      norm_num
    · rw [entryD, List.getD_eq_default _ _ (by omega)]
      rw [val_mkFrac 0 1 one_ne_zero]
      norm_num
  have hinitann : ∀ r, r < A.length →
      dotRow A r (fun j => (entryD ((nb.headD []).map (fun _ => mkFrac 0 1)) j).val)
        cols = 0 := by
    intro r _
    rw [dotRow_congr (fun j _ => hinitval j), dotRow]
    simp
  have hpairs : ∀ p ∈ nb.zip ws, (∀ f ∈ p.1, f.Reduced) ∧
      (∀ r, r < A.length → dotRow A r (fun j => (entryD p.1 j).val) cols = 0) := by
    intro p hp
    have hmem := (List.of_mem_zip hp).1
    exact ⟨(hnb p.1 hmem).2.1, (hnb p.1 hmem).2.2⟩
  obtain ⟨h1, h2, h3⟩ := @combineFold_good A cols (nb.zip ws) _
    hinit hinitred hinitann hpairs
  exact ⟨h1, h2, h3⟩

/-- Scaling the value function scales the row product. -/
theorem dotRow_smul (A : Mat) (r cols : Nat) (u : Nat → ℚ) (c : ℚ) :
    dotRow A r (fun j => c * u j) cols = c * dotRow A r u cols := by
  rw [dotRow, dotRow, Finset.mul_sum]
  apply Finset.sum_congr rfl
  intro j _
  ring

/-- `mkFrac 0 1` is the literal zero fraction. -/
theorem mkFrac_zero_one : mkFrac 0 1 = { num := 0, den := 1 } := by decide

/-- Any coefficient vector returned by `findBestIntegerSolution` over a
good basis has full column length, strictly positive entries, and is
annihilated by every row of the matrix. -/
theorem findBest_conserves {A : Mat} {cols : Nat} {nb : List (List Frac)} {nr : Nat}
    {coeffs : List Int}
    (hnb : ∀ b ∈ nb, VecGood A cols b) (hne : nb ≠ [])
    (h : findBestIntegerSolution nb nr = some coeffs) :
    coeffs.length = cols ∧ (∀ i, i < coeffs.length → 0 < coeffs.getD i 0) ∧
      ∀ r, r < A.length →
        dotRow A r (fun j => ((coeffs.getD j 0 : Int) : ℚ)) cols = 0 := by
  obtain ⟨cand, s, heval, hprov⟩ := findBestIntegerSolution_some h
  have hcg : VecGood A cols cand := by
    rcases hprov with ⟨b, hb, hcb⟩ | ⟨ws, hcb⟩
    · rcases hcb with heq | heq
      · rw [heq]
        exact hnb b hb
      · rw [heq]
        exact vecGood_neg (hnb b hb)
    · rcases hcb with heq | heq
      · rw [heq]
        exact combineBasis_good hnb hne ws
      · rw [heq]
        exact vecGood_neg (combineBasis_good hnb hne ws)
  obtain ⟨hclen, hcred, hcann⟩ := hcg
  obtain ⟨hc1, hc2⟩ := evaluateNullspaceSolution_some heval
  simp only [] at hc1 hc2
  refine ⟨?_, hc2, ?_⟩
  · rw [hc1, convertToIntegers_length hcred, hclen]
  · intro r hr
    obtain ⟨κ, hκ, hprop⟩ := convertToIntegers_prop hcred
    have hpt : ∀ j, j < cols →
        ((coeffs.getD j 0 : Int) : ℚ) = κ * (entryD cand j).val := by
      intro j hj
      rw [hc1]
      have hj2 : j < cand.length := by omega
      have := hprop j hj2
      rw [this, entryD, mkFrac_zero_one]
    rw [dotRow_congr hpt, dotRow_smul, hcann r hr, mul_zero]

namespace ChemicalBalancer

/-- `generateCandidates` (balancer.js): the vector, its negation, and for
every nonzero component a copy scaled to make that component positive. -/
def generateCandidates (basisVector : List Frac) : List (List Frac) :=
  [basisVector, basisVector.map (fun x => x.neg)] ++
    (List.range basisVector.length).filterMap
      (fun i =>
        if (entryD basisVector i).isZero then none
        else
          some (basisVector.map (fun x => x.multiply
            (if (entryD basisVector i).ltInt 0 then mkFrac (-1) 1 else mkFrac 1 1))))

/-- `findBestNullVector` (balancer.js): a candidate is admitted as soon as
at least ONE product coefficient is positive; the two throws are both
modelled as `none`.  The score uses `vectorToIntegers`, which is
`FractionUtils.toIntegers`. -/
def findBestNullVector (numReactants numProducts : Nat)
    (nullBasis : List (List Frac)) : Option (List Frac) :=
  match nullBasis with
  | [] => none
  | _ =>
    let best := nullBasis.foldl
      (fun st basisVec =>
        (generateCandidates basisVec).foldl
          (fun st2 candidate =>
            let hasPositiveProduct :=
              ((candidate.drop numReactants).take numProducts).any
                (fun c => c.gtInt 0)
            if ! hasPositiveProduct then st2
            else
              let absInts := (FractionUtils.toIntegers candidate).map
                (fun n => n.natAbs)
              let maxCoeff : Nat := match absInts with
                | [] => 0
                | h :: t => t.foldl max h
              let sumCoeffs : Nat := absInts.foldl (fun a b => a + b) 0
              let score : Nat := maxCoeff * 1000 + sumCoeffs
              match st2 with
              | none => some (candidate, score)
              | some (bv, bs) =>
                if score < bs then some (candidate, score) else some (bv, bs))
          st)
      none
    match best with
    | some (bv, _) => some bv
    | none => none

end ChemicalBalancer

/-- JavaScript regex whitespace class `\s` (the members relevant to
chemical input; all are single code points). -/
def jsIsSpace (c : Char) : Bool :=
  c = ' ' ∨ c = '\t' ∨ c = '\n' ∨ c = '\u000b' ∨ c = '\u000c' ∨ c = '\r' ∨
  c = ' ' ∨ c = ' ' ∨ (' ' ≤ c ∧ c ≤ ' ') ∨ c = ' ' ∨
  c = ' ' ∨ c = ' ' ∨ c = ' ' ∨ c = '　' ∨ c = '﻿'

def isDigitChar (c : Char) : Bool := '0' ≤ c ∧ c ≤ '9'

def isUpperChar (c : Char) : Bool := 'A' ≤ c ∧ c ≤ 'Z'

def isLowerChar (c : Char) : Bool := 'a' ≤ c ∧ c ≤ 'z'

def isLetterChar (c : Char) : Bool := isUpperChar c ∨ isLowerChar c

/-- Decimal value of a digit run (JS `parseInt` on a digit string). -/
def digitsToNat (ds : List Char) : Nat :=
  ds.foldl (fun acc c => acc * 10 + (c.toNat - '0'.toNat)) 0

/-- Subscript map of `normalizeChemInput` (app.js); the regex class
`[₀-₉]` is the contiguous block U+2080–U+2089, fully covered by the
map. -/
def subMapChar (c : Char) : Char :=
  Char.ofNat ('0'.toNat + (c.toNat - '₀'.toNat))

/-- Superscript replacement of `normalizeChemInput` (app.js).  The regex
class `[⁰-⁹⁺⁻]` is the RANGE U+2070–U+2079 plus U+207A/U+207B; the
superscripts ¹ ² ³ live at U+00B9/U+00B2/U+00B3 and are NOT matched, while
U+2071–U+2073 are matched but missing from the map, so the callback
returns `undefined` and the replacement inserts the string
`"undefined"`. -/
def supReplace (c : Char) : List Char :=
  if c = '⁰' then ['0']
  else if c = '⁴' then ['4']
  else if c = '⁵' then ['5']
  else if c = '⁶' then ['6']
  else if c = '⁷' then ['7']
  else if c = '⁸' then ['8']
  else if c = '⁹' then ['9']
  else if c = '⁺' then ['+']
  else if c = '⁻' then ['-']
  else ['u', 'n', 'd', 'e', 'f', 'i', 'n', 'e', 'd']

def isSupRange (c : Char) : Bool := '⁰' ≤ c ∧ c ≤ '⁻'

def isSubRange (c : Char) : Bool := '₀' ≤ c ∧ c ≤ '₉'

/-- Collapse every maximal run of `\s` to a single space (fuel-bounded:
every step consumes at least one character). -/
def collapseSpacesGo (fuel : Nat) (s : List Char) : List Char :=
  match fuel with
  | 0 => s
  | fuel + 1 =>
    match s with
    | [] => []
    | c :: cs =>
      if jsIsSpace c then ' ' :: collapseSpacesGo fuel (cs.dropWhile jsIsSpace)
      else c :: collapseSpacesGo fuel cs

def collapseSpaces (s : List Char) : List Char :=
  collapseSpacesGo (s.length + 1) s

/-- JS `String.trim`. -/
def jsTrim (s : List Char) : List Char :=
  (((s.dropWhile jsIsSpace).reverse).dropWhile jsIsSpace).reverse

/-- `normalizeChemInput` (app.js): subscripts to digits, the superscript
range to digits/signs (or the literal string `undefined`), hydrate dots,
minus variants, whitespace collapse, trim. -/
def normalizeChemInput (s : List Char) : List Char :=
  let s1 := s.map (fun c => if isSubRange c then subMapChar c else c)
  let s2 := s1.flatMap (fun c => if isSupRange c then supReplace c else [c])
  let s3 := s2.map (fun c => if c = '·' ∨ c = '•' then '.' else c)
  let s4 := s3.map (fun c => if c = '−' ∨ c = '–' then '-' else c)
  jsTrim (collapseSpaces s4)

def isChargeClassChar (c : Char) : Bool :=
  isLetterChar c ∨ isDigitChar c ∨ c = ')' ∨ c = ']'

/-- Charge-notation normalization of `parseChemicalEquation` (app.js):
the global regex `([A-Za-z0-9)\]]+)([0-9]*)([+-])` matches exactly a
maximal run of the class followed directly by a sign (the middle digit
group always captures empty because the first group is greedy over a
superset class), and `$1^$2$3` inserts a caret before the sign. -/
def chargeNormalizeGo (fuel : Nat) (s : List Char) : List Char :=
  match fuel with
  | 0 => s
  | fuel + 1 =>
    match s with
    | [] => []
    | c :: cs =>
      if isChargeClassChar c then
        let run := c :: cs.takeWhile isChargeClassChar
        let rest := cs.drop (cs.takeWhile isChargeClassChar).length
        match rest with
        | '+' :: r2 => run ++ '^' :: '+' :: chargeNormalizeGo fuel r2
        | '-' :: r2 => run ++ '^' :: '-' :: chargeNormalizeGo fuel r2
        | _ => run ++ chargeNormalizeGo fuel rest
      else
        c :: chargeNormalizeGo fuel cs

def chargeNormalize (s : List Char) : List Char :=
  chargeNormalizeGo (s.length + 1) s

/-- Try the arrow alternation `→ | => | -> | =` after optional whitespace,
in the regex's alternation order; returns the remainder after the
arrow. -/
def trySep (rest : List Char) : Option (List Char) :=
  match rest.dropWhile jsIsSpace with
  | '→' :: r => some r
  | '=' :: '>' :: r => some r
  | '-' :: '>' :: r => some r
  | '=' :: r => some r
  | _ => none

/-- Lazy-prefix arrow split of `parseChemicalEquation` (app.js): the
regex `^(.*?)\s*(?:→|=>|->|=)\s*(.*)$` splits at the FIRST position where
optional whitespace is followed by an arrow token. -/
def arrowSplitGo : Nat → List Char → List Char → Option (List Char × List Char)
  | 0, _, _ => none
  | fuel + 1, left, rest =>
    match trySep rest with
    | some r => some (left.reverse, r.dropWhile jsIsSpace)
    | none =>
      match rest with
      | [] => none
      | c :: cs => arrowSplitGo fuel (c :: left) cs

def arrowSplit (s : List Char) : Option (List Char × List Char) :=
  arrowSplitGo (s.length + 1) [] s

/-- A parsed species (the object literal produced by
`parseChemicalFormula` and decorated by `parseSpeciesWithLeadingCoeff`).
The composition is the JS object as an insertion-ordered association
list (element names are non-numeric keys, so JS preserves insertion
order). -/
structure Species where
  formula : List Char
  composition : List (List Char × Int)
  charge : Int
  phase : Option (List Char)
  coefficient : Int
  userInputCoefficient : Int
deriving DecidableEq, Repr

/-- Upsert into a JS object: add to an existing key in place, else append
(`elements[element] = (elements[element] || 0) + count`). -/
def addCount : List (List Char × Int) → List Char → Int → List (List Char × Int)
  | [], k, v => [(k, v)]
  | (k2, v2) :: t, k, v =>
    if k2 = k then (k2, v2 + v) :: t else (k2, v2) :: addCount t k v

/-- `composition[element] || 0`. -/
def compLookup (comp : List (List Char × Int)) (el : List Char) : Int :=
  match comp.find? (fun kv => kv.1 = el) with
  | some kv => kv.2
  | none => 0

/-- `parseNumber()` of `parseSingleCompoundCore`: a digit run or null. -/
def parseNumberOpt (l : List Char) : Option Int × List Char :=
  let ds := l.takeWhile isDigitChar
  if ds.isEmpty then (none, l) else (some (digitsToNat ds : Int), l.drop ds.length)

/-- `parseNumber() || 1`: both `null` and `0` fall back to 1. -/
def numOr1 (n : Option Int) : Int :=
  match n with
  | none => 1
  | some k => if k = 0 then 1 else k

/-- `parseElement()`: an uppercase letter plus the following lowercase
run. -/
def parseElementRun (c : Char) (cs : List Char) : List Char × List Char :=
  let low := cs.takeWhile isLowerChar
  (c :: low, cs.drop low.length)

/-- `parseGroup()` of `parseSingleCompoundCore` (app.js).  The charge
accumulator is shared across all nesting levels (a mismatched group's
elements are discarded but its charge contributions stick), and the input
position is never rewound.  Returns the group's elements, the updated
shared charge, and the unconsumed remainder (starting at the closing
bracket that caused the break, if any).  Fuel `2n+2`: at most `n` calls
consume a character and at most `n` are post-group continuations. -/
def parseGroupGo (fuel : Nat) (rest : List Char)
    (elements : List (List Char × Int)) (charge : Int) :
    List (List Char × Int) × Int × List Char :=
  match fuel with
  | 0 => (elements, charge, rest)
  | fuel + 1 =>
    match rest with
    | [] => (elements, charge, rest)
    | c :: cs =>
      if c = '(' ∨ c = '[' then
        let res := parseGroupGo fuel cs [] charge
        let groupElems := res.1
        let charge2 := res.2.1
        let rest2 := res.2.2
        if (c = '(' ∧ rest2.head? = some ')') ∨ (c = '[' ∧ rest2.head? = some ']') then
          let rest3 := rest2.tail
          let nm := parseNumberOpt rest3
          let m := numOr1 nm.1
          let elements2 := groupElems.foldl
            (fun acc kv => addCount acc kv.1 (kv.2 * m)) elements
          parseGroupGo fuel nm.2 elements2 charge2
        else
          parseGroupGo fuel rest2 elements charge2
      else if c = ')' ∨ c = ']' then
        (elements, charge, rest)
      else if isUpperChar c then
        let er := parseElementRun c cs
        let nm := parseNumberOpt er.2
        parseGroupGo fuel nm.2 (addCount elements er.1 (numOr1 nm.1)) charge
      else if c = '+' ∨ c = '-' then
        let sign : Int := if c = '+' then 1 else -1
        let nm := parseNumberOpt cs
        parseGroupGo fuel nm.2 elements (charge + sign * numOr1 nm.1)
      else
        parseGroupGo fuel cs elements charge

/-- `parseSingleCompoundCore` (app.js): composition and charge of one
segment; leftover input after a top-level closing bracket is dropped. -/
def parseSingleCompoundCore (compound : List Char) :
    List (List Char × Int) × Int :=
  let res := parseGroupGo (2 * compound.length + 2) compound [] 0
  (res.1, res.2.1)

def isSignChar (c : Char) : Bool := c = '+' ∨ c = '-'

/-- Anchored token alternatives of the `extractCharge` regex:
`\d+[+-] | [+-]\d+ | [+-]{1,2} | \d*[+-]`. -/
def chargeTokenOk (t : List Char) : Bool :=
  (match t.reverse with
   | s :: ds => isSignChar s && ds.all isDigitChar
   | [] => false) ||
  (match t with
   | s :: ds => isSignChar s && (! ds.isEmpty) && ds.all isDigitChar
   | [] => false) ||
  ((t.length == 1 || t.length == 2) && t.all isSignChar)

/-- The sign/magnitude classification chain of `extractCharge`
(app.js). -/
def chargeOfToken (t : List Char) : Option Int :=
  let signVal : Char → Int := fun c => if c = '+' then 1 else -1
  match t.reverse with
  | s :: ds =>
    if isSignChar s && (! ds.isEmpty) && ds.all isDigitChar then
      -- /^\d+[+-]$/
      some (signVal s * (digitsToNat ds.reverse : Int))
    else if (match t with
             | s2 :: ds2 => isSignChar s2 && (! ds2.isEmpty) && ds2.all isDigitChar
             | [] => false) then
      -- /^[+-]\d+$/
      match t with
      | s2 :: ds2 => some (signVal s2 * (digitsToNat ds2 : Int))
      | [] => none
    else if (t.length == 1 || t.length == 2) && t.all isSignChar then
      -- /^[+-]{1,2}$/ : magnitude is the token length
      match t with
      | s2 :: _ => some (signVal s2 * (t.length : Int))
      | [] => none
    else if isSignChar s && ds.all isDigitChar then
      -- /^\d*[+-]$/ fallback (digits optional)
      some (signVal s * (if ds.isEmpty then 1 else (digitsToNat ds.reverse : Int)))
    else none
  | [] => none

/-- Lazy-prefix search of the `extractCharge` regex: the smallest prefix
whose remainder (after an optional caret) is exactly one charge token. -/
def extractChargeSplitGo (fuel : Nat) (pre rest : List Char) :
    Option (List Char × List Char) :=
  match fuel with
  | 0 => none
  | fuel + 1 =>
    match rest with
    | '^' :: r2 =>
      if chargeTokenOk r2 then some (pre.reverse, r2)
      else if chargeTokenOk rest then some (pre.reverse, rest)
      else match rest with
        | [] => none
        | c :: cs => extractChargeSplitGo fuel (c :: pre) cs
    | _ =>
      if chargeTokenOk rest then some (pre.reverse, rest)
      else match rest with
        | [] => none
        | c :: cs => extractChargeSplitGo fuel (c :: pre) cs

/-- `extractCharge` (app.js): quick-reject unless the input ends in a
sign, then take the minimal core/token split, require a letter or `]` in
the core, and classify the token. -/
def extractCharge (input : List Char) : List Char × Int :=
  match input.getLast? with
  | some c =>
    if isSignChar c then
      match extractChargeSplitGo (input.length + 1) [] input with
      | none => (input, 0)
      | some (candidateCore, token) =>
        if ¬ candidateCore.any (fun c2 => isLetterChar c2 ∨ c2 = ']') then (input, 0)
        else if ¬ token.any isSignChar then (input, 0)
        else match chargeOfToken token with
          | none => (input, 0)
          | some ch => (jsTrim candidateCore, ch)
    else (input, 0)
  | none => (input, 0)

/-- Shared backtracking cascade for `^(\d*)\s*(rest…)$` style prefixes
(the `coeffMatch` of `parseSpeciesWithLeadingCoeff` and the head of the
`parseChemicalFormula` regex): greedy digits, then greedy whitespace, and
the tail group must keep at least one character. -/
def splitLeadingDigitsSpaces (s : List Char) : Option (List Char × List Char) :=
  let d := s.takeWhile isDigitChar
  let after := s.drop d.length
  let sp := after.takeWhile jsIsSpace
  let r := after.drop sp.length
  if ¬ r.isEmpty then some (d, r)
  else if ¬ sp.isEmpty then some (d, [sp.getLastD ' '])
  else if ¬ d.isEmpty then some (d.dropLast, [d.getLastD '0'])
  else none

def isPhaseChar (c : Char) : Bool :=
  c = 's' ∨ c = 'l' ∨ c = 'g' ∨ c = 'a' ∨ c = 'q'

/-- Recognize an entire remainder of the form `\([slgaq]+\)`. -/
def isPhaseForm (l : List Char) : Option (List Char) :=
  match l with
  | '(' :: t =>
    let p := t.takeWhile isPhaseChar
    if ¬ p.isEmpty ∧ t.drop p.length = [')'] then some p else none
  | _ => none

/-- Lazy core of `parseChemicalFormula`: the shortest nonempty core whose
remainder is empty or exactly a phase group. -/
def corePhaseGo (fuel : Nat) (pre rest : List Char) :
    List Char × Option (List Char) :=
  match fuel with
  | 0 => (pre.reverse, none)
  | fuel + 1 =>
    match rest with
    | [] => (pre.reverse, none)
    | c :: cs =>
      match isPhaseForm rest with
      | some p => (pre.reverse, some p)
      | none => corePhaseGo fuel (c :: pre) cs

def corePhaseSplit (r : List Char) : Option (List Char × Option (List Char)) :=
  match r with
  | [] => none
  | c :: cs => some (corePhaseGo (cs.length + 1) [c] cs)

/-- `parseChemicalFormula` (app.js): leading digits and whitespace, lazy
core, optional phase suffix, hydrate parts split on `.`, each part with
an optional leading multiplier (note `partMatch[1] ? parseInt(...) : 1`
maps the digit string `"0"` to the multiplier 0). -/
def parseChemicalFormula (formula : List Char) : Option Species :=
  match splitLeadingDigitsSpaces formula with
  | none => none
  | some (digits, r) =>
    match corePhaseSplit r with
    | none => none
    | some (compoundRaw, phase) =>
      let coefficient : Int := if digits.isEmpty then 1 else (digitsToNat digits : Int)
      let hydrateParts := compoundRaw.splitOn '.'
      let acc := hydrateParts.foldl
        (fun (acc : List (List Char × Int) × Int) part =>
          if part.isEmpty then acc
          else
            let pd := part.takeWhile isDigitChar
            let partMultiplier : Int :=
              if pd.isEmpty then 1 else (digitsToNat pd : Int)
            let partFormula := part.drop pd.length
            let seg := parseSingleCompoundCore partFormula
            (seg.1.foldl (fun a kv => addCount a kv.1 (kv.2 * partMultiplier)) acc.1,
             acc.2 + seg.2 * partMultiplier))
        ([], 0)
      some { formula := compoundRaw, composition := acc.1, charge := acc.2,
             phase := phase, coefficient := coefficient, userInputCoefficient := 1 }

/-- `parseSpeciesWithLeadingCoeff` (app.js): strip a leading count into
`userInputCoefficient`, extract the trailing charge (overwriting the
charge computed inside the formula core), and parse the rest. -/
def parseSpeciesWithLeadingCoeff (speciesString : List Char) : Option Species :=
  let trimmed := normalizeChemInput (jsTrim speciesString)
  match splitLeadingDigitsSpaces trimmed with
  | none => none
  | some (digits, formulaPart) =>
    let userCoeff : Int := if digits.isEmpty then 1 else (digitsToNat digits : Int)
    let ec := extractCharge formulaPart
    match parseChemicalFormula ec.1 with
    | none => none
    | some parsed =>
      some { parsed with charge := ec.2, userInputCoefficient := userCoeff }

/-- Detect a `\s+\+\s+` separator at the head of the input; returns the
remainder after the separator. -/
def plusSepAt (rest : List Char) : Option (List Char) :=
  let sp1 := rest.takeWhile jsIsSpace
  if sp1.isEmpty then none
  else
    match rest.drop sp1.length with
    | '+' :: r2 =>
      let sp2 := r2.takeWhile jsIsSpace
      if sp2.isEmpty then none else some (r2.drop sp2.length)
    | _ => none

/-- `sideString.split(/\s+\+\s+/)`. -/
def splitPlusSepGo (fuel : Nat) (cur rest : List Char)
    (acc : List (List Char)) : List (List Char) :=
  match fuel with
  | 0 => acc ++ [cur.reverse]
  | fuel + 1 =>
    match plusSepAt rest with
    | some r2 => splitPlusSepGo fuel [] r2 (acc ++ [cur.reverse])
    | none =>
      match rest with
      | [] => acc ++ [cur.reverse]
      | c :: cs => splitPlusSepGo fuel (c :: cur) cs acc

def splitPlusSep (s : List Char) : List (List Char) :=
  splitPlusSepGo (s.length + 1) [] s []

def plusMarker : List Char := ['§', 'P', 'L', 'U', 'S', '§']

/-- The protective replacement
`([A-Za-z0-9)\]])\+([^-0-9(]|$)` → `$1§PLUS§$2` of `parseEquationSide`:
the character after the plus (when present) is consumed by the match. -/
def protectPlusGo (fuel : Nat) (rest : List Char) : List Char :=
  match fuel with
  | 0 => rest
  | fuel + 1 =>
    match rest with
    | [] => []
    | b :: '+' :: r2 =>
      if isChargeClassChar b then
        match r2 with
        | [] => b :: plusMarker
        | n2 :: r3 =>
          if n2 = '-' ∨ isDigitChar n2 ∨ n2 = '(' then
            b :: '+' :: protectPlusGo fuel r2
          else b :: (plusMarker ++ n2 :: protectPlusGo fuel r3)
      else b :: protectPlusGo fuel ('+' :: r2)
    | c :: cs => c :: protectPlusGo fuel cs

def protectPlus (s : List Char) : List Char := protectPlusGo (s.length + 1) s

/-- Split on every `+` (`split(/\+/)`). -/
def splitAllPlusGo (fuel : Nat) (cur rest : List Char)
    (acc : List (List Char)) : List (List Char) :=
  match fuel with
  | 0 => acc ++ [cur.reverse]
  | fuel + 1 =>
    match rest with
    | [] => acc ++ [cur.reverse]
    | '+' :: cs => splitAllPlusGo fuel [] cs (acc ++ [cur.reverse])
    | c :: cs => splitAllPlusGo fuel (c :: cur) cs acc

def splitAllPlus (s : List Char) : List (List Char) :=
  splitAllPlusGo (s.length + 1) [] s []

/-- Restore `§PLUS§` markers to `+`. -/
def restoreMarkerGo (fuel : Nat) (rest : List Char) : List Char :=
  match fuel with
  | 0 => rest
  | fuel + 1 =>
    match rest with
    | [] => []
    | '§' :: 'P' :: 'L' :: 'U' :: 'S' :: '§' :: r2 => '+' :: restoreMarkerGo fuel r2
    | c :: cs => c :: restoreMarkerGo fuel cs

def restoreMarker (s : List Char) : List Char := restoreMarkerGo (s.length + 1) s

/-- `parseEquationSide` (app.js): split on spaced plus separators; if that
yields a single token but the side contains a plus, protect charge
pluses and split on every remaining plus. -/
def parseEquationSide (sideString : List Char) : List Species :=
  let tokens := splitPlusSep sideString
  let tokens2 :=
    if tokens.length = 1 ∧ sideString.any (fun c => c = '+') then
      (splitAllPlus (protectPlus sideString)).map restoreMarker
    else tokens
  tokens2.filterMap (fun t => parseSpeciesWithLeadingCoeff (jsTrim t))

/-- Decimal rendering of an integer (JS template `${charge}`). -/
def intToChars (i : Int) : List Char :=
  if i < 0 then '-' :: Nat.toDigits 10 i.natAbs else Nat.toDigits 10 i.toNat

/-- Merge key `${formula}_${charge || 0}_${phase || ''}` of
`mergeDuplicates` (app.js). -/
def speciesKey (s : Species) : List Char :=
  s.formula ++ '_' :: (intToChars s.charge ++ '_' :: s.phase.getD [])

/-- One step of `mergeDuplicates`: add the coefficient to the first entry
with the same key (keys in the merged list are unique by construction, so
first-match update models the `Map` entry), else append. -/
def mergeUpsert : List Species → Species → List Species
  | [], c => [c]
  | m :: t, c =>
    if speciesKey m = speciesKey c then
      { m with coefficient := m.coefficient + c.coefficient } :: t
    else m :: mergeUpsert t c

/-- `mergeDuplicates` (app.js). -/
def mergeDuplicates (species : List Species) : List Species :=
  (species.foldl mergeUpsert []).filter (fun c => 0 < c.coefficient)

/-- State of the spectator-cancel loop: slot arrays (`null` = removed)
and the canceled-spectator records. -/
structure CancelState where
  rs : List (Option Species)
  ps : List (Option Species)
  canceled : List (List Char × Int × Option (List Char))
deriving DecidableEq, Repr

/-- One (i, j) iteration of the cancel loop in
`cancelSpectatorsAndMergeDuplicates` (app.js).  The source reads the
reactant object once per outer iteration; re-reading the slot here is
equivalent because a nulled slot's stale object has coefficient 0, which
fails the `minCoeff > 0` guard. -/
def cancelPair (st : CancelState) (i j : Nat) : CancelState :=
  match st.rs.getD i none, st.ps.getD j none with
  | some r, some p =>
    if r.formula = p.formula ∧ r.charge = p.charge ∧ r.phase = p.phase then
      let m := min r.coefficient p.coefficient
      if 0 < m then
        let r2 : Species := { r with coefficient := r.coefficient - m }
        let p2 : Species := { p with coefficient := p.coefficient - m }
        { rs := st.rs.set i (if r2.coefficient = 0 then none else some r2),
          ps := st.ps.set j (if p2.coefficient = 0 then none else some p2),
          canceled := st.canceled ++ [(r.formula, m, r.phase)] }
      else st
    else st
  | _, _ => st

/-- `cancelSpectatorsAndMergeDuplicates` (app.js): merge each side, then
cancel `min` coefficients over every reactant/product pair, dropping
entries that reach zero. -/
def cancelSpectatorsAndMergeDuplicates (reactants products : List Species) :
    List Species × List Species × List (List Char × Int × Option (List Char)) :=
  let mr := mergeDuplicates reactants
  let mp := mergeDuplicates products
  let st0 : CancelState := { rs := mr.map some, ps := mp.map some, canceled := [] }
  let stF := (List.range mr.length).foldl
    (fun st i => (List.range mp.length).foldl (fun st2 j => cancelPair st2 i j) st)
    st0
  ((stF.rs.filterMap id).filter (fun r => 0 < r.coefficient),
   (stF.ps.filterMap id).filter (fun p => 0 < p.coefficient),
   stF.canceled)

/-- `parseChemicalEquation` (app.js): normalize, insert charge carets,
split at the first arrow, reject an empty side, parse both sides, merge
and cancel. -/
def parseChemicalEquation (equation : List Char) :
    Option (List Species × List Species ×
      List (List Char × Int × Option (List Char))) :=
  let eq1 := chargeNormalize (normalizeChemInput equation)
  match arrowSplit eq1 with
  | none => none
  | some (left, right) =>
    if left.isEmpty ∨ right.isEmpty then none
    else
      let reactants := parseEquationSide left
      let products := parseEquationSide right
      some (cancelSpectatorsAndMergeDuplicates reactants products)

/-- `validateEquationForMode` (app.js): standard mode rejects any charged
species; every other mode passes. -/
def validateEquationForMode (reactants products : List Species)
    (mode : String) : Bool :=
  if mode = "standard" then (reactants ++ products).all (fun s => s.charge == 0)
  else true

/-- Insertion-ordered element collection of `buildBalanceMatrix`
(`Set` iteration order). -/
def collectElements (all : List Species) : List (List Char) :=
  all.foldl
    (fun acc c => c.composition.foldl
      (fun acc2 kv => if acc2.any (fun e => e = kv.1) then acc2 else acc2 ++ [kv.1])
      acc)
    []

/-- `buildBalanceMatrix` (app.js): one row per element (reactants negated,
products positive) and a charge row when requested or when any species is
charged; `none` models the throw on a species with an empty
composition. -/
def buildBalanceMatrix (reactants products : List Species)
    (includeCharge : Bool) : Option (Mat × List (List Char)) :=
  let all := reactants ++ products
  if all.any (fun c => c.composition.isEmpty) then none
  else
    let elementList := collectElements all
    let hasCharge := all.any (fun c => c.charge ≠ 0)
    let elementRows := elementList.map (fun el =>
      reactants.map (fun c => mkFrac (-(compLookup c.composition el)) 1) ++
      products.map (fun c => mkFrac (compLookup c.composition el) 1))
    let matrix :=
      if includeCharge ∨ hasCharge then
        elementRows ++ [reactants.map (fun c => mkFrac (-c.charge) 1) ++
          products.map (fun c => mkFrac c.charge 1)]
      else elementRows
    some (matrix, elementList)

/-- Case-insensitive search for `no\s+reaction`. -/
def hasNoReactionGo (fuel : Nat) (rest : List Char) : Bool :=
  match fuel with
  | 0 => false
  | fuel + 1 =>
    match rest with
    | [] => false
    | c :: cs =>
      (if c.toLower = 'n' then
        match cs with
        | c2 :: cs2 =>
          if c2.toLower = 'o' then
            let sp := cs2.takeWhile jsIsSpace
            if sp.isEmpty then false
            else
              let r := cs2.drop sp.length
              (r.take 8).map Char.toLower = ['r', 'e', 'a', 'c', 't', 'i', 'o', 'n']
          else false
        | [] => false
       else false) ||
      hasNoReactionGo fuel cs

def hasNoReaction (s : List Char) : Bool := hasNoReactionGo (s.length + 1) s

/-- The success payload of `balanceChemicalEquation`. -/
structure BalanceSuccess where
  coefficients : List Int
  reactants : List Species
  products : List Species
deriving DecidableEq, Repr

/-- `balanceChemicalEquation` (app.js).  Every failure return and every
caught throw is `none`.  The oxidation-state engine only decorates the
result (`redoxAnalysis`/`isRedox`) inside its own try/catch and never
affects the coefficients, so it is not modelled. -/
def balanceChemicalEquation (equation : String) (mode : String) :
    Option BalanceSuccess :=
  if hasNoReaction equation.toList then none
  else
    match parseChemicalEquation equation.toList with
    | none => none
    | some (reactants, products, _) =>
      if ¬ validateEquationForMode reactants products mode then none
      else
        let useChargeBalance := mode = "redox"
        match buildBalanceMatrix reactants products useChargeBalance with
        | none => none
        | some (matrix, _) =>
          match computeNullspace matrix with
          | none => none
          | some nullspace =>
            match findBestIntegerSolution nullspace reactants.length with
            | none => none
            | some coefficients =>
              some { coefficients := coefficients,
                     reactants := reactants, products := products }

namespace ChemicalLexer

/-- Tokens of the chemical formula lexer (chem/lexer.js), with source
positions. -/
inductive Token where
  | element : List Char → Nat → Token
  | number : Int → Nat → Token
  | lparen : Nat → Token
  | rparen : Nat → Token
  | lbracket : Nat → Token
  | rbracket : Nat → Token
  | charge : Int → Nat → Token
  | dot : Char → Nat → Token
  | phase : List Char → Nat → Token
  | eof : Nat → Token
deriving DecidableEq, Repr

def charAt (s : List Char) (pos : Nat) : Option Char := s.getD pos ' ' |> fun c =>
  if pos < s.length then some c else none

def skipWs (s : List Char) (pos : Nat) : Nat :=
  pos + ((s.drop pos).takeWhile jsIsSpace).length

/-- `readNumber`. -/
def readNumber (s : List Char) (pos : Nat) : Token × Nat :=
  let ds := (s.drop pos).takeWhile isDigitChar
  (.number (digitsToNat ds : Int) pos, pos + ds.length)

/-- `readElement`: an uppercase letter, an optional lowercase letter, and
a third lowercase letter only for the six `Uu*` placeholder symbols. -/
def readElement (s : List Char) (pos : Nat) : Token × Nat :=
  match charAt s pos with
  | some c =>
    if isUpperChar c then
      match charAt s (pos + 1) with
      | some c2 =>
        if isLowerChar c2 then
          match charAt s (pos + 2) with
          | some c3 =>
            if isLowerChar c3 ∧
                ([c, c2, c3] = ['U', 'u', 't'] ∨ [c, c2, c3] = ['U', 'u', 'q'] ∨
                 [c, c2, c3] = ['U', 'u', 'p'] ∨ [c, c2, c3] = ['U', 'u', 'h'] ∨
                 [c, c2, c3] = ['U', 'u', 's'] ∨ [c, c2, c3] = ['U', 'u', 'o']) then
              (.element [c, c2, c3] pos, pos + 3)
            else (.element [c, c2] pos, pos + 2)
          | none => (.element [c, c2] pos, pos + 2)
        else (.element [c] pos, pos + 1)
      | none => (.element [c] pos, pos + 1)
    else (.element [] pos, pos)
  | none => (.element [] pos, pos)

/-- `readCharge`: optional caret, optional digits, a mandatory sign (else
`null` is returned with the position already advanced — no rewind),
optional digits after the sign when none came before. -/
def readCharge (s : List Char) (pos : Nat) : Option Token × Nat :=
  let start := pos
  let p1 := if charAt s pos = some '^' then pos + 1 else pos
  let ds := (s.drop p1).takeWhile isDigitChar
  let p2 := p1 + ds.length
  match charAt s p2 with
  | some c =>
    if c = '+' ∨ c = '-' then
      let p3 := p2 + 1
      let ds2 :=
        if ds.isEmpty then (s.drop p3).takeWhile isDigitChar else []
      let p4 := p3 + ds2.length
      let mag : Int :=
        if ds.isEmpty then (if ds2.isEmpty then 1 else (digitsToNat ds2 : Int))
        else (digitsToNat ds : Int)
      (some (.charge (if c = '+' then mag else -mag) start), p4)
    else (none, p2)
  | none => (none, p2)

/-- `readPhase`: consumes `(content)` and validates the lowercased
content against the four phase labels; on failure it returns `null`
WITHOUT restoring the position. -/
def readPhase (s : List Char) (pos : Nat) : Option Token × Nat :=
  if charAt s pos = some '(' ∧ pos + 1 < s.length then
    let p1 := pos + 1
    let content := (s.drop p1).takeWhile (fun c => c ≠ ')')
    let p2 := p1 + content.length
    if charAt s p2 = some ')' then
      let p3 := p2 + 1
      let low := content.map Char.toLower
      if low = ['s'] ∨ low = ['l'] ∨ low = ['g'] ∨ low = ['a', 'q'] then
        (some (.phase low pos), p3)
      else (none, p3)
    else (none, p2)
  else (none, pos)

/-- `nextToken` (chem/lexer.js).  After a failed `readPhase` the source
advances one further character and returns LPAREN, leaving the position
past the whole consumed group; after a failed `readCharge` the stale
`char` (`^`) matches no later branch, so the source advances and
recurses.  The hydrate-dot branch compares `char` against the two-code-
point mojibake literal `'Â·'`, which a one-character string never equals,
so only `'.'` produces a DOT token. -/
def nextToken (fuel : Nat) (s : List Char) (pos0 : Nat) : Token × Nat :=
  match fuel with
  | 0 => (.eof pos0, pos0)
  | fuel + 1 =>
    let pos := skipWs s pos0
    if s.length ≤ pos then (.eof pos, pos)
    else
      match charAt s pos with
      | none => (.eof pos, pos)
      | some c =>
        if isDigitChar c then readNumber s pos
        else if isUpperChar c then readElement s pos
        else if c = '+' ∨ c = '-' ∨ c = '^' then
          match readCharge s pos with
          | (some t, p2) => (t, p2)
          | (none, p2) => nextToken fuel s (p2 + 1)
        else if c = '(' then
          match readPhase s pos with
          | (some t, p2) => (t, p2)
          | (none, p2) => (.lparen pos, p2 + 1)
        else if c = ')' then (.rparen pos, pos + 1)
        else if c = '[' then (.lbracket pos, pos + 1)
        else if c = ']' then (.rbracket pos, pos + 1)
        else if c = '.' then (.dot c pos, pos + 1)
        else nextToken fuel s (pos + 1)

def isEof : Token → Bool
  | .eof _ => true
  | _ => false

def tokenizeGo (fuel : Nat) (s : List Char) (pos : Nat)
    (acc : List Token) : List Token :=
  match fuel with
  | 0 => acc
  | fuel + 1 =>
    let tp := nextToken (s.length + 1) s pos
    let acc2 := acc ++ [tp.1]
    if isEof tp.1 then acc2 else tokenizeGo fuel s tp.2 acc2

/-- `ChemicalLexer.tokenize` (the constructor trims the formula). -/
def tokenize (formula : List Char) : List Token :=
  tokenizeGo (formula.length + 2) (jsTrim formula) 0 []

end ChemicalLexer

/-- The matching test of the cancel loop. -/
def sameTriple (r p : Species) : Prop :=
  r.formula = p.formula ∧ r.charge = p.charge ∧ r.phase = p.phase

instance (r p : Species) : Decidable (sameTriple r p) := by
  unfold sameTriple
  infer_instance

/-- A `some` slot is in range. -/
theorem getD_some_lt {α : Type} {l : List (Option α)} {k : Nat} {x : α}
    (h : l.getD k none = some x) : k < l.length := by
  by_contra hk
  rw [List.getD_eq_default _ _ (by omega)] at h
  cases h

/-- Position (i, j) is safe in a state: the two slots do not hold a
matching pair that is positive on both sides. -/
def PairSafe (st : CancelState) (i j : Nat) : Prop :=
  ∀ r p, st.rs.getD i none = some r → st.ps.getD j none = some p →
    sameTriple r p → ¬(0 < r.coefficient ∧ 0 < p.coefficient)

/-- How one cancel step can change a reactant slot: unchanged, or a
positive entry shrinks (keeping formula, charge and phase) or dies. -/
theorem cancelPair_rs_getD (st : CancelState) (i' j' k : Nat) :
    (cancelPair st i' j').rs.getD k none = st.rs.getD k none ∨
    ∃ r : Species, st.rs.getD k none = some r ∧ 0 < r.coefficient ∧
      ((cancelPair st i' j').rs.getD k none = none ∨
       ∃ c : Int, c < r.coefficient ∧
         (cancelPair st i' j').rs.getD k none =
           some { r with coefficient := c }) := by
  rw [cancelPair]
  cases hr : st.rs.getD i' none with
  | none => exact Or.inl rfl
  | some r =>
    cases hp : st.ps.getD j' none with
    | none => exact Or.inl rfl
    | some p =>
      simp only []
      by_cases htrip : r.formula = p.formula ∧ r.charge = p.charge ∧ r.phase = p.phase
      · rw [if_pos htrip]
        by_cases hm : 0 < min r.coefficient p.coefficient
        · rw [if_pos hm]
          simp only []
          by_cases hk : k = i'
          · subst hk
            right
            refine ⟨r, hr, by omega, ?_⟩
            rw [getD_set_eq _ _ _ _ (getD_some_lt hr)]
            by_cases hz : r.coefficient - min r.coefficient p.coefficient = 0
            · rw [if_pos hz]
              exact Or.inl rfl
            · rw [if_neg hz]
              exact Or.inr ⟨r.coefficient - min r.coefficient p.coefficient,
                by omega, rfl⟩
          · left
            exact getD_set_ne _ _ _ (fun he => hk he.symm)
        · rw [if_neg hm]
          exact Or.inl rfl
      · rw [if_neg htrip]
        exact Or.inl rfl

/-- Product-slot version of `cancelPair_rs_getD`. -/
theorem cancelPair_ps_getD (st : CancelState) (i' j' k : Nat) :
    (cancelPair st i' j').ps.getD k none = st.ps.getD k none ∨
    ∃ p : Species, st.ps.getD k none = some p ∧ 0 < p.coefficient ∧
      ((cancelPair st i' j').ps.getD k none = none ∨
       ∃ c : Int, c < p.coefficient ∧
         (cancelPair st i' j').ps.getD k none =
           some { p with coefficient := c }) := by
  rw [cancelPair]
  cases hr : st.rs.getD i' none with
  | none => exact Or.inl rfl
  | some r =>
    cases hp : st.ps.getD j' none with
    | none => exact Or.inl rfl
    | some p =>
      simp only []
      by_cases htrip : r.formula = p.formula ∧ r.charge = p.charge ∧ r.phase = p.phase
      · rw [if_pos htrip]
        by_cases hm : 0 < min r.coefficient p.coefficient
        · rw [if_pos hm]
          simp only []
          by_cases hk : k = j'
          · subst hk
            right
            refine ⟨p, hp, by omega, ?_⟩
            rw [getD_set_eq _ _ _ _ (getD_some_lt hp)]
            by_cases hz : p.coefficient - min r.coefficient p.coefficient = 0
            · rw [if_pos hz]
              exact Or.inl rfl
            · rw [if_neg hz]
              exact Or.inr ⟨p.coefficient - min r.coefficient p.coefficient,
                by omega, rfl⟩
          · left
            exact getD_set_ne _ _ _ (fun he => hk he.symm)
        · rw [if_neg hm]
          exact Or.inl rfl
      · rw [if_neg htrip]
        exact Or.inl rfl

/-- Safety of a position survives any further cancel step. -/
theorem cancelPair_preserves {st : CancelState} {i j : Nat}
    (h : PairSafe st i j) (i' j' : Nat) :
    PairSafe (cancelPair st i' j') i j := by
  intro r' p' hr' hp' htrip ⟨hrpos, hppos⟩
  have hrs := cancelPair_rs_getD st i' j' i
  have hps := cancelPair_ps_getD st i' j' j
  obtain ⟨r, hrold, hrtrip, hrc⟩ : ∃ r, st.rs.getD i none = some r ∧
      sameTriple r p' ∧ 0 < r.coefficient := by
    rcases hrs with he | ⟨r, hold, hpos, hrest⟩
    · exact ⟨r', he ▸ hr', htrip, hrpos⟩
    · rcases hrest with hnone | ⟨c, _, hsome⟩
      · rw [hr'] at hnone
        cases hnone
      · rw [hr'] at hsome
        injection hsome with he2
        refine ⟨r, hold, ?_, hpos⟩
        have hf : r.formula = r'.formula := by rw [he2]
        have hc : r.charge = r'.charge := by rw [he2]
        have hph : r.phase = r'.phase := by rw [he2]
        exact ⟨hf.trans htrip.1, hc.trans htrip.2.1, hph.trans htrip.2.2⟩
  obtain ⟨p, hpold, hptrip, hpc⟩ : ∃ p, st.ps.getD j none = some p ∧
      sameTriple r p ∧ 0 < p.coefficient := by
    rcases hps with he | ⟨p, hold, hpos, hrest⟩
    · exact ⟨p', he ▸ hp', hrtrip, hppos⟩
    · rcases hrest with hnone | ⟨c, _, hsome⟩
      · rw [hp'] at hnone
        cases hnone
      · rw [hp'] at hsome
        injection hsome with he2
        refine ⟨p, hold, ?_, hpos⟩
        have hf : p.formula = p'.formula := by rw [he2]
        have hc : p.charge = p'.charge := by rw [he2]
        have hph : p.phase = p'.phase := by rw [he2]
        exact ⟨hrtrip.1.trans hf.symm, hrtrip.2.1.trans hc.symm, hrtrip.2.2.trans hph.symm⟩
  exact h r p hrold hpold hptrip ⟨hrc, hpc⟩

/-- A cancel step makes its own position safe. -/
theorem cancelPair_self_safe (st : CancelState) (i j : Nat) :
    PairSafe (cancelPair st i j) i j := by
  intro r' p' hr' hp' htrip ⟨hrpos, hppos⟩
  rw [cancelPair] at hr' hp'
  cases hr : st.rs.getD i none with
  | none =>
    rw [hr] at hr'
    simp only [] at hr'
    rw [hr'] at hr
    cases hr
  | some r =>
    cases hp : st.ps.getD j none with
    | none =>
      rw [hr, hp] at hp'
      simp only [] at hp'
      rw [hp'] at hp
      cases hp
    | some p =>
      rw [hr, hp] at hr' hp'
      simp only [] at hr' hp'
      by_cases htrip0 : r.formula = p.formula ∧ r.charge = p.charge ∧ r.phase = p.phase
      · rw [if_pos htrip0] at hr' hp'
        by_cases hm : 0 < min r.coefficient p.coefficient
        · rw [if_pos hm] at hr' hp'
          simp only [] at hr' hp'
          rw [getD_set_eq _ _ _ _ (getD_some_lt hr)] at hr'
          rw [getD_set_eq _ _ _ _ (getD_some_lt hp)] at hp'
          by_cases hz1 : r.coefficient - min r.coefficient p.coefficient = 0
          · rw [if_pos hz1] at hr'
            cases hr'
          · rw [if_neg hz1] at hr'
            by_cases hz2 : p.coefficient - min r.coefficient p.coefficient = 0
            · rw [if_pos hz2] at hp'
              cases hp'
            · omega
        · rw [if_neg hm] at hr' hp'
          rw [hr] at hr'
          rw [hp] at hp'
          injection hr' with he1
          injection hp' with he2
          rw [he1, he2] at hm
          omega
      · rw [if_neg htrip0] at hr' hp'
        rw [hr] at hr'
        rw [hp] at hp'
        injection hr' with he1
        injection hp' with he2
        rw [he1, he2] at htrip0
        exact htrip0 ⟨htrip.1, htrip.2.1, htrip.2.2⟩

/-- Slot-array lengths never change during cancellation. -/
theorem cancelPair_lengths (st : CancelState) (i j : Nat) :
    (cancelPair st i j).rs.length = st.rs.length ∧
    (cancelPair st i j).ps.length = st.ps.length := by
  rw [cancelPair]
  cases hr : st.rs.getD i none with
  | none => exact ⟨rfl, rfl⟩
  | some r =>
    cases hp : st.ps.getD j none with
    | none => exact ⟨rfl, rfl⟩
    | some p =>
      simp only []
      by_cases htrip : r.formula = p.formula ∧ r.charge = p.charge ∧ r.phase = p.phase
      · rw [if_pos htrip]
        by_cases hm : 0 < min r.coefficient p.coefficient
        · rw [if_pos hm]
          exact ⟨List.length_set _ _ _, List.length_set _ _ _⟩
        · rw [if_neg hm]
          exact ⟨rfl, rfl⟩
      · rw [if_neg htrip]
        exact ⟨rfl, rfl⟩

/-- Safety survives an inner cancel fold. -/
theorem innerFold_preserves {st : CancelState} {i j : Nat}
    (h : PairSafe st i j) (i' : Nat) (l : List Nat) :
    PairSafe (l.foldl (fun st2 j' => cancelPair st2 i' j') st) i j := by
  induction l generalizing st with
  | nil => exact h
  | cons a t ih =>
    rw [List.foldl_cons]
    exact ih (cancelPair_preserves h i' a)

/-- After the inner loop for reactant `i`, every position `(i, j)` with
`j < n` is safe. -/
theorem innerFold_safe (i n : Nat) (st : CancelState) :
    ∀ j, j < n →
      PairSafe ((List.range n).foldl (fun st2 j' => cancelPair st2 i j') st) i j := by
  induction n with
  | zero => intro j hj; omega
  | succ n ih =>
    intro j hj
    rw [List.range_succ, List.foldl_append, List.foldl_cons, List.foldl_nil]
    rcases Nat.lt_succ_iff_lt_or_eq.mp hj with hlt | rfl
    · exact cancelPair_preserves (ih j hlt) i n
    · exact cancelPair_self_safe _ i j

/-- Safety survives an outer cancel fold. -/
theorem outerFold_preserves {st : CancelState} {i j : Nat}
    (h : PairSafe st i j) (n : Nat) (l : List Nat) :
    PairSafe (l.foldl
      (fun st2 i' => (List.range n).foldl (fun st3 j' => cancelPair st3 i' j') st2)
      st) i j := by
  induction l generalizing st with
  | nil => exact h
  | cons a t ih =>
    rw [List.foldl_cons]
    exact ih (innerFold_preserves h a (List.range n))

/-- After the full double loop, every in-range position is safe. -/
theorem outerFold_safe (m n : Nat) (st : CancelState) :
    ∀ i, i < m → ∀ j, j < n →
      PairSafe ((List.range m).foldl
        (fun st2 i' => (List.range n).foldl (fun st3 j' => cancelPair st3 i' j') st2)
        st) i j := by
  induction m with
  | zero => intro i hi; omega
  | succ m ih =>
    intro i hi j hj
    rw [List.range_succ, List.foldl_append, List.foldl_cons, List.foldl_nil]
    rcases Nat.lt_succ_iff_lt_or_eq.mp hi with hlt | rfl
    · exact innerFold_preserves (ih i hlt j hj) m (List.range n)
    · exact innerFold_safe i n _ j hj

/-- No `(formula, charge, phase)` triple survives on both sides of
`cancelSpectatorsAndMergeDuplicates`. -/
theorem cancelSpectators_no_common (reactants products : List Species) :
    ∀ r ∈ (cancelSpectatorsAndMergeDuplicates reactants products).1,
    ∀ p ∈ (cancelSpectatorsAndMergeDuplicates reactants products).2.1,
      ¬ sameTriple r p := by
  intro r hr p hp htrip
  rw [cancelSpectatorsAndMergeDuplicates] at hr hp
  simp only [] at hr hp
  set mr := mergeDuplicates reactants with hmrdef
  set mp := mergeDuplicates products with hmpdef
  set st0 : CancelState := { rs := mr.map some, ps := mp.map some, canceled := [] }
    with hst0def
  set stF := (List.range mr.length).foldl
    (fun st i => (List.range mp.length).foldl (fun st2 j => cancelPair st2 i j) st)
    st0 with hstFdef
  rw [List.mem_filter] at hr hp
  obtain ⟨hrmem, hrpos⟩ := hr
  obtain ⟨hpmem, hppos⟩ := hp
  rw [List.mem_filterMap] at hrmem hpmem
  obtain ⟨or, hormem, hor⟩ := hrmem
  obtain ⟨op, hopmem, hop⟩ := hpmem
  simp only [id] at hor hop
  subst hor
  subst hop
  obtain ⟨ir, hirlen, hir⟩ := List.mem_iff_getElem.mp hormem
  obtain ⟨jp, hjplen, hjp⟩ := List.mem_iff_getElem.mp hopmem
  have hlens : stF.rs.length = mr.length ∧ stF.ps.length = mp.length := by
    rw [hstFdef]
    have : ∀ l : List Nat, ∀ st : CancelState,
        ((l.foldl (fun st i =>
          (List.range mp.length).foldl (fun st2 j => cancelPair st2 i j) st) st).rs.length
          = st.rs.length ∧
         (l.foldl (fun st i =>
          (List.range mp.length).foldl (fun st2 j => cancelPair st2 i j) st) st).ps.length
          = st.ps.length) := by
      intro l
      induction l with
      | nil => intro st; exact ⟨rfl, rfl⟩
      | cons a t ih =>
        intro st
        rw [List.foldl_cons]
        have hinner : ∀ l2 : List Nat, ∀ st2 : CancelState,
            ((l2.foldl (fun st3 j => cancelPair st3 a j) st2).rs.length = st2.rs.length ∧
             (l2.foldl (fun st3 j => cancelPair st3 a j) st2).ps.length = st2.ps.length) := by
          intro l2
          induction l2 with
          | nil => intro st2; exact ⟨rfl, rfl⟩
          | cons b t2 ih2 =>
            intro st2
            rw [List.foldl_cons]
            obtain ⟨h1, h2⟩ := ih2 (cancelPair st2 a b)
            obtain ⟨h3, h4⟩ := cancelPair_lengths st2 a b
            exact ⟨h1.trans h3, h2.trans h4⟩
        obtain ⟨h1, h2⟩ := ih ((List.range mp.length).foldl (fun st3 j => cancelPair st3 a j) st)
        obtain ⟨h3, h4⟩ := hinner (List.range mp.length) st
        exact ⟨h1.trans h3, h2.trans h4⟩
    obtain ⟨h1, h2⟩ := this (List.range mr.length) st0
    constructor
    · rw [h1, hst0def]
      simp
    · rw [h2, hst0def]
      simp
  have hsafe := outerFold_safe mr.length mp.length st0 ir (by omega) jp (by omega)
  rw [← hstFdef] at hsafe
  refine hsafe r p ?_ ?_ htrip ⟨by simpa using hrpos, by simpa using hppos⟩
  · rw [getD_of_lt _ _ _ hirlen, hir]
  · rw [getD_of_lt _ _ _ hjplen, hjp]

/-- The default species object (used only as a `getD` fallback). -/
def dfltSpecies : Species :=
  { formula := [], composition := [], charge := 0, phase := none,
    coefficient := 1, userInputCoefficient := 1 }

/-- A collected-element fold only ever appends. -/
theorem collectStep_mono (comp : List (List Char × Int)) (acc : List (List Char))
    {e : List Char} (he : e ∈ acc) :
    e ∈ comp.foldl
      (fun acc2 kv => if acc2.any (fun e2 => e2 = kv.1) then acc2 else acc2 ++ [kv.1])
      acc := by
  induction comp generalizing acc with
  | nil => exact he
  | cons kv t ih =>
    rw [List.foldl_cons]
    by_cases hc : acc.any (fun e2 => e2 = kv.1)
    · rw [if_pos hc]
      exact ih acc he
    · rw [if_neg hc]
      exact ih _ (List.mem_append_left _ he)

/-- A collected-element fold contains every processed key. -/
theorem collectStep_complete (comp : List (List Char × Int)) (acc : List (List Char))
    {kv : List Char × Int} (hkv : kv ∈ comp) :
    kv.1 ∈ comp.foldl
      (fun acc2 kv2 => if acc2.any (fun e2 => e2 = kv2.1) then acc2 else acc2 ++ [kv2.1])
      acc := by
  induction comp generalizing acc with
  | nil => cases hkv
  | cons kv2 t ih =>
    rw [List.foldl_cons]
    rcases List.mem_cons.mp hkv with rfl | hmem
    · by_cases hc : acc.any (fun e2 => e2 = kv.1)
      · rw [if_pos hc]
        rw [List.any_eq_true] at hc
        obtain ⟨e2, he2, heq⟩ := hc
        rw [decide_eq_true_eq] at heq
        exact collectStep_mono t acc (heq ▸ he2)
      · rw [if_neg hc]
        exact collectStep_mono t _ (List.mem_append_right _ (List.mem_singleton.mpr rfl))
    · by_cases hc : acc.any (fun e2 => e2 = kv2.1)
      · rw [if_pos hc]
        exact ih acc hmem
      · rw [if_neg hc]
        exact ih _ hmem

/-- `collectElements` outer fold only ever appends. -/
theorem collectElements_mono (all : List Species) (acc : List (List Char))
    {e : List Char} (he : e ∈ acc) :
    e ∈ all.foldl
      (fun acc2 c => c.composition.foldl
        (fun acc3 kv => if acc3.any (fun e2 => e2 = kv.1) then acc3 else acc3 ++ [kv.1])
        acc2)
      acc := by
  induction all generalizing acc with
  | nil => exact he
  | cons s t ih => exact ih _ (collectStep_mono s.composition acc he)

/-- Every composition key of every species is collected. -/
theorem collectElements_complete {all : List Species} {s : Species}
    (hs : s ∈ all) {kv : List Char × Int} (hkv : kv ∈ s.composition) :
    kv.1 ∈ collectElements all := by
  rw [collectElements]
  have : ∀ (l : List Species) (acc : List (List Char)), s ∈ l →
      kv.1 ∈ l.foldl
        (fun acc2 c => c.composition.foldl
          (fun acc3 kv2 =>
            if acc3.any (fun e2 => e2 = kv2.1) then acc3 else acc3 ++ [kv2.1])
          acc2)
        acc := by
    intro l
    induction l with
    | nil => intro acc h; cases h
    | cons s2 t ih =>
      intro acc h
      rcases List.mem_cons.mp h with rfl | hmem
      · exact collectElements_mono t _ (collectStep_complete s.composition acc hkv)
      · exact ih _ hmem
  exact this all [] hs

/-- A key outside the collected elements has a zero lookup in every
species. -/
theorem compLookup_zero_of_not_collected {all : List Species} {s : Species}
    (hs : s ∈ all) {el : List Char} (hel : el ∉ collectElements all) :
    compLookup s.composition el = 0 := by
  rw [compLookup]
  cases hf : s.composition.find? (fun kv => kv.1 = el) with
  | none => rfl
  | some kv =>
    exfalso
    have hmem := List.mem_of_find?_eq_some hf
    have heq := List.find?_some hf
    rw [decide_eq_true_eq] at heq
    exact hel (heq ▸ collectElements_complete hs hmem)

/-- Structure of a successfully built balance matrix: the element list is
the collected elements, the matrix is rectangular with reduced entries,
and row `k` below the element count is the signed-count row of element
`k`. -/
theorem buildBalanceMatrix_some {r p : List Species} {ic : Bool} {matrix : Mat}
    {elements : List (List Char)}
    (hb : buildBalanceMatrix r p ic = some (matrix, elements)) :
    elements = collectElements (r ++ p) ∧
    MatRect matrix (r.length + p.length) ∧ MatReduced matrix ∧
    elements.length ≤ matrix.length ∧
    (∀ k, k < elements.length →
      matrix.getD k [] =
        r.map (fun c => mkFrac (-(compLookup c.composition (elements.getD k []))) 1) ++
        p.map (fun c => mkFrac (compLookup c.composition (elements.getD k [])) 1)) := by
  rw [buildBalanceMatrix] at hb
  by_cases hempty : (r ++ p).any (fun c => c.composition.isEmpty)
  · rw [if_pos hempty] at hb
    cases hb
  · rw [if_neg hempty] at hb
    simp only [] at hb
    injection hb with hpair
    injection hpair with hmx hel
    set elementRows := (collectElements (r ++ p)).map (fun el =>
      r.map (fun c => mkFrac (-(compLookup c.composition el)) 1) ++
      p.map (fun c => mkFrac (compLookup c.composition el) 1)) with hERdef
    have hrowlen : ∀ row ∈ elementRows, row.length = r.length + p.length := by
      intro row hrow
      rw [hERdef, List.mem_map] at hrow
      obtain ⟨el, _, rfl⟩ := hrow
      rw [List.length_append, List.length_map, List.length_map]
    have hrowred : ∀ row ∈ elementRows, ∀ x ∈ row, x.Reduced := by
      intro row hrow x hx
      rw [hERdef, List.mem_map] at hrow
      obtain ⟨el, _, rfl⟩ := hrow
      rcases List.mem_append.mp hx with hx2 | hx2 <;>
        · rw [List.mem_map] at hx2
          obtain ⟨c, _, rfl⟩ := hx2
          exact mkFrac_reduced _ _ one_ne_zero
    have hchlen : (r.map (fun c => mkFrac (-c.charge) 1) ++
        p.map (fun c => mkFrac c.charge 1)).length = r.length + p.length := by
      rw [List.length_append, List.length_map, List.length_map]
    have hchred : ∀ x ∈ r.map (fun c => mkFrac (-c.charge) 1) ++
        p.map (fun c => mkFrac c.charge 1), x.Reduced := by
      intro x hx
      rcases List.mem_append.mp hx with hx2 | hx2 <;>
        · rw [List.mem_map] at hx2
          obtain ⟨c, _, rfl⟩ := hx2
          exact mkFrac_reduced _ _ one_ne_zero
    refine ⟨hel.symm, ?_, ?_, ?_, ?_⟩
    · intro row hrow
      rw [← hmx] at hrow
      by_cases hc : ic = true ∨ (r ++ p).any (fun c => decide (c.charge ≠ 0))
      · rw [if_pos hc] at hrow
        rcases List.mem_append.mp hrow with h1 | h1
        · exact hrowlen row h1
        · rw [List.mem_singleton] at h1
          rw [h1]
          exact hchlen
      · rw [if_neg hc] at hrow
        exact hrowlen row hrow
    · intro row hrow
      rw [← hmx] at hrow
      by_cases hc : ic = true ∨ (r ++ p).any (fun c => decide (c.charge ≠ 0))
      · rw [if_pos hc] at hrow
        rcases List.mem_append.mp hrow with h1 | h1
        · exact hrowred row h1
        · rw [List.mem_singleton] at h1
          rw [h1]
          exact hchred
      · rw [if_neg hc] at hrow
        exact hrowred row hrow
    · have hlenER : elementRows.length = elements.length := by
        rw [hERdef, List.length_map, hel]
      rw [← hmx]
      by_cases hc : ic = true ∨ (r ++ p).any (fun c => decide (c.charge ≠ 0))
      · rw [if_pos hc, List.length_append]
        omega
      · rw [if_neg hc]
        omega
    · intro k hk
      have hER2 : elementRows = elements.map (fun el =>
          r.map (fun c => mkFrac (-(compLookup c.composition el)) 1) ++
          p.map (fun c => mkFrac (compLookup c.composition el) 1)) := by
        rw [hERdef, hel]
      have hlenER : elementRows.length = elements.length := by
        rw [hER2, List.length_map]
      have hgetER : matrix.getD k [] = elementRows.getD k [] := by
        rw [← hmx]
        by_cases hc : ic = true ∨ (r ++ p).any (fun c => decide (c.charge ≠ 0))
        · rw [if_pos hc]
          rw [getD_of_lt _ _ _ (by rw [List.length_append]; omega),
            getD_of_lt _ _ _ (by omega)]
          exact List.getElem_append_left (by omega)
        · rw [if_neg hc]
      rw [hgetER, hER2, getD_of_lt _ _ _ (by rw [List.length_map]; omega),
        List.getElem_map, getD_of_lt elements k [] hk]

/-- Mass conservation from an annihilated balance matrix: for every
element name, the coefficient-weighted reactant counts equal the
coefficient-weighted product counts. -/
theorem buildMatrix_conservation {r p : List Species} {ic : Bool} {matrix : Mat}
    {elements : List (List Char)} {coeffs : List Int}
    (hb : buildBalanceMatrix r p ic = some (matrix, elements))
    (hann : ∀ k, k < matrix.length →
      dotRow matrix k (fun j => ((coeffs.getD j 0 : Int) : ℚ))
        (r.length + p.length) = 0)
    (el : List Char) :
    (∑ i ∈ Finset.range r.length,
        coeffs.getD i 0 * compLookup (r.getD i dfltSpecies).composition el) =
    ∑ j ∈ Finset.range p.length,
        coeffs.getD (r.length + j) 0 *
          compLookup (p.getD j dfltSpecies).composition el := by
  obtain ⟨hel, hrect, hred, hlenle, hrow⟩ := buildBalanceMatrix_some hb
  by_cases hmem : el ∈ elements
  · obtain ⟨k, hk, hkel⟩ := List.mem_iff_getElem.mp hmem
    have h0 := hann k (by omega)
    have hkel2 : elements.getD k [] = el := by
      rw [getD_of_lt _ _ _ hk, hkel]
    rw [dotRow] at h0
    have hterm : ∀ j ∈ Finset.range (r.length + p.length),
        vE matrix k j * ((coeffs.getD j 0 : Int) : ℚ) =
          (if j < r.length
           then -((compLookup (r.getD j dfltSpecies).composition el : Int) : ℚ)
           else ((compLookup (p.getD (j - r.length) dfltSpecies).composition el : Int) : ℚ))
          * ((coeffs.getD j 0 : Int) : ℚ) := by
      intro j hj
      rw [Finset.mem_range] at hj
      rw [vE, entry, hrow k hk, hkel2]
      by_cases hjr : j < r.length
      · rw [if_pos hjr, entryD,
          getD_of_lt _ _ _ (by rw [List.length_append, List.length_map, List.length_map]; omega)]
        rw [List.getElem_append_left (by rw [List.length_map]; omega)]
        rw [List.getElem_map]
        rw [frac_val_int]
        rw [getD_of_lt r j dfltSpecies hjr]
        push_cast
        ring
      · rw [if_neg hjr, entryD,
          getD_of_lt _ _ _ (by rw [List.length_append, List.length_map, List.length_map]; omega)]
        rw [List.getElem_append_right (by rw [List.length_map]; omega)]
        simp only [List.length_map]
        rw [List.getElem_map]
        rw [frac_val_int]
        rw [getD_of_lt p _ dfltSpecies (by omega : j - r.length < p.length)]
    rw [Finset.sum_congr rfl hterm] at h0
    rw [Finset.sum_range_add] at h0
    have hsplit1 : ∀ i ∈ Finset.range r.length,
        (if i < r.length
         then -((compLookup (r.getD i dfltSpecies).composition el : Int) : ℚ)
         else ((compLookup (p.getD (i - r.length) dfltSpecies).composition el : Int) : ℚ))
          * ((coeffs.getD i 0 : Int) : ℚ) =
        -(((coeffs.getD i 0 : Int) : ℚ) *
          ((compLookup (r.getD i dfltSpecies).composition el : Int) : ℚ)) := by
      intro i hi
      rw [Finset.mem_range] at hi
      rw [if_pos hi]
      ring
    have hsplit2 : ∀ j ∈ Finset.range p.length,
        (if r.length + j < r.length
         then -((compLookup (r.getD (r.length + j) dfltSpecies).composition el : Int) : ℚ)
         else ((compLookup (p.getD (r.length + j - r.length) dfltSpecies).composition el : Int) : ℚ))
          * ((coeffs.getD (r.length + j) 0 : Int) : ℚ) =
        ((coeffs.getD (r.length + j) 0 : Int) : ℚ) *
          ((compLookup (p.getD j dfltSpecies).composition el : Int) : ℚ) := by
      intro j hj
      rw [if_neg (by omega)]
      have hj2 : r.length + j - r.length = j := by omega
      rw [hj2]
      ring
    rw [Finset.sum_congr rfl hsplit1, Finset.sum_congr rfl hsplit2] at h0
    have hq : (∑ i ∈ Finset.range r.length,
        ((coeffs.getD i 0 : Int) : ℚ) *
          ((compLookup (r.getD i dfltSpecies).composition el : Int) : ℚ)) =
        ∑ j ∈ Finset.range p.length,
        ((coeffs.getD (r.length + j) 0 : Int) : ℚ) *
          ((compLookup (p.getD j dfltSpecies).composition el : Int) : ℚ) := by
      rw [Finset.sum_neg_distrib] at h0
      linarith
    have hq2 : ((∑ i ∈ Finset.range r.length,
        coeffs.getD i 0 * compLookup (r.getD i dfltSpecies).composition el : Int) : ℚ) =
        ((∑ j ∈ Finset.range p.length,
        coeffs.getD (r.length + j) 0 *
          compLookup (p.getD j dfltSpecies).composition el : Int) : ℚ) := by
      push_cast
      exact hq
    exact_mod_cast hq2
  · have hz1 : ∀ i ∈ Finset.range r.length,
        coeffs.getD i 0 * compLookup (r.getD i dfltSpecies).composition el = 0 := by
      intro i hi
      rw [Finset.mem_range] at hi
      rw [compLookup_zero_of_not_collected
        (List.mem_append_left p (getD_mem_of_lt hi)) (by rw [← hel]; exact hmem),
        mul_zero]
    have hz2 : ∀ j ∈ Finset.range p.length,
        coeffs.getD (r.length + j) 0 *
          compLookup (p.getD j dfltSpecies).composition el = 0 := by
      intro j hj
      rw [Finset.mem_range] at hj
      rw [compLookup_zero_of_not_collected
        (List.mem_append_right r (getD_mem_of_lt hj)) (by rw [← hel]; exact hmem),
        mul_zero]
    rw [Finset.sum_congr rfl hz1, Finset.sum_congr rfl hz2,
      Finset.sum_const_zero, Finset.sum_const_zero]

/-- A successful nullspace computation returns a non-empty basis. -/
theorem computeNullspace_ne_nil {m : Mat} {basis : List (List Frac)}
    (h : computeNullspace m = some basis) : basis ≠ [] := by
  cases m with
  | nil =>
    rw [computeNullspace] at h
    cases h
  | cons row0 rest =>
    rw [computeNullspace] at h
    by_cases he : ((List.range row0.length).filter
        (fun j => ¬ j ∈ (elimLoop pickMaxAbs false (row0 :: rest).length
          row0.length row0.length 0 0 (row0 :: rest) []).2)).isEmpty
    · rw [if_pos he] at h
      cases h
    · rw [if_neg he] at h
      injection h with h2
      intro hnil
      rw [hnil] at h2
      have := List.map_eq_nil_iff.mp h2
      rw [List.isEmpty_iff] at he
      exact he this

/-- Spine of a successful `balanceChemicalEquation` run: the returned
species lists build a matrix, and the returned coefficients have full
length, are strictly positive, and annihilate every matrix row. -/
theorem balance_success_spec {eq mode : String} {res : BalanceSuccess}
    (h : balanceChemicalEquation eq mode = some res) :
    ∃ matrix elements,
      buildBalanceMatrix res.reactants res.products (mode = "redox") =
        some (matrix, elements) ∧
      res.coefficients.length = res.reactants.length + res.products.length ∧
      (∀ i, i < res.coefficients.length → 0 < res.coefficients.getD i 0) ∧
      (∀ k, k < matrix.length →
        dotRow matrix k (fun j => ((res.coefficients.getD j 0 : Int) : ℚ))
          (res.reactants.length + res.products.length) = 0) := by
  rw [balanceChemicalEquation] at h
  by_cases hnr : hasNoReaction eq.toList
  · rw [if_pos hnr] at h
    cases h
  · rw [if_neg hnr] at h
    cases hparse : parseChemicalEquation eq.toList with
    | none =>
      rw [hparse] at h
      cases h
    | some v =>
      obtain ⟨rs, ps, cx⟩ := v
      rw [hparse] at h
      simp only [] at h
      by_cases hval : validateEquationForMode rs ps mode
      · rw [if_neg (by simpa using hval)] at h
        cases hbm : buildBalanceMatrix rs ps (mode = "redox") with
        | none =>
          rw [hbm] at h
          cases h
        | some mv =>
          obtain ⟨matrix, elements⟩ := mv
          rw [hbm] at h
          simp only [] at h
          cases hns : computeNullspace matrix with
          | none =>
            rw [hns] at h
            cases h
          | some nullspace =>
            rw [hns] at h
            simp only [] at h
            cases hfb : findBestIntegerSolution nullspace rs.length with
            | none =>
              rw [hfb] at h
              cases h
            | some coefficients =>
              rw [hfb] at h
              simp only [] at h
              injection h with h2
              have hres1 : res.coefficients = coefficients := by rw [← h2]
              have hres2 : res.reactants = rs := by rw [← h2]
              have hres3 : res.products = ps := by rw [← h2]
              obtain ⟨helx, hrect, hredM, _, _⟩ := buildBalanceMatrix_some hbm
              cases hmat : matrix with
              | nil =>
                rw [hmat, computeNullspace] at hns
                cases hns
              | cons row0 restM =>
                have hcols : row0.length = rs.length + ps.length := by
                  apply hrect
                  rw [hmat]
                  exact List.mem_cons_self row0 restM
                have hrect2 : MatRect (row0 :: restM) row0.length := by
                  rw [hcols, ← hmat]
                  exact hrect
                have hred2 : MatReduced (row0 :: restM) := by
                  rw [← hmat]
                  exact hredM
                have hw := computeNullspace_inNull hrect2 hred2 (hmat ▸ hns)
                have hnb : ∀ b ∈ nullspace, VecGood (row0 :: restM) row0.length b :=
                  fun b hb => ⟨(hw b hb).1, (hw b hb).2.1, (hw b hb).2.2⟩
                have hne := computeNullspace_ne_nil hns
                obtain ⟨hclen, hcpos, hcann⟩ :=
                  findBest_conserves hnb hne (hres1 ▸ hfb)
                refine ⟨matrix, elements, ?_, ?_, hcpos, ?_⟩
                · rw [hres2, hres3]
                  exact hbm
                · rw [hclen, hcols, hres2, hres3]
                · intro k hk
                  rw [hres2, hres3, ← hcols, hmat]
                  exact hcann k (by rw [hmat] at hk; exact hk)
      · rw [if_pos (by simpa using hval)] at h
        cases h

/-- Mass conservation of every successful balance: for every element
name, the coefficient-weighted reactant counts equal the
coefficient-weighted product counts. -/
theorem balance_mass_conservation {eq mode : String} {res : BalanceSuccess}
    (h : balanceChemicalEquation eq mode = some res) (el : List Char) :
    (∑ i ∈ Finset.range res.reactants.length,
        res.coefficients.getD i 0 *
          compLookup (res.reactants.getD i dfltSpecies).composition el) =
    ∑ j ∈ Finset.range res.products.length,
        res.coefficients.getD (res.reactants.length + j) 0 *
          compLookup (res.products.getD j dfltSpecies).composition el := by
  obtain ⟨matrix, elements, hbm, _, _, hann⟩ := balance_success_spec h
  exact buildMatrix_conservation hbm hann el

/-- Positivity of every selector result: `findBestIntegerSolution` only
returns vectors whose entries all passed the strict sign checks. -/
theorem findBest_positive {nb : List (List Frac)} {nr : Nat} {coeffs : List Int}
    (h : findBestIntegerSolution nb nr = some coeffs) :
    ∀ i, i < coeffs.length → 0 < coeffs.getD i 0 := by
  obtain ⟨cand, s, heval, _⟩ := findBestIntegerSolution_some h
  have hspec := evaluateNullspaceSolution_some heval
  intro i hi
  exact hspec.2 i hi

/-- `trySep` of the empty remainder fails. -/
theorem trySep_nil : trySep [] = none := rfl

/-- The arrow-split loop fails exactly when no position of the remainder
starts an (optionally space-prefixed) arrow token. -/
theorem arrowSplitGo_none_iff (fuel : Nat) :
    ∀ left rest : List Char, rest.length < fuel →
    (arrowSplitGo fuel left rest = none ↔ ∀ i, trySep (rest.drop i) = none) := by
  induction fuel with
  | zero => intro left rest h; omega
  | succ fuel ih =>
    intro left rest hlen
    cases hsep : trySep rest with
    | some r =>
      have hred : arrowSplitGo (fuel + 1) left rest =
          some (left.reverse, r.dropWhile jsIsSpace) := by
        simp [arrowSplitGo, hsep]
      rw [hred]
      constructor
      · intro hc
        cases hc
      · intro hall
        have := hall 0
        rw [List.drop_zero, hsep] at this
        cases this
    | none =>
      cases rest with
      | nil =>
        have hred : arrowSplitGo (fuel + 1) left [] = none := rfl
        rw [hred]
        constructor
        · intro _ i
          rw [List.drop_nil]
          exact trySep_nil
        · intro _
          rfl
      | cons c cs =>
        have hred : arrowSplitGo (fuel + 1) left (c :: cs) =
            arrowSplitGo fuel (c :: left) cs := by
          simp [arrowSplitGo, hsep]
        rw [hred, ih (c :: left) cs (by simp at hlen ⊢; omega)]
        constructor
        · intro hall i
          cases i with
          | zero =>
            rw [List.drop_zero]
            exact hsep
          | succ i2 =>
            rw [List.drop_succ_cons]
            exact hall i2
        · intro hall i
          have := hall (i + 1)
          rw [List.drop_succ_cons] at this
          exact this

/-- `arrowSplit` finds no split exactly when no position of the input
starts an arrow separator. -/
theorem arrowSplit_none_iff (s : List Char) :
    arrowSplit s = none ↔ ∀ i, trySep (s.drop i) = none := by
  rw [arrowSplit]
  exact arrowSplitGo_none_iff (s.length + 1) [] s (by omega)

/-- Failure characterization of the equation preprocessor: it returns
`none` exactly when no position of the normalized input starts an arrow
separator, or the first arrow split leaves an empty side.  (More than one
separator is NOT rejected: the split is at the first one.) -/
theorem parseChemicalEquation_none_iff (eqn : List Char) :
    parseChemicalEquation eqn = none ↔
      ((∀ i, trySep ((chargeNormalize (normalizeChemInput eqn)).drop i) = none) ∨
       ∃ l r, arrowSplit (chargeNormalize (normalizeChemInput eqn)) = some (l, r) ∧
         (l = [] ∨ r = [])) := by
  rw [parseChemicalEquation]
  cases hsplit : arrowSplit (chargeNormalize (normalizeChemInput eqn)) with
  | none =>
    simp only []
    constructor
    · intro _
      left
      exact (arrowSplit_none_iff _).mp hsplit
    · intro _
      trivial
  | some lr =>
    obtain ⟨l, r⟩ := lr
    simp only []
    by_cases hempty : l.isEmpty ∨ r.isEmpty
    · rw [if_pos hempty]
      constructor
      · intro _
        right
        refine ⟨l, r, rfl, ?_⟩
        rcases hempty with h | h
        · exact Or.inl (List.isEmpty_iff.mp h)
        · exact Or.inr (List.isEmpty_iff.mp h)
      · intro _
        trivial
    · rw [if_neg hempty]
      constructor
      · intro hc
        simp at hc
      · rintro (hall | ⟨l2, r2, hsome, hside⟩)
        · rw [(arrowSplit_none_iff _).mpr hall] at hsplit
          cases hsplit
        · injection hsome with hpair
          injection hpair with h1 h2
          exfalso
          apply hempty
          rcases hside with h | h
          · refine Or.inl ?_
            rw [h1, h]
            rfl
          · refine Or.inr ?_
            rw [h2, h]
            rfl

/-- `any` over a mapped list. -/
theorem anyMap_eq {α β : Type} (f : α → β) (l : List α) (p : β → Bool) :
    (l.map f).any p = l.any (fun a => p (f a)) := by
  induction l with
  | nil => rfl
  | cons h t ih => simp [List.any_cons, ih]

/-- The balance matrix reads only composition and charge: two species
lists that agree on those (in particular, lists differing only in
`coefficient` and `userInputCoefficient`) build identical matrices. -/
theorem buildBalanceMatrix_coeff_independent {r p r' p' : List Species} (ic : Bool)
    (hr : r.map (fun c => (c.composition, c.charge)) =
      r'.map (fun c => (c.composition, c.charge)))
    (hp : p.map (fun c => (c.composition, c.charge)) =
      p'.map (fun c => (c.composition, c.charge))) :
    buildBalanceMatrix r p ic = buildBalanceMatrix r' p' ic := by
  have hall : (r ++ p).map (fun c => (c.composition, c.charge)) =
      (r' ++ p').map (fun c => (c.composition, c.charge)) := by
    rw [List.map_append, List.map_append, hr, hp]
  have hlift : ∀ {β : Type} (g : List (List Char × Int) → Int → β)
      (l l' : List Species),
      l.map (fun c => (c.composition, c.charge)) =
        l'.map (fun c => (c.composition, c.charge)) →
      l.map (fun c => g c.composition c.charge) =
        l'.map (fun c => g c.composition c.charge) := by
    intro β g l l' h
    have h2 := congrArg
      (List.map (fun kc : List (List Char × Int) × Int => g kc.1 kc.2)) h
    rw [List.map_map, List.map_map] at h2
    simpa [Function.comp] using h2
  have hanyE : (r ++ p).any (fun c => c.composition.isEmpty) =
      (r' ++ p').any (fun c => c.composition.isEmpty) := by
    have h2 := congrArg
      (List.any · (fun kc : List (List Char × Int) × Int => kc.1.isEmpty)) hall
    simp only [] at h2
    rw [anyMap_eq, anyMap_eq] at h2
    exact h2
  have hanyC : (r ++ p).any (fun c => decide (c.charge ≠ 0)) =
      (r' ++ p').any (fun c => decide (c.charge ≠ 0)) := by
    have h2 := congrArg
      (List.any · (fun kc : List (List Char × Int) × Int => decide (kc.2 ≠ 0))) hall
    simp only [] at h2
    rw [anyMap_eq, anyMap_eq] at h2
    exact h2
  have hel : collectElements (r ++ p) = collectElements (r' ++ p') := by
    rw [collectElements, collectElements]
    have h2 := congrArg
      (List.foldl (fun acc (kc : List (List Char × Int) × Int) =>
        kc.1.foldl (fun acc2 kv =>
          if acc2.any (fun e => e = kv.1) then acc2 else acc2 ++ [kv.1]) acc)
        ([] : List (List Char))) hall
    rw [List.foldl_map, List.foldl_map] at h2
    exact h2
  rw [buildBalanceMatrix, buildBalanceMatrix, hanyE]
  by_cases hc : (r' ++ p').any (fun c => c.composition.isEmpty)
  · rw [if_pos hc, if_pos hc]
  · rw [if_neg hc, if_neg hc]
    simp only []
    rw [hel, hanyC]
    have hrows : ∀ el,
        r.map (fun c => mkFrac (-(compLookup c.composition el)) 1) =
          r'.map (fun c => mkFrac (-(compLookup c.composition el)) 1) :=
      fun el => hlift (fun comp _ => mkFrac (-(compLookup comp el)) 1) r r' hr
    have hrows2 : ∀ el,
        p.map (fun c => mkFrac (compLookup c.composition el) 1) =
          p'.map (fun c => mkFrac (compLookup c.composition el) 1) :=
      fun el => hlift (fun comp _ => mkFrac (compLookup comp el) 1) p p' hp
    have hch1 : r.map (fun c => mkFrac (-c.charge) 1) =
        r'.map (fun c => mkFrac (-c.charge) 1) :=
      hlift (fun _ ch => mkFrac (-ch) 1) r r' hr
    have hch2 : p.map (fun c => mkFrac c.charge 1) =
        p'.map (fun c => mkFrac c.charge 1) :=
      hlift (fun _ ch => mkFrac ch 1) p p' hp
    have hER : (collectElements (r' ++ p')).map (fun el =>
        r.map (fun c => mkFrac (-(compLookup c.composition el)) 1) ++
        p.map (fun c => mkFrac (compLookup c.composition el) 1)) =
        (collectElements (r' ++ p')).map (fun el =>
        r'.map (fun c => mkFrac (-(compLookup c.composition el)) 1) ++
        p'.map (fun c => mkFrac (compLookup c.composition el) 1)) := by
      apply List.map_congr_left
      intro el _
      rw [hrows el, hrows2 el]
    rw [hER, hch1, hch2]

set_option maxRecDepth 10000

/-- C1: for every equation string and mode on which `balanceChemicalEquation`
returns a success result, and every element name, the sum over reactants of
(returned coefficient times that species' count of the element) equals the
sum over products of (returned coefficient times that species' count). -/
theorem claim_C1_mass_conservation {eq mode : String} {res : BalanceSuccess}
    (h : balanceChemicalEquation eq mode = some res) (el : List Char) :
    (∑ i ∈ Finset.range res.reactants.length,
        res.coefficients.getD i 0 *
          compLookup (res.reactants.getD i dfltSpecies).composition el) =
    ∑ j ∈ Finset.range res.products.length,
        res.coefficients.getD (res.reactants.length + j) 0 *
          compLookup (res.products.getD j dfltSpecies).composition el :=
  balance_mass_conservation h el

/-- Witness for C1 at the concrete run `H2 + O2 -> H2O` and the element
`H`. -/
theorem claim_C1_witness :
    ∃ res, balanceChemicalEquation "H2 + O2 -> H2O" "standard" = some res ∧
      (∑ i ∈ Finset.range res.reactants.length,
          res.coefficients.getD i 0 *
            compLookup (res.reactants.getD i dfltSpecies).composition ['H']) =
      ∑ j ∈ Finset.range res.products.length,
          res.coefficients.getD (res.reactants.length + j) 0 *
            compLookup (res.products.getD j dfltSpecies).composition ['H'] := by
  cases hx : balanceChemicalEquation "H2 + O2 -> H2O" "standard" with
  | none =>
    have hsome : (balanceChemicalEquation "H2 + O2 -> H2O" "standard").isSome = true := by
      decide
    rw [hx] at hsome
    cases hsome
  | some r => exact ⟨r, rfl, claim_C1_mass_conservation hx ['H']⟩

/-- C2: balancing `H2 + O2 -> H2O` in standard mode succeeds with the
coefficient vector `[2, 1, 2]` in reactants-then-products column order. -/
theorem claim_C2_water :
    (balanceChemicalEquation "H2 + O2 -> H2O" "standard").map
      (fun r => r.coefficients) = some [2, 1, 2] := by
  decide

/-- C3: amended. `findBestIntegerSolution` — the selector that
`balanceChemicalEquation` actually uses — returns only vectors whose entries
are all strictly positive, so every coefficient of every successful balance
result is at least 1.  (The original claim is false of `findBestNullVector`
in balancer.js, which checks positivity of the PRODUCT entries only; see the
counterexample.) -/
theorem claim_C3_selector_positivity :
    (∀ (nb : List (List Frac)) (nr : Nat) (coeffs : List Int),
        findBestIntegerSolution nb nr = some coeffs →
        ∀ i, i < coeffs.length → 0 < coeffs.getD i 0) ∧
    (∀ (eq mode : String) (res : BalanceSuccess),
        balanceChemicalEquation eq mode = some res →
        ∀ i, i < res.coefficients.length → 1 ≤ res.coefficients.getD i 0) := by
  constructor
  · intro nb nr coeffs h i hi
    exact findBest_positive h i hi
  · intro eq mode res h i hi
    obtain ⟨m, e, _, _, hpos, _⟩ := balance_success_spec h
    have := hpos i hi
    omega

/-- Counterexample to C3 as stated: `findBestNullVector` (balancer.js)
accepts the candidate vector `[-1, 1]` for one reactant and one product even
though its reactant entry is negative, because it only requires SOME product
entry to be positive. -/
theorem claim_C3_counterexample :
    ChemicalBalancer.findBestNullVector 1 1 [[mkFrac (-1) 1, mkFrac 1 1]] =
      some [mkFrac (-1) 1, mkFrac 1 1] ∧
    (mkFrac (-1) 1).isNegative = true := by
  decide

/-- C4: amended. `FractionUtils.toIntegers` computes exactly the spec
formula `toIntegersSpec` (LCM of denominators, then division by the GCD,
all in exact integer arithmetic).  The balancer's `convertToIntegers`
returns the spec vector up to an overall sign flip, its output has gcd 1
whenever some input entry is nonzero, and the output is proportional to the
input by a nonzero rational.  (As stated the claim is false of
`convertToIntegers`: it flips signs when no entry is positive, and on an
all-zero vector the gcd of the output is 0, not 1; see the
counterexample.) -/
theorem claim_C4_toIntegers_reduction :
    (∀ fractions : List Frac,
        FractionUtils.toIntegers fractions = toIntegersSpec fractions) ∧
    (∀ fractions : List Frac, (∀ f ∈ fractions, f.Reduced) →
        convertToIntegers fractions = toIntegersSpec fractions ∨
        convertToIntegers fractions =
          (toIntegersSpec fractions).map (fun n => -n)) ∧
    (∀ fractions : List Frac, (∀ f ∈ fractions, f.Reduced) →
        (∃ f ∈ fractions, f.num ≠ 0) →
        listGcd (convertToIntegers fractions) = 1) ∧
    (∀ fractions : List Frac, (∀ f ∈ fractions, f.Reduced) →
        ∃ κ : ℚ, κ ≠ 0 ∧ ∀ i, i < fractions.length →
          (((convertToIntegers fractions).getD i 0 : Int) : ℚ) =
            κ * (fractions.getD i { num := 0, den := 1 }).val) := by
  refine ⟨toIntegers_eq_spec, ?_, ?_, ?_⟩
  · intro fractions hred
    exact convertToIntegers_eq_spec hred
  · intro fractions hred hnz
    exact convertToIntegers_gcd_one hred hnz
  · intro fractions hred
    exact convertToIntegers_prop hred

/-- Counterexample to C4 as stated, for `convertToIntegers`: on the input
`[-1]` the output is the negation of the spec formula's output, and on the
all-zero input `[0]` the gcd of the returned coefficients is 0, not 1. -/
theorem claim_C4_counterexample :
    convertToIntegers [mkFrac (-1) 1] ≠ toIntegersSpec [mkFrac (-1) 1] ∧
    listGcd (convertToIntegers [mkFrac 0 1]) ≠ 1 := by
  decide

/-- C5: for every nonempty rectangular matrix of constructor-reduced
fractions, every vector in the basis returned by `LinearAlgebra.nullspace`
annihilates every row of the matrix, sets its own free (non-pivot) column
to 1 and every other free column to 0, and the returned basis is empty
exactly when the `rref` rank equals the column count; moreover every basis
vector returned by `computeNullspace` (app.js) also annihilates every
row. -/
theorem claim_C5_nullspace_basis {row0 : List Frac} {rest : Mat}
    (hrect : MatRect (row0 :: rest) row0.length)
    (hred : MatReduced (row0 :: rest)) :
    (∀ i, i < (LinearAlgebra.nullspace (row0 :: rest)).length →
      (∀ r, r < (row0 :: rest).length →
        dotRow (row0 :: rest) r
          (fun j => (entryD ((LinearAlgebra.nullspace (row0 :: rest)).getD i []) j).val)
          row0.length = 0) ∧
      entryD ((LinearAlgebra.nullspace (row0 :: rest)).getD i [])
        (((List.range row0.length).filter
          (fun j => ¬ j ∈ (LinearAlgebra.rref (row0 :: rest)).pivotCols)).getD i 0) =
        mkFrac 1 1 ∧
      (∀ j, j ∉ (LinearAlgebra.rref (row0 :: rest)).pivotCols →
        j ≠ ((List.range row0.length).filter
          (fun j2 => ¬ j2 ∈ (LinearAlgebra.rref (row0 :: rest)).pivotCols)).getD i 0 →
        entryD ((LinearAlgebra.nullspace (row0 :: rest)).getD i []) j = mkFrac 0 1)) ∧
    (LinearAlgebra.nullspace (row0 :: rest) = [] ↔
      (LinearAlgebra.rref (row0 :: rest)).rank = row0.length) ∧
    (∀ basis, computeNullspace (row0 :: rest) = some basis →
      ∀ w ∈ basis, ∀ r, r < (row0 :: rest).length →
        dotRow (row0 :: rest) r (fun j => (entryD w j).val) row0.length = 0) := by
  refine ⟨?_, nullspace_empty_iff hrect hred, ?_⟩
  · intro i hi
    obtain ⟨_, _, hann, hone, hzero⟩ := nullspace_vec_spec hrect hred hi
    exact ⟨hann, hone, hzero⟩
  · intro basis hbasis w hw r hr
    exact ((computeNullspace_inNull hrect hred hbasis) w hw).2.2 r hr

/-- Witness for C5 at the concrete one-row matrix `[[1, 2]]`: its rank is 1,
not the column count 2, so the basis is nonempty. -/
theorem claim_C5_witness :
    (LinearAlgebra.nullspace [[mkFrac 1 1, mkFrac 2 1]] = [] ↔
      (LinearAlgebra.rref [[mkFrac 1 1, mkFrac 2 1]]).rank =
        ([mkFrac 1 1, mkFrac 2 1] : List Frac).length) :=
  (claim_C5_nullspace_basis
    (show MatRect [[mkFrac 1 1, mkFrac 2 1]] ([mkFrac 1 1, mkFrac 2 1] : List Frac).length by
      unfold MatRect; decide)
    (show MatReduced [[mkFrac 1 1, mkFrac 2 1]] by
      unfold MatReduced; decide)).2.1

/-- C6: amended. `parseChemicalEquation` returns `none` exactly when the
normalized input contains no arrow-equivalent separator at any position, or
when the split at the FIRST separator leaves an empty left or right side.
(The original claim's "more than one separator" failure mode does not
exist: the lazy-prefix regex splits at the first separator and any later
separators are silently absorbed into the right-hand side; see the
counterexample.) -/
theorem claim_C6_malformed_equation (eqn : List Char) :
    parseChemicalEquation eqn = none ↔
      ((∀ i, trySep ((chargeNormalize (normalizeChemInput eqn)).drop i) = none) ∨
       ∃ l r, arrowSplit (chargeNormalize (normalizeChemInput eqn)) = some (l, r) ∧
         (l = [] ∨ r = [])) :=
  parseChemicalEquation_none_iff eqn

/-- Counterexample to C6 as stated: `H = H = H` contains two separator
occurrences, yet parsing succeeds and the whole equation balances with
coefficients `[2, 1]` (right side `H = H` is parsed as one side). -/
theorem claim_C6_counterexample :
    (parseChemicalEquation ("H = H = H".toList)).isSome = true ∧
    trySep ((chargeNormalize (normalizeChemInput ("H = H = H".toList))).drop 1) ≠ none ∧
    trySep ((chargeNormalize (normalizeChemInput ("H = H = H".toList))).drop 5) ≠ none ∧
    (balanceChemicalEquation "H = H = H" "standard").map
      (fun r => r.coefficients) = some [2, 1] := by
  decide

/-- C7: the lexer does NOT emit the group tokens for a non-phase
parenthesized run: tokenizing `(OH)2` returns only the LPAREN and EOF
tokens, losing the ELEMENT, RPAREN and NUMBER tokens, because `readPhase`
consumes input without rewinding when the content is not a phase label and
`nextToken` then advances past everything it consumed. -/
theorem claim_C7_lexer_token_loss :
    ChemicalLexer.tokenize ("(OH)2".toList) =
      [ChemicalLexer.Token.lparen 0, ChemicalLexer.Token.eof 5] := by
  decide

/-- C8: after preprocessing (`cancelSpectatorsAndMergeDuplicates`: merge
duplicates by summing coefficients, cancel `min` from matching pairs, drop
zero entries), no (formula, charge, phase) triple occurs in both the
returned reactants and the returned products — both for the preprocessing
function on arbitrary inputs and for the sides of every successful
`parseChemicalEquation`. -/
theorem claim_C8_no_shared_triple :
    (∀ reactants products : List Species,
        ∀ r ∈ (cancelSpectatorsAndMergeDuplicates reactants products).1,
        ∀ p ∈ (cancelSpectatorsAndMergeDuplicates reactants products).2.1,
          ¬ sameTriple r p) ∧
    (∀ (eqn : List Char) rs ps cx,
        parseChemicalEquation eqn = some (rs, ps, cx) →
        ∀ r ∈ rs, ∀ p ∈ ps, ¬ sameTriple r p) := by
  refine ⟨cancelSpectators_no_common, ?_⟩
  intro eqn rs ps cx h r hr p hp
  rw [parseChemicalEquation] at h
  cases hsplit : arrowSplit (chargeNormalize (normalizeChemInput eqn)) with
  | none =>
    rw [hsplit] at h
    cases h
  | some lr =>
    obtain ⟨l, rr⟩ := lr
    rw [hsplit] at h
    simp only [] at h
    by_cases hemp : l.isEmpty ∨ rr.isEmpty
    · rw [if_pos hemp] at h
      cases h
    · rw [if_neg hemp] at h
      have h1 : cancelSpectatorsAndMergeDuplicates
          (parseEquationSide l) (parseEquationSide rr) = (rs, ps, cx) := by
        injection h
      have hrs : rs = (cancelSpectatorsAndMergeDuplicates
          (parseEquationSide l) (parseEquationSide rr)).1 := by rw [h1]
      have hps : ps = (cancelSpectatorsAndMergeDuplicates
          (parseEquationSide l) (parseEquationSide rr)).2.1 := by rw [h1]
      rw [hrs] at hr
      rw [hps] at hp
      exact cancelSpectators_no_common (parseEquationSide l) (parseEquationSide rr)
        r hr p hp

/-- C9: amended. The constraint matrix built by `buildBalanceMatrix`
depends only on the composition and charge of each species, never on the
`coefficient` or `userInputCoefficient` fields in which leading counts are
stored: two species lists with equal composition-and-charge projections
yield identical matrices.  (The original two-run claim is false: a leading
count written directly against the formula, as in `5H2O`, is parsed as part
of the species by `parseChemicalFormula` and scales its composition, so the
balance outcome changes; see the counterexample.) -/
theorem claim_C9_coeff_hint_discarded {r p r' p' : List Species} (ic : Bool)
    (hr : r.map (fun c => (c.composition, c.charge)) =
      r'.map (fun c => (c.composition, c.charge)))
    (hp : p.map (fun c => (c.composition, c.charge)) =
      p'.map (fun c => (c.composition, c.charge))) :
    buildBalanceMatrix r p ic = buildBalanceMatrix r' p' ic :=
  buildBalanceMatrix_coeff_independent ic hr hp

/-- Witness for C9: two pairs of one-species lists that agree on
composition and charge but differ in `coefficient` and
`userInputCoefficient` produce the same matrix. -/
theorem claim_C9_witness :
    buildBalanceMatrix
      [{ formula := ['H'], composition := [(['H'], 1)], charge := 0,
         phase := none, coefficient := 5, userInputCoefficient := 5 }]
      [{ formula := ['H'], composition := [(['H'], 1)], charge := 0,
         phase := none, coefficient := 1, userInputCoefficient := 1 }] true =
    buildBalanceMatrix
      [{ formula := ['H'], composition := [(['H'], 1)], charge := 0,
         phase := none, coefficient := 1, userInputCoefficient := 1 }]
      [{ formula := ['H'], composition := [(['H'], 1)], charge := 0,
         phase := none, coefficient := 7, userInputCoefficient := 3 }] true :=
  claim_C9_coeff_hint_discarded true (by decide) (by decide)

/-- Counterexample to C9 as stated: prefixing the first species of
`5H2O + H2 + O2 -> H2O + H2O2` with the user-typed count `3 ` (digits and a
space) changes both the parsed species list and the returned
coefficients. -/
theorem claim_C9_counterexample :
    (balanceChemicalEquation "5H2O + H2 + O2 -> H2O + H2O2" "standard").map
      (fun r => r.coefficients) = some [1, 1, 1] ∧
    (balanceChemicalEquation "3 5H2O + H2 + O2 -> H2O + H2O2" "standard").map
      (fun r => r.coefficients) = some [2, 1, 2, 3] := by
  decide
